import Mathlib

/-!
# Rejection-inversion Zipf sampler (`src/datagen/zipf.h`, `src/datagen/zipf.cpp`)

Shallow embedding of `ZipfDistribution` over the real numbers: every C++ `double` is read as a
real number, `std::log1p x` as `Real.log (1 + x)`, `std::expm1 x` as `Real.exp x - 1`, and the
C++ `int` as an integer.  The uniform generator is a stream of draws.
-/

namespace Zipf

set_option maxHeartbeats 4000000

/-! ## Helper functions of `zipf.cpp` -/

/-- Function `helper1` of `zipf.cpp`: `log(1 + x) / x`, with a series when `x` is close to 0. -/
noncomputable def helper1 (x : ℝ) : ℝ :=
  if |x| > 1e-8 then
    Real.log (1 + x) / x
  else
    1.0 - x * (0.5 - x * (1.0 / 3.0 - 0.25 * x))

/-- Function `helper2` of `zipf.cpp`: `(exp(x) - 1) / x`, with a series when `x` is close to 0. -/
noncomputable def helper2 (x : ℝ) : ℝ :=
  if |x| > 1e-8 then
    (Real.exp x - 1) / x
  else
    1.0 + x * 0.5 * (1.0 + x / 3.0 * (1.0 + 0.25 * x))

/-- What `helper1` is documented to calculate: `log(1 + x) / x`, continued by `1` at `x = 0`. -/
noncomputable def log_ratio (x : ℝ) : ℝ :=
  if x = 0 then 1 else Real.log (1 + x) / x

/-- What `helper2` is documented to calculate: `(exp(x) - 1) / x` if `x` is nonzero, else `1`. -/
noncomputable def exp_ratio (x : ℝ) : ℝ :=
  if x = 0 then 1 else (Real.exp x - 1) / x

/-! ## Member functions, parameterised by the member `exponent_` -/

/-- Method `ZipfDistribution::h_integral`. -/
noncomputable def h_integral (exponent_ : ℝ) (x : ℝ) : ℝ :=
  let log_x := Real.log x
  helper2 ((1.0 - exponent_) * log_x) * log_x

/-- Method `ZipfDistribution::h`. -/
noncomputable def h (exponent_ : ℝ) (x : ℝ) : ℝ :=
  Real.exp (-exponent_ * Real.log x)

/-- Method `ZipfDistribution::h_integral_inv`. -/
noncomputable def h_integral_inv (exponent_ : ℝ) (x : ℝ) : ℝ :=
  let t := x * (1.0 - exponent_)
  let t := if t < -1.0 then -1.0 else t
  Real.exp (helper1 t * x)

/-- The integral function `H` that `h_integral` is documented to return: `h_integral` with the
documented function in place of `helper2`. -/
noncomputable def h_integral_exact (exponent_ : ℝ) (x : ℝ) : ℝ :=
  exp_ratio ((1 - exponent_) * Real.log x) * Real.log x

/-- The inverse of `H` that `h_integral_inv` is documented to return: `h_integral_inv` with the
documented function in place of `helper1`, on arguments where the cap is not taken. -/
noncomputable def h_integral_inv_exact (exponent_ : ℝ) (x : ℝ) : ℝ :=
  Real.exp (log_ratio (x * (1 - exponent_)) * x)

/-- The ratio `Hinv(H(m + 1/2) - h(m)) / m` of the documented transforms as a function of
`w = 1 / m`: with `a = 1 - exponent_` it is `((1 + w/2) ^ a - a * w) ^ (1 / a)`, and
`(1 + w/2) * exp (-w)` at `a = 0`.  The function `f` of the comment in `operator()` is
`f(m) = m - m * candidate_ratio (1 / m)`. -/
noncomputable def candidate_ratio (exponent_ : ℝ) (w : ℝ) : ℝ :=
  if 1 - exponent_ = 0 then (1 + w / 2) * Real.exp (-w)
  else Real.exp (Real.log (Real.exp ((1 - exponent_) * Real.log (1 + w / 2))
    - (1 - exponent_) * w) / (1 - exponent_))

/-! ## The class and its constructor -/

/-- Data members of `ZipfDistribution`, in declaration order (the uniform distribution object
carries no data the embedding needs). -/
structure ZipfDistribution where
  num_elements_ : Int
  exponent_ : ℝ
  h_integral_x1_ : ℝ
  h_integral_num_elements_ : ℝ
  s_ : ℝ

/-- The `std::logic_error` thrown by the constructor: which check failed, and the value that is
appended to the message. -/
inductive logic_error where
  | num_elements_not_positive (num_elements : Int)
  | exponent_not_positive (exponent : ℝ)

/-- Fixed part of the message of each error. -/
def logic_error.what_head : logic_error → String
  | .num_elements_not_positive _ => "number of elements is not strictly positive: "
  | .exponent_not_positive _ => "exponent is not strictly positive: "

/-- Message `what()` of the first error: the fixed part followed by
`std::to_string(num_elements)`, the decimal value of the `int`. -/
def what_num_elements (num_elements : Int) : String :=
  "number of elements is not strictly positive: " ++ toString num_elements

/-- Constructor `ZipfDistribution::ZipfDistribution`: the member initialisers run in declaration
order, and a `throw` inside one of them abandons the construction. -/
noncomputable def ZipfDistribution.new (num_elements : Int) (exponent : ℝ) :
    Except logic_error ZipfDistribution := do
  let num_elements_ ←
    if num_elements > 0 then pure num_elements
    else throw (logic_error.num_elements_not_positive num_elements)
  let exponent_ ←
    if exponent > 0.0 then pure exponent
    else throw (logic_error.exponent_not_positive exponent)
  let h_integral_x1_ := h_integral exponent_ 1.5 - 1
  let h_integral_num_elements_ := h_integral exponent_ ((num_elements_ : ℝ) + 0.5)
  let s_ := 2 - h_integral_inv exponent_ (h_integral exponent_ 2.5 - h exponent_ 2)
  pure { num_elements_, exponent_, h_integral_x1_, h_integral_num_elements_, s_ }

/-! ## `operator()` -/

/-- Function `std::round` followed by the cast to `int`: nearest integer, ties away from zero. -/
noncomputable def round_to_int (x : ℝ) : Int :=
  if 0 ≤ x then ⌊x + 1 / 2⌋ else ⌈x - 1 / 2⌉

/-- Value `u` of one loop iteration, from the draw `r` of the uniform distribution. -/
noncomputable def ZipfDistribution.u_of (z : ZipfDistribution) (r : ℝ) : ℝ :=
  z.h_integral_num_elements_ + r * (z.h_integral_x1_ - z.h_integral_num_elements_)

/-- Limiting `k` to the range `[1, num_elements_]`. -/
def ZipfDistribution.limit (z : ZipfDistribution) (k : Int) : Int :=
  if k < 1 then 1 else if k > z.num_elements_ then z.num_elements_ else k

/-- Value `k` of one loop iteration after the limit to `[1, num_elements_]`. -/
noncomputable def ZipfDistribution.k_of (z : ZipfDistribution) (r : ℝ) : Int :=
  z.limit (round_to_int (h_integral_inv z.exponent_ (z.u_of r)))

/-- The acceptance test `k - x <= s_ || u >= h_integral(k + 0.5) - h(k)`. -/
def ZipfDistribution.accepts (z : ZipfDistribution) (u x : ℝ) (k : Int) : Prop :=
  (k : ℝ) - x ≤ z.s_ ∨ u ≥ h_integral z.exponent_ ((k : ℝ) + 0.5) - h z.exponent_ (k : ℝ)

/-- One iteration of the `while (true)` loop with the draw `r`: `some k` when the iteration
returns `k`, `none` when the loop goes round again. -/
noncomputable def ZipfDistribution.iteration (z : ZipfDistribution) (r : ℝ) : Option Int :=
  let u := z.u_of r
  let x := h_integral_inv z.exponent_ u
  let k := z.limit (round_to_int x)
  open Classical in if z.accepts u x k then some k else none

/-- The loop of `operator()`, run for at most `fuel` iterations on the stream `rng` of draws
starting at draw `i`: the returned value together with the number of draws consumed so far. -/
noncomputable def ZipfDistribution.sample_from (z : ZipfDistribution) (rng : ℕ → ℝ) :
    ℕ → ℕ → Option (Int × ℕ)
  | 0, _ => none
  | fuel + 1, i =>
    match z.iteration (rng i) with
    | some k => some (k, i + 1)
    | none => z.sample_from rng fuel (i + 1)

/-- Method `operator()` with a bound on the number of iterations. -/
noncomputable def ZipfDistribution.sample (z : ZipfDistribution) (rng : ℕ → ℝ) (fuel : ℕ) :
    Option (Int × ℕ) :=
  z.sample_from rng fuel 0

/-! ## Basic facts about the embedding -/

theorem new_ok (n : Int) (q : ℝ) (hn : 0 < n) (hq : 0 < q) :
    ZipfDistribution.new n q = .ok
      { num_elements_ := n
        exponent_ := q
        h_integral_x1_ := h_integral q 1.5 - 1
        h_integral_num_elements_ := h_integral q ((n : ℝ) + 0.5)
        s_ := 2 - h_integral_inv q (h_integral q 2.5 - h q 2) } := by
  have hq' : (q : ℝ) > 0.0 := by norm_num; exact hq
  simp only [ZipfDistribution.new, gt_iff_lt, hn, if_true, hq'.lt]
  rfl

/-! ### The series branches against the functions they replace -/

theorem helper2_series (x : ℝ) (hx : |x| ≤ 1e-8) :
    helper2 x = 1 + x / 2 + x ^ 2 / 6 + x ^ 3 / 24 := by
  have hx' : ¬ (|x| > 1e-8) := not_lt.mpr hx
  rw [helper2, if_neg hx']
  norm_num
  ring

/-! ### The helpers against the functions they are documented to calculate -/

theorem helper2_direct (y : ℝ) (hy : |y| > 1e-8) : helper2 y = exp_ratio y := by
  have h0 : y ≠ 0 := by
    rintro rfl
    norm_num at hy
  rw [helper2, if_pos hy, exp_ratio, if_neg h0]

/-- The quartic Taylor polynomial of `exp` times `exp (-y)` is antitone. -/
theorem exp_taylor_antitone :
    Antitone (fun y : ℝ => (1 + y + y ^ 2 / 2 + y ^ 3 / 6 + y ^ 4 / 24) * Real.exp (-y)) := by
  have hd : ∀ y : ℝ, HasDerivAt
      (fun y : ℝ => (1 + y + y ^ 2 / 2 + y ^ 3 / 6 + y ^ 4 / 24) * Real.exp (-y))
      (-(y ^ 4 / 24) * Real.exp (-y)) y := by
    intro y
    have h1 : HasDerivAt (fun y : ℝ => 1 + y + y ^ 2 / 2 + y ^ 3 / 6 + y ^ 4 / 24)
        (1 + y + y ^ 2 / 2 + y ^ 3 / 6) y := by
      have := ((((hasDerivAt_const y (1:ℝ)).add (hasDerivAt_id y)).add
        ((hasDerivAt_pow 2 y).div_const 2)).add ((hasDerivAt_pow 3 y).div_const 6)).add
        ((hasDerivAt_pow 4 y).div_const 24)
      convert this using 1
      simp
      ring
    have h2 : HasDerivAt (fun y : ℝ => Real.exp (-y)) (-Real.exp (-y)) y := by
      have := (Real.hasDerivAt_exp (-y)).comp y (hasDerivAt_neg y)
      convert this using 1
      ring
    convert h1.mul h2 using 1
    ring
  apply antitone_of_deriv_nonpos (fun y => (hd y).differentiableAt)
  intro y
  rw [(hd y).deriv]
  have : 0 ≤ y ^ 4 / 24 * Real.exp (-y) := by positivity
  linarith

/-- `log (1 + t)` minus its quartic Taylor polynomial is monotone on `(-1, ∞)`. -/
theorem log_taylor_monotone :
    MonotoneOn (fun t : ℝ => Real.log (1 + t) - (t - t ^ 2 / 2 + t ^ 3 / 3 - t ^ 4 / 4))
      (Set.Ioi (-1)) := by
  have hd : ∀ t : ℝ, -1 < t → HasDerivAt
      (fun t : ℝ => Real.log (1 + t) - (t - t ^ 2 / 2 + t ^ 3 / 3 - t ^ 4 / 4))
      (t ^ 4 / (1 + t)) t := by
    intro t ht
    have hpos : (1 + t) ≠ 0 := by linarith
    have h1 : HasDerivAt (fun t : ℝ => Real.log (1 + t)) (1 / (1 + t)) t := by
      have := ((hasDerivAt_id t).const_add 1).log hpos
      simpa using this
    have h2 : HasDerivAt (fun t : ℝ => t - t ^ 2 / 2 + t ^ 3 / 3 - t ^ 4 / 4)
        (1 - t + t ^ 2 - t ^ 3) t := by
      have := (((hasDerivAt_id t).sub ((hasDerivAt_pow 2 t).div_const 2)).add
        ((hasDerivAt_pow 3 t).div_const 3)).sub ((hasDerivAt_pow 4 t).div_const 4)
      convert this using 1
      simp
    convert h1.sub h2 using 1
    field_simp
    ring
  apply monotoneOn_of_deriv_nonneg (convex_Ioi _)
  · intro t ht
    exact (hd t ht).continuousAt.continuousWithinAt
  · intro t ht
    rw [interior_Ioi] at ht
    exact (hd t ht).differentiableAt.differentiableWithinAt
  · intro t ht
    rw [interior_Ioi] at ht
    rw [(hd t ht).deriv]
    have : 0 < 1 + t := by have := Set.mem_Ioi.mp ht; linarith
    positivity

/-- The series of `helper1` never exceeds the function it replaces. -/
theorem helper1_le_log_ratio (t : ℝ) : helper1 t ≤ log_ratio t := by
  have helper1_series (x : ℝ) (hx : |x| ≤ 1e-8) :
      helper1 x = 1 - x / 2 + x ^ 2 / 3 - x ^ 3 / 4 := by
    clear * - x hx
    have hx' : ¬ (|x| > 1e-8) := not_lt.mpr hx
    rw [helper1, if_neg hx']
    norm_num
    ring
  have helper1_direct (t : ℝ) (ht : |t| > 1e-8) : helper1 t = log_ratio t := by
    clear * - t ht
    have h0 : t ≠ 0 := by
      rintro rfl
      norm_num at ht
    rw [helper1, if_pos ht, log_ratio, if_neg h0]
  have log_taylor_le (t : ℝ) (ht : 0 ≤ t) :
      t - t ^ 2 / 2 + t ^ 3 / 3 - t ^ 4 / 4 ≤ Real.log (1 + t) := by
    clear * - t ht
    have h := log_taylor_monotone (show (0:ℝ) ∈ Set.Ioi (-1) by simp)
      (show t ∈ Set.Ioi (-1) by simp; linarith) ht
    simp at h
    linarith
  have log_taylor_ge (t : ℝ) (ht1 : -1 < t) (ht : t ≤ 0) :
      Real.log (1 + t) ≤ t - t ^ 2 / 2 + t ^ 3 / 3 - t ^ 4 / 4 := by
    clear * - t ht1 ht
    have h := log_taylor_monotone (show t ∈ Set.Ioi (-1) by simpa using ht1)
      (show (0:ℝ) ∈ Set.Ioi (-1) by simp) ht
    simp at h
    linarith
  by_cases ht : |t| > 1e-8
  · exact le_of_eq (helper1_direct t ht)
  · have ht' := not_lt.mp ht
    rw [helper1_series t ht']
    have hb : |t| ≤ 1 / 100000000 := by norm_num at ht'; exact ht'
    obtain ⟨hlo, hhi⟩ := abs_le.mp hb
    unfold log_ratio
    split_ifs with h0
    · simp [h0]
    · rcases lt_or_gt_of_ne h0 with hneg | hpos
      · rw [le_div_iff_of_neg hneg]
        have := log_taylor_ge t (by linarith) hneg.le
        nlinarith
      · rw [le_div_iff₀ hpos]
        have := log_taylor_le t hpos.le
        nlinarith

/-! ### The documented transforms -/

theorem h_integral_eq (q x : ℝ) :
    h_integral q x = helper2 ((1 - q) * Real.log x) * Real.log x := by
  simp only [h_integral]
  norm_num

theorem h_integral_inv_eq (q u : ℝ) (hu : -1 ≤ u * (1 - q)) :
    h_integral_inv q u = Real.exp (helper1 (u * (1 - q)) * u) := by
  have h1 : ¬ (u * (1.0 - q) < -1.0) := by norm_num; exact hu
  simp only [h_integral_inv, if_neg h1]
  norm_num

/-- The code's `h_integral` never exceeds the documented integral function. -/
theorem h_integral_le_exact (q x : ℝ) (hx : 1 ≤ x) :
    h_integral q x ≤ h_integral_exact q x := by
  have exp_taylor_le (y : ℝ) (hy : 0 ≤ y) :
      1 + y + y ^ 2 / 2 + y ^ 3 / 6 + y ^ 4 / 24 ≤ Real.exp y := by
    clear * - y hy
    have h := exp_taylor_antitone hy
    simp only [neg_zero, Real.exp_zero] at h
    norm_num at h
    rw [Real.exp_neg] at h
    have he := Real.exp_pos y
    rwa [← div_eq_mul_inv, div_le_one he] at h
  have exp_taylor_ge (y : ℝ) (hy : y ≤ 0) :
      Real.exp y ≤ 1 + y + y ^ 2 / 2 + y ^ 3 / 6 + y ^ 4 / 24 := by
    clear * - y hy
    have h := exp_taylor_antitone hy
    simp only [neg_zero, Real.exp_zero] at h
    norm_num at h
    rw [Real.exp_neg] at h
    have he := Real.exp_pos y
    rwa [← div_eq_mul_inv, one_le_div he] at h
  -- The series of `helper2` never exceeds the function it replaces.
  have helper2_le_exp_ratio (y : ℝ) : helper2 y ≤ exp_ratio y := by
    clear * - y exp_taylor_ge exp_taylor_le
    by_cases hy : |y| > 1e-8
    · exact le_of_eq (helper2_direct y hy)
    · rw [helper2_series y (not_lt.mp hy)]
      unfold exp_ratio
      split_ifs with h0
      · simp [h0]
      · rcases lt_or_gt_of_ne h0 with hneg | hpos
        · rw [le_div_iff_of_neg hneg]
          have := exp_taylor_ge y hneg.le
          nlinarith
        · rw [le_div_iff₀ hpos]
          have := exp_taylor_le y hpos.le
          nlinarith
  rw [h_integral_eq, h_integral_exact]
  exact mul_le_mul_of_nonneg_right (helper2_le_exp_ratio _) (Real.log_nonneg hx)

/-- Closed form: `(1 - q) * H(x) = x ^ (1 - q) - 1`. -/
theorem h_integral_exact_closed (q x : ℝ) :
    (1 - q) * h_integral_exact q x = Real.exp ((1 - q) * Real.log x) - 1 := by
  have exp_ratio_mul (y : ℝ) : exp_ratio y * y = Real.exp y - 1 := by
    clear * - y
    unfold exp_ratio
    split_ifs with h0
    · simp [h0]
    · field_simp
  rw [h_integral_exact, ← exp_ratio_mul]
  ring

/-- The documented inverse undoes the documented integral function. -/
theorem h_integral_inv_exact_h_integral_exact (q x : ℝ) (hx : 0 < x) :
    h_integral_inv_exact q (h_integral_exact q x) = x := by
  have log_ratio_mul (t : ℝ) : log_ratio t * t = Real.log (1 + t) := by
    clear * - t
    unfold log_ratio
    split_ifs with h0
    · simp [h0]
    · field_simp
  have h_integral_exact_at_one (x : ℝ) : h_integral_exact 1 x = Real.log x := by
    clear * - x
    simp [h_integral_exact, exp_ratio]
  have hc := h_integral_exact_closed q x
  rw [h_integral_inv_exact]
  have key : log_ratio (h_integral_exact q x * (1 - q)) * h_integral_exact q x = Real.log x := by
    by_cases ha : 1 - q = 0
    · have hq : q = 1 := by linarith
      rw [ha, mul_zero, hq, h_integral_exact_at_one]
      simp [log_ratio]
    · have h1 := log_ratio_mul (h_integral_exact q x * (1 - q))
      rw [mul_comm (h_integral_exact q x) (1 - q), hc] at h1
      rw [mul_comm (h_integral_exact q x) (1 - q), hc]
      have h2 : Real.log (1 + (Real.exp ((1 - q) * Real.log x) - 1)) = (1 - q) * Real.log x := by
        rw [add_sub_cancel, Real.log_exp]
      rw [h2] at h1
      have h3 : log_ratio (Real.exp ((1 - q) * Real.log x) - 1) * ((1 - q) * h_integral_exact q x)
          = (1 - q) * Real.log x := by rw [hc]; exact h1
      have h4 : (1 - q) * (log_ratio (Real.exp ((1 - q) * Real.log x) - 1) *
          h_integral_exact q x) = (1 - q) * Real.log x := by linarith
      exact mul_left_cancel₀ ha h4
  rw [key, Real.exp_log hx]

/-- The documented integral function has derivative `h`. -/
theorem h_integral_exact_hasDerivAt (q x : ℝ) (hx : 0 < x) :
    HasDerivAt (h_integral_exact q) (h q x) x := by
  have h_eq (q x : ℝ) : h q x = Real.exp (-q * Real.log x) := by
    clear * - q x
    exact rfl
  have h_integral_exact_at_one (x : ℝ) : h_integral_exact 1 x = Real.log x := by
    clear * - x
    simp [h_integral_exact, exp_ratio]
  by_cases ha : 1 - q = 0
  · have hq : q = 1 := by linarith
    have hf : h_integral_exact q = Real.log := by
      funext y; rw [hq]; exact h_integral_exact_at_one y
    rw [hf, h_eq, hq, neg_one_mul, Real.exp_neg, Real.exp_log hx]
    exact Real.hasDerivAt_log hx.ne'
  · have hf : h_integral_exact q = fun y => (Real.exp ((1 - q) * Real.log y) - 1) / (1 - q) := by
      funext y
      rw [← h_integral_exact_closed q y]
      field_simp
    rw [hf]
    have h1 : HasDerivAt (fun y => (1 - q) * Real.log y) ((1 - q) * x⁻¹) x :=
      (Real.hasDerivAt_log hx.ne').const_mul (1 - q)
    have h2 := ((h1.exp).sub_const 1).div_const (1 - q)
    convert h2 using 1
    rw [h_eq]
    have e : -q * Real.log x = (1 - q) * Real.log x - Real.log x := by ring
    rw [e, Real.exp_sub, Real.exp_log hx]
    field_simp
    ring

/-- Mean value bounds: between `x` and `y` the integral function grows at least `h y` and at
most `h x` per unit. -/
theorem h_integral_exact_sub_bounds (q x y : ℝ) (hq : 0 ≤ q) (hx : 0 < x) (hxy : x ≤ y) :
    (y - x) * h q y ≤ h_integral_exact q y - h_integral_exact q x ∧
      h_integral_exact q y - h_integral_exact q x ≤ (y - x) * h q x := by
  have h_eq (q x : ℝ) : h q x = Real.exp (-q * Real.log x) := by
    clear * - q x
    exact rfl
  have h_antitone (q x y : ℝ) (hq : 0 ≤ q) (hx : 0 < x) (hxy : x ≤ y) : h q y ≤ h q x := by
    clear * - q x y hq hx hxy h_eq
    rw [h_eq, h_eq]
    apply Real.exp_le_exp.mpr
    have := Real.log_le_log hx hxy
    nlinarith
  have h_integral_exact_continuousOn (q : ℝ) :
      ContinuousOn (h_integral_exact q) (Set.Ioi 0) := by
    clear * - q
    exact fun x hx =>
      (h_integral_exact_hasDerivAt q x hx).continuousAt.continuousWithinAt
  have hsub : Set.Icc x y ⊆ Set.Ioi 0 := fun t ht => lt_of_lt_of_le hx ht.1
  have hcont : ContinuousOn (h_integral_exact q) (Set.Icc x y) :=
    (h_integral_exact_continuousOn q).mono hsub
  have hint : ∀ t ∈ interior (Set.Icc x y), x < t ∧ t < y := by
    intro t ht
    rw [interior_Icc] at ht
    exact ht
  have hdiff : DifferentiableOn ℝ (h_integral_exact q) (interior (Set.Icc x y)) := by
    intro t ht
    exact (h_integral_exact_hasDerivAt q t
      (hx.trans (hint t ht).1)).differentiableAt.differentiableWithinAt
  constructor
  · have := (convex_Icc x y).mul_sub_le_image_sub_of_le_deriv hcont hdiff
      (C := h q y) (fun t ht => by
        rw [(h_integral_exact_hasDerivAt q t (hx.trans (hint t ht).1)).deriv]
        exact h_antitone q t y hq (hx.trans (hint t ht).1) (hint t ht).2.le)
      x (Set.left_mem_Icc.mpr hxy) y (Set.right_mem_Icc.mpr hxy) hxy
    linarith
  · have := (convex_Icc x y).image_sub_le_mul_sub_of_deriv_le hcont hdiff
      (C := h q x) (fun t ht => by
        rw [(h_integral_exact_hasDerivAt q t (hx.trans (hint t ht).1)).deriv]
        exact h_antitone q x t hq hx (hint t ht).1.le)
      x (Set.left_mem_Icc.mpr hxy) y (Set.right_mem_Icc.mpr hxy) hxy
    linarith

theorem h_integral_exact_strictMono (q x y : ℝ) (hq : 0 ≤ q) (hx : 0 < x) (hxy : x < y) :
    h_integral_exact q x < h_integral_exact q y := by
  have h_pos (q x : ℝ) : 0 < h q x := by
    clear * - q x
    exact Real.exp_pos _
  have := (h_integral_exact_sub_bounds q x y hq hx hxy.le).1
  have hp : 0 < (y - x) * h q y := mul_pos (sub_pos.mpr hxy) (h_pos q y)
  linarith

/-! ### Monotonicity of the inverse transform -/

/-- The code's `h_integral_inv` is strictly increasing where the cap is not taken. -/
theorem h_integral_inv_strictMono (q u v : ℝ) (hu : -1 < u * (1 - q)) (hv : -1 < v * (1 - q))
    (huv : u < v) : h_integral_inv q u < h_integral_inv q v := by
  have helper1_series (x : ℝ) (hx : |x| ≤ 1e-8) :
      helper1 x = 1 - x / 2 + x ^ 2 / 3 - x ^ 3 / 4 := by
    clear * - x hx
    have hx' : ¬ (|x| > 1e-8) := not_lt.mpr hx
    rw [helper1, if_neg hx']
    norm_num
    ring
  -- From a product `g t * t` strictly increasing on `(-1, ∞)` with `g 0 = 1` to the exponent
  -- `g (u * a) * u` of the inverse transform, strictly increasing in `u`.
  have ratio_mul_arg_strictMono (g : ℝ → ℝ) (hg0 : g 0 = 1)
      (hG : ∀ s t : ℝ, -1 < s → s < t → g s * s < g t * t) (a u v : ℝ)
      (hu : -1 < u * a) (hv : -1 < v * a) (huv : u < v) : g (u * a) * u < g (v * a) * v := by
    clear * - g hg0 hG a u v hu hv huv
    rcases lt_trichotomy a 0 with ha | ha | ha
    · have h1 := hG (v * a) (u * a) hv (mul_lt_mul_of_neg_right huv ha)
      have e1 : g (u * a) * (u * a) = g (u * a) * u * a := by ring
      have e2 : g (v * a) * (v * a) = g (v * a) * v * a := by ring
      rw [e1, e2] at h1
      by_contra hcon
      have := mul_le_mul_of_nonpos_right (not_lt.mp hcon) ha.le
      linarith
    · rw [ha, mul_zero, mul_zero, hg0]
      linarith
    · have h1 := hG (u * a) (v * a) hu (mul_lt_mul_of_pos_right huv ha)
      have e1 : g (u * a) * (u * a) = g (u * a) * u * a := by ring
      have e2 : g (v * a) * (v * a) = g (v * a) * v * a := by ring
      rw [e1, e2] at h1
      exact lt_of_mul_lt_mul_right h1 ha.le
  have log_ratio_mul (t : ℝ) : log_ratio t * t = Real.log (1 + t) := by
    clear * - t
    unfold log_ratio
    split_ifs with h0
    · simp [h0]
    · field_simp
  have helper1_direct (t : ℝ) (ht : |t| > 1e-8) : helper1 t = log_ratio t := by
    clear * - t ht
    have h0 : t ≠ 0 := by
      rintro rfl
      norm_num at ht
    rw [helper1, if_pos ht, log_ratio, if_neg h0]
  have log_taylor_le (t : ℝ) (ht : 0 ≤ t) :
      t - t ^ 2 / 2 + t ^ 3 / 3 - t ^ 4 / 4 ≤ Real.log (1 + t) := by
    clear * - t ht
    have h := log_taylor_monotone (show (0:ℝ) ∈ Set.Ioi (-1) by simp)
      (show t ∈ Set.Ioi (-1) by simp; linarith) ht
    simp at h
    linarith
  have helper1_zero : helper1 0 = 1 := by
    clear * -
    norm_num [helper1]
  have log_taylor_ge (t : ℝ) (ht1 : -1 < t) (ht : t ≤ 0) :
      Real.log (1 + t) ≤ t - t ^ 2 / 2 + t ^ 3 / 3 - t ^ 4 / 4 := by
    clear * - t ht1 ht
    have h := log_taylor_monotone (show t ∈ Set.Ioi (-1) by simpa using ht1)
      (show (0:ℝ) ∈ Set.Ioi (-1) by simp) ht
    simp at h
    linarith
  -- The product `helper1 t * t`, which stands for `log (1 + t)`, is strictly increasing on
  -- `(-1, ∞)`, across the switch between series and direct formula as well.
  have helper1_mul_strictMono (s t : ℝ) (hs : -1 < s) (hst : s < t) :
      helper1 s * s < helper1 t * t := by
    clear * - s t hs hst log_taylor_ge log_taylor_le helper1_direct log_ratio_mul helper1_series
    -- The series of `helper1` times its argument is strictly increasing where it is used.
    have log_series_strictMono (s t : ℝ) (hs : -(1 / 100000000) ≤ s) (hst : s < t)
        (ht : t ≤ 1 / 100000000) :
        s * (1 - s / 2 + s ^ 2 / 3 - s ^ 3 / 4) < t * (1 - t / 2 + t ^ 2 / 3 - t ^ 3 / 4) := by
      clear * - s t hs hst ht
      have hd : ∀ x : ℝ, HasDerivAt (fun x : ℝ => x * (1 - x / 2 + x ^ 2 / 3 - x ^ 3 / 4))
          (1 - x + x ^ 2 - x ^ 3) x := by
        intro x
        have h1 : HasDerivAt (fun x : ℝ => 1 - x / 2 + x ^ 2 / 3 - x ^ 3 / 4)
            (-(1 / 2) + 2 * x / 3 - 3 * x ^ 2 / 4) x := by
          have := (((hasDerivAt_const x (1:ℝ)).sub ((hasDerivAt_id x).div_const 2)).add
            ((hasDerivAt_pow 2 x).div_const 3)).sub ((hasDerivAt_pow 3 x).div_const 4)
          convert this using 1
          simp
        convert (hasDerivAt_id x).mul h1 using 1
        simp
        ring
      have hmono : StrictMonoOn (fun x : ℝ => x * (1 - x / 2 + x ^ 2 / 3 - x ^ 3 / 4))
          (Set.Icc (-(1 / 100000000)) (1 / 100000000)) := by
        apply strictMonoOn_of_deriv_pos (convex_Icc _ _)
        · exact fun x _ => (hd x).continuousAt.continuousWithinAt
        · intro x hx
          rw [interior_Icc] at hx
          rw [(hd x).deriv]
          have e : 1 - x + x ^ 2 - x ^ 3 = (1 - x) * (1 + x ^ 2) := by ring
          rw [e]
          have h1 : 0 < 1 - x := by linarith [hx.2]
          positivity
      exact hmono ⟨hs, by linarith⟩ ⟨by linarith, ht⟩ hst
    have e8 : (1e-8 : ℝ) = 1 / 100000000 := by norm_num
    have hdir : ∀ x : ℝ, |x| > 1e-8 → helper1 x * x = Real.log (1 + x) := by
      intro x hx
      rw [helper1_direct x hx, log_ratio_mul]
    have hser : ∀ x : ℝ, ¬ |x| > 1e-8 →
        helper1 x * x = x * (1 - x / 2 + x ^ 2 / 3 - x ^ 3 / 4) ∧
          -(1 / 100000000) ≤ x ∧ x ≤ 1 / 100000000 := by
      intro x hx
      have hx' := not_lt.mp hx
      rw [helper1_series x hx', mul_comm]
      rw [e8] at hx'
      exact ⟨rfl, (abs_le.mp hx').1, (abs_le.mp hx').2⟩
    have hlog : ∀ x y : ℝ, -1 < x → x < y → Real.log (1 + x) < Real.log (1 + y) :=
      fun x y hx hxy => Real.log_lt_log (by linarith) (by linarith)
    by_cases hS : |s| > 1e-8 <;> by_cases hT : |t| > 1e-8
    · rw [hdir s hS, hdir t hT]
      exact hlog s t hs hst
    · obtain ⟨et, htl, hth⟩ := hser t hT
      rw [hdir s hS, et]
      have hsneg : s < -(1 / 100000000) := by
        rw [e8] at hS
        rcases lt_abs.mp hS with h1 | h1
        · linarith
        · linarith
      have h1 := hlog s (-(1 / 100000000)) hs hsneg
      have h2 := log_taylor_ge (-(1 / 100000000)) (by norm_num) (by norm_num)
      have h3 : (-(1 / 100000000) : ℝ) * (1 - (-(1 / 100000000)) / 2 + (-(1 / 100000000)) ^ 2 / 3
          - (-(1 / 100000000)) ^ 3 / 4) ≤ t * (1 - t / 2 + t ^ 2 / 3 - t ^ 3 / 4) := by
        rcases eq_or_lt_of_le htl with h | h
        · rw [← h]
        · exact (log_series_strictMono _ t (le_refl _) h hth).le
      have h4 : (-(1 / 100000000) : ℝ) - (-(1 / 100000000)) ^ 2 / 2 + (-(1 / 100000000)) ^ 3 / 3
          - (-(1 / 100000000)) ^ 4 / 4 = (-(1 / 100000000) : ℝ) * (1 - (-(1 / 100000000)) / 2 +
          (-(1 / 100000000)) ^ 2 / 3 - (-(1 / 100000000)) ^ 3 / 4) := by ring
      linarith
    · obtain ⟨es, hsl, hsh⟩ := hser s hS
      rw [hdir t hT, es]
      have htpos : 1 / 100000000 < t := by
        rw [e8] at hT
        rcases lt_abs.mp hT with h1 | h1
        · exact h1
        · linarith
      have h1 := hlog (1 / 100000000) t (by norm_num) htpos
      have h2 := log_taylor_le (1 / 100000000) (by norm_num)
      have h3 : s * (1 - s / 2 + s ^ 2 / 3 - s ^ 3 / 4) ≤ (1 / 100000000 : ℝ) *
          (1 - (1 / 100000000) / 2 + (1 / 100000000) ^ 2 / 3 - (1 / 100000000) ^ 3 / 4) := by
        rcases eq_or_lt_of_le hsh with h | h
        · rw [h]
        · exact (log_series_strictMono s _ hsl h (le_refl _)).le
      have h4 : (1 / 100000000 : ℝ) - (1 / 100000000) ^ 2 / 2 + (1 / 100000000) ^ 3 / 3
          - (1 / 100000000) ^ 4 / 4 = (1 / 100000000 : ℝ) * (1 - (1 / 100000000) / 2 +
          (1 / 100000000) ^ 2 / 3 - (1 / 100000000) ^ 3 / 4) := by ring
      linarith
    · obtain ⟨es, hsl, _⟩ := hser s hS
      obtain ⟨et, _, hth⟩ := hser t hT
      rw [es, et]
      exact log_series_strictMono s t hsl hst hth
  rw [h_integral_inv_eq q u hu.le, h_integral_inv_eq q v hv.le]
  exact Real.exp_lt_exp.mpr
    (ratio_mul_arg_strictMono helper1 helper1_zero helper1_mul_strictMono (1 - q) u v hu hv huv)

/-! ### Theorem 2 for the documented transforms -/

/-- Theorem 2 of Hörmann and Derflinger for the documented transforms and every positive
exponent: `f(m) = m - Hinv(H(m + 1/2) - h(m))` is non-decreasing on `m ≥ 1`. -/
theorem exact_f_monotone (q m m' : ℝ) (hq : 0 < q) (hm : 1 ≤ m) (hmm : m ≤ m') :
    m - h_integral_inv_exact q (h_integral_exact q (m + 1 / 2) - h q m) ≤
      m' - h_integral_inv_exact q (h_integral_exact q (m' + 1 / 2) - h q m') := by
  have h_eq (q x : ℝ) : h q x = Real.exp (-q * Real.log x) := by
    clear * - q x
    exact rfl
  have log_ratio_mul (t : ℝ) : log_ratio t * t = Real.log (1 + t) := by
    clear * - t
    unfold log_ratio
    split_ifs with h0
    · simp [h0]
    · field_simp
  have h_integral_exact_at_one (x : ℝ) : h_integral_exact 1 x = Real.log x := by
    clear * - x
    simp [h_integral_exact, exp_ratio]
  -- Positivity of the base `(1 + w/2) ^ a - a * w` for `a < 1` and `0 ≤ w ≤ 1`.
  have candidate_base_pos (a w : ℝ) (ha : a < 1) (hw0 : 0 ≤ w) (hw1 : w ≤ 1) :
      0 < Real.exp (a * Real.log (1 + w / 2)) - a * w := by
    clear * - a w ha hw0 hw1
    rcases le_or_lt a 0 with h0 | h0
    · have := Real.exp_pos (a * Real.log (1 + w / 2))
      nlinarith
    · have hl : 0 ≤ Real.log (1 + w / 2) := Real.log_nonneg (by linarith)
      have h1 : 1 ≤ Real.exp (a * Real.log (1 + w / 2)) :=
        Real.one_le_exp (mul_nonneg h0.le hl)
      nlinarith
  -- The candidate reached from the acceptance bound of `m`, for the documented transforms:
  -- `Hinv(H(m + 1/2) - h(m)) = m * candidate_ratio (1 / m)`.
  have exact_candidate_eq (q m : ℝ) (hm : 1 ≤ m) (hq : 0 < q) :
      h_integral_inv_exact q (h_integral_exact q (m + 1 / 2) - h q m) =
        m * candidate_ratio q (1 / m) := by
    clear * - q m hm hq candidate_base_pos h_integral_exact_at_one log_ratio_mul h_eq
    have hm0 : 0 < m := by linarith
    have hw0 : (0:ℝ) ≤ 1 / m := by positivity
    have hw1 : 1 / m ≤ 1 := by rw [div_le_one hm0]; exact hm
    have hc : 0 < 1 + 1 / m / 2 := by positivity
    have hmc : m * (1 + 1 / m / 2) = m + 1 / 2 := by field_simp; ring
    have hlog : Real.log (m + 1 / 2) = Real.log m + Real.log (1 + 1 / m / 2) := by
      rw [← hmc, Real.log_mul hm0.ne' hc.ne']
    rw [h_integral_inv_exact, candidate_ratio]
    split_ifs with ha
    · have hq1 : q = 1 := by linarith
      rw [ha, mul_zero]
      simp only [log_ratio, if_true, one_mul]
      rw [hq1, h_integral_exact_at_one, h_eq, neg_one_mul, Real.exp_sub, Real.exp_log (by linarith),
        Real.exp_neg (Real.log m), Real.exp_log hm0, Real.exp_neg, ← hmc]
      have e : Real.exp m⁻¹ = Real.exp (1 / m) := by rw [one_div]
      rw [e]
      field_simp
    · have hB := candidate_base_pos (1 - q) (1 / m) (by linarith) hw0 hw1
      have hprod : 1 + (h_integral_exact q (m + 1 / 2) - h q m) * (1 - q) =
          Real.exp ((1 - q) * Real.log m) *
            (Real.exp ((1 - q) * Real.log (1 + 1 / m / 2)) - (1 - q) * (1 / m)) := by
        have h1 := h_integral_exact_closed q (m + 1 / 2)
        have h2 : Real.exp ((1 - q) * Real.log m) * Real.exp ((1 - q) * Real.log (1 + 1 / m / 2)) =
            Real.exp ((1 - q) * Real.log (m + 1 / 2)) := by
          rw [← Real.exp_add, hlog]
          ring_nf
        have h3 : Real.exp ((1 - q) * Real.log m) * (1 / m) = h q m := by
          rw [h_eq, show -q * Real.log m = (1 - q) * Real.log m - Real.log m by ring, Real.exp_sub,
            Real.exp_log hm0]
          ring
        calc 1 + (h_integral_exact q (m + 1 / 2) - h q m) * (1 - q)
            = 1 + (1 - q) * h_integral_exact q (m + 1 / 2) - (1 - q) * h q m := by ring
          _ = Real.exp ((1 - q) * Real.log (m + 1 / 2)) - (1 - q) * h q m := by rw [h1]; ring
          _ = _ := by rw [← h2, ← h3]; ring
      have hexp : log_ratio ((h_integral_exact q (m + 1 / 2) - h q m) * (1 - q)) *
          (h_integral_exact q (m + 1 / 2) - h q m) = Real.log m +
            Real.log (Real.exp ((1 - q) * Real.log (1 + 1 / m / 2)) - (1 - q) * (1 / m)) / (1 - q) := by
        have h1 := log_ratio_mul ((h_integral_exact q (m + 1 / 2) - h q m) * (1 - q))
        rw [hprod, Real.log_mul (Real.exp_pos _).ne' hB.ne', Real.log_exp] at h1
        have h2 : (1 - q) * (log_ratio ((h_integral_exact q (m + 1 / 2) - h q m) * (1 - q)) *
            (h_integral_exact q (m + 1 / 2) - h q m)) = (1 - q) * (Real.log m +
            Real.log (Real.exp ((1 - q) * Real.log (1 + 1 / m / 2)) - (1 - q) * (1 / m)) /
              (1 - q)) := by
          rw [mul_add, mul_div_cancel₀ _ ha]
          linarith
        exact mul_left_cancel₀ ha h2
      rw [hexp, Real.exp_add, Real.exp_log hm0]
  have candidate_ratio_zero (q : ℝ) : candidate_ratio q 0 = 1 := by
    clear * - q
    unfold candidate_ratio
    split_ifs with ha
    · simp
    · simp
  -- Convexity of `candidate_ratio` on `[0, 1]` for every positive exponent.
  have candidate_ratio_convex (q : ℝ) (hq : 0 < q) :
      ConvexOn ℝ (Set.Icc 0 1) (candidate_ratio q) := by
    clear * - q hq candidate_base_pos
    have candidate_ratio_convex_zero :
        ConvexOn ℝ (Set.Icc 0 1) (fun w : ℝ => (1 + w / 2) * Real.exp (-w)) := by
      clear * -
      have hexp : ∀ w : ℝ, HasDerivAt (fun w : ℝ => Real.exp (-w)) (-Real.exp (-w)) w := by
        intro w
        have := (Real.hasDerivAt_exp (-w)).comp w (hasDerivAt_neg w)
        convert this using 1
        ring
      have hf : ∀ w : ℝ, HasDerivAt (fun w : ℝ => (1 + w / 2) * Real.exp (-w))
          (-(1 / 2 + w / 2) * Real.exp (-w)) w := by
        intro w
        have h1 : HasDerivAt (fun w : ℝ => 1 + w / 2) (1 / 2) w := by
          simpa using ((hasDerivAt_id w).div_const 2).const_add 1
        convert h1.mul (hexp w) using 1
        ring
      have hf1 : ∀ w : ℝ, HasDerivAt (fun w : ℝ => -(1 / 2 + w / 2) * Real.exp (-w))
          (w / 2 * Real.exp (-w)) w := by
        intro w
        have h1 : HasDerivAt (fun w : ℝ => -(1 / 2 + w / 2)) (-(1 / 2)) w := by
          have := (((hasDerivAt_id w).div_const 2).const_add (1 / 2)).neg
          convert this using 1
        convert h1.mul (hexp w) using 1
        ring
      refine convexOn_of_hasDerivWithinAt2_nonneg (convex_Icc 0 1)
        (fun w _ => (hf w).continuousAt.continuousWithinAt)
        (fun w _ => (hf w).hasDerivWithinAt)
        (fun w _ => (hf1 w).hasDerivWithinAt) ?_
      intro w hw
      have hw0 : 0 ≤ w := (interior_subset hw).1
      have := Real.exp_pos (-w)
      positivity
    have candidate_ratio_convex_ne (a : ℝ) (ha : a < 1) (ha0 : a ≠ 0) :
        ConvexOn ℝ (Set.Icc 0 1)
          (fun w : ℝ => Real.exp (Real.log (Real.exp (a * Real.log (1 + w / 2)) - a * w) / a)) := by
      clear * - a ha ha0 candidate_base_pos
      have pow_hasDerivAt (a w : ℝ) (hc : 0 < 1 + w / 2) :
          HasDerivAt (fun w : ℝ => Real.exp (a * Real.log (1 + w / 2)))
            (Real.exp (a * Real.log (1 + w / 2)) * (a * ((1 / 2) / (1 + w / 2)))) w := by
        clear * - a w hc
        have h1 : HasDerivAt (fun w : ℝ => 1 + w / 2) (1 / 2) w := by
          simpa using ((hasDerivAt_id w).div_const 2).const_add 1
        exact ((h1.log hc.ne').const_mul a).exp
      have base_deriv_hasDerivAt (a w : ℝ) (hc : 0 < 1 + w / 2) :
          HasDerivAt (fun w : ℝ => Real.exp (a * Real.log (1 + w / 2)) * (a * ((1 / 2) / (1 + w / 2))) - a)
            (a * (a - 1) * Real.exp (a * Real.log (1 + w / 2)) / (4 * (1 + w / 2) ^ 2)) w := by
        clear * - a w hc pow_hasDerivAt
        have h1 : HasDerivAt (fun w : ℝ => 1 + w / 2) (1 / 2) w := by
          simpa using ((hasDerivAt_id w).div_const 2).const_add 1
        have h2 : HasDerivAt (fun w : ℝ => a * ((1 / 2) / (1 + w / 2)))
            (a * ((0 * (1 + w / 2) - 1 / 2 * (1 / 2)) / (1 + w / 2) ^ 2)) w :=
          (((hasDerivAt_const w (1 / 2 : ℝ)).div h1 hc.ne')).const_mul a
        have h3 := ((pow_hasDerivAt a w hc).mul h2).sub_const a
        convert h3 using 1
        generalize Real.exp (a * Real.log (1 + w / 2)) = e
        have hc' := hc.ne'
        generalize 1 + w / 2 = c at hc'
        field_simp
        ring
      have base_hasDerivAt (a w : ℝ) (hc : 0 < 1 + w / 2) :
          HasDerivAt (fun w : ℝ => Real.exp (a * Real.log (1 + w / 2)) - a * w)
            (Real.exp (a * Real.log (1 + w / 2)) * (a * ((1 / 2) / (1 + w / 2))) - a) w := by
        clear * - a w hc pow_hasDerivAt
        have h2 : HasDerivAt (fun w : ℝ => a * w) a w := by
          simpa using (hasDerivAt_id w).const_mul a
        exact (pow_hasDerivAt a w hc).sub h2
      -- Algebra of the second derivative of `((1 + w/2) ^ a - a * w) ^ (1 / a)`, with `e` for
      -- `(1 + w/2) ^ a` and `c` for `1 + w/2`.
      have second_derivative_identity (a c e : ℝ) (ha : a ≠ 0) (hc : c ≠ 0)
          (hB : e - a * (2 * (c - 1)) ≠ 0) :
          ((e * (a * ((1 / 2) / c)) - a) / (e - a * (2 * (c - 1))) / a) ^ 2 +
            (a * (a - 1) * e / (4 * c ^ 2) * (e - a * (2 * (c - 1))) -
              (e * (a * ((1 / 2) / c)) - a) * (e * (a * ((1 / 2) / c)) - a)) /
              (e - a * (2 * (c - 1))) ^ 2 / a =
            (1 - a) * (c ^ 2 - e * (c - a * (c - 1) / 2)) / (c ^ 2 * (e - a * (2 * (c - 1))) ^ 2) := by
        clear * - a c e ha hc hB
        field_simp
        ring
      -- The inequality behind the convexity of `candidate_ratio`:
      -- `c ^ a * (c - a * (c - 1) / 2) ≤ c ^ 2` for `a < 1 ≤ c`.
      have convexity_bracket (a c : ℝ) (ha : a < 1) (hc : 1 ≤ c) :
          Real.exp (a * Real.log c) * (c - a * (c - 1) / 2) ≤ c ^ 2 := by
        clear * - a c ha hc
        -- Bernoulli's inequality in the form used below.
        have bernoulli_exp_log (c p : ℝ) (hc : 0 < c) (hp : 1 ≤ p) :
            1 + p * (c - 1) ≤ Real.exp (p * Real.log c) := by
          clear * - c p hc hp
          have h := one_add_mul_self_le_rpow_one_add (show (-1 : ℝ) ≤ c - 1 by linarith) hp
          rw [show (1 : ℝ) + (c - 1) = c by ring, Real.rpow_def_of_pos hc] at h
          rw [mul_comm p (Real.log c)]
          exact h
        have hc0 : 0 < c := by linarith
        have hE : 0 < Real.exp (a * Real.log c) := Real.exp_pos _
        have hb := bernoulli_exp_log c (2 - a) hc0 (by linarith)
        have hprod : Real.exp ((2 - a) * Real.log c) * Real.exp (a * Real.log c) = c ^ 2 := by
          rw [← Real.exp_add, show (2 - a) * Real.log c + a * Real.log c = 2 * Real.log c by ring,
            show 2 * Real.log c = Real.log c + Real.log c by ring, Real.exp_add, Real.exp_log hc0]
          ring
        have h1 : c - a * (c - 1) / 2 ≤ 1 + (2 - a) * (c - 1) := by nlinarith
        calc Real.exp (a * Real.log c) * (c - a * (c - 1) / 2)
            ≤ Real.exp (a * Real.log c) * Real.exp ((2 - a) * Real.log c) :=
              mul_le_mul_of_nonneg_left (h1.trans hb) hE.le
          _ = c ^ 2 := by rw [mul_comm]; exact hprod
      have hc : ∀ w ∈ Set.Icc (0:ℝ) 1, 0 < 1 + w / 2 := fun w hw => by linarith [hw.1]
      have hBpos : ∀ w ∈ Set.Icc (0:ℝ) 1, 0 < Real.exp (a * Real.log (1 + w / 2)) - a * w :=
        fun w hw => candidate_base_pos a w ha hw.1 hw.2
      have hf : ∀ w ∈ Set.Icc (0:ℝ) 1, HasDerivAt
          (fun w : ℝ => Real.exp (Real.log (Real.exp (a * Real.log (1 + w / 2)) - a * w) / a))
          ((fun w : ℝ => Real.exp (Real.log (Real.exp (a * Real.log (1 + w / 2)) - a * w) / a) *
            ((Real.exp (a * Real.log (1 + w / 2)) * (a * ((1 / 2) / (1 + w / 2))) - a) /
              (Real.exp (a * Real.log (1 + w / 2)) - a * w) / a)) w) w := by
        intro w hw
        exact (((base_hasDerivAt a w (hc w hw)).log (hBpos w hw).ne').div_const a).exp
      have hf1 : ∀ w ∈ Set.Icc (0:ℝ) 1, HasDerivAt
          (fun w : ℝ => Real.exp (Real.log (Real.exp (a * Real.log (1 + w / 2)) - a * w) / a) *
            ((Real.exp (a * Real.log (1 + w / 2)) * (a * ((1 / 2) / (1 + w / 2))) - a) /
              (Real.exp (a * Real.log (1 + w / 2)) - a * w) / a))
          ((fun w : ℝ => Real.exp (Real.log (Real.exp (a * Real.log (1 + w / 2)) - a * w) / a) *
            ((1 - a) * ((1 + w / 2) ^ 2 - Real.exp (a * Real.log (1 + w / 2)) *
              ((1 + w / 2) - a * ((1 + w / 2) - 1) / 2)) /
              ((1 + w / 2) ^ 2 * (Real.exp (a * Real.log (1 + w / 2)) - a * w) ^ 2))) w) w := by
        intro w hw
        have h1 := ((base_deriv_hasDerivAt a w (hc w hw)).div (base_hasDerivAt a w (hc w hw))
          (hBpos w hw).ne').div_const a
        have h2 := (hf w hw).mul h1
        convert h2 using 1
        beta_reduce
        have hB := (hBpos w hw).ne'
        have hw2 : w = 2 * ((1 + w / 2) - 1) := by ring
        have hc' := (hc w hw).ne'
        generalize Real.exp (Real.log (Real.exp (a * Real.log (1 + w / 2)) - a * w) / a) = F
        generalize Real.exp (a * Real.log (1 + w / 2)) = e at hB ⊢
        rw [hw2] at hB
        have key := second_derivative_identity a (1 + w / 2) e ha0 hc' hB
        rw [← hw2] at key
        rw [← key]
        ring
      have hf2 : ∀ w ∈ Set.Icc (0:ℝ) 1, 0 ≤
          (fun w : ℝ => Real.exp (Real.log (Real.exp (a * Real.log (1 + w / 2)) - a * w) / a) *
            ((1 - a) * ((1 + w / 2) ^ 2 - Real.exp (a * Real.log (1 + w / 2)) *
              ((1 + w / 2) - a * ((1 + w / 2) - 1) / 2)) /
              ((1 + w / 2) ^ 2 * (Real.exp (a * Real.log (1 + w / 2)) - a * w) ^ 2))) w := by
        intro w hw
        have hbr := convexity_bracket a (1 + w / 2) ha (by linarith [hw.1])
        apply mul_nonneg (Real.exp_pos _).le
        apply div_nonneg
        · apply mul_nonneg (by linarith)
          linarith
        · positivity
      have hint : interior (Set.Icc (0:ℝ) 1) ⊆ Set.Icc 0 1 := interior_subset
      exact convexOn_of_hasDerivWithinAt2_nonneg (convex_Icc 0 1)
        (fun w hw => (hf w hw).continuousAt.continuousWithinAt)
        (fun w hw => (hf w (hint hw)).hasDerivWithinAt)
        (fun w hw => (hf1 w (hint hw)).hasDerivWithinAt)
        (fun w hw => hf2 w (hint hw))
    by_cases ha : 1 - q = 0
    · have : candidate_ratio q = fun w : ℝ => (1 + w / 2) * Real.exp (-w) := by
        funext w; rw [candidate_ratio, if_pos ha]
      rw [this]
      exact candidate_ratio_convex_zero
    · have : candidate_ratio q = fun w : ℝ =>
          Real.exp (Real.log (Real.exp ((1 - q) * Real.log (1 + w / 2)) - (1 - q) * w) / (1 - q)) := by
        funext w; rw [candidate_ratio, if_neg ha]
      rw [this]
      exact candidate_ratio_convex_ne (1 - q) (by linarith) ha
  have hm0 : 0 < m := by linarith
  have hm'0 : 0 < m' := by linarith
  rw [exact_candidate_eq q m hm hq, exact_candidate_eq q m' (hm.trans hmm) hq]
  have hconv := candidate_ratio_convex q hq
  have hw : (1 / m) ∈ Set.Icc (0:ℝ) 1 :=
    ⟨by positivity, by rw [div_le_one hm0]; exact hm⟩
  have hw' : (1 / m') ∈ Set.Icc (0:ℝ) 1 :=
    ⟨by positivity, by rw [div_le_one hm'0]; exact hm.trans hmm⟩
  have h0 : (0:ℝ) ∈ Set.Icc (0:ℝ) 1 := ⟨le_refl _, zero_le_one⟩
  have hle : 1 / m' ≤ 1 / m := one_div_le_one_div_of_le hm0 hmm
  have hs := hconv.secant_mono h0 hw' hw (by positivity) (by positivity) hle
  rw [candidate_ratio_zero, sub_zero, sub_zero, div_div_eq_mul_div, div_div_eq_mul_div,
    div_one, div_one] at hs
  linarith

/-! ### Convexity of h and the domain of the inverse -/

/-- Hermite–Hadamard for `h`: the value at `m` is at most the integral over
`[m - 1/2, m + 1/2]`. -/
theorem h_le_integral (q m : ℝ) (hq : 0 ≤ q) (hm : 1 / 2 < m) :
    h q m ≤ h_integral_exact q (m + 1 / 2) - h_integral_exact q (m - 1 / 2) := by
  have h_eq (q x : ℝ) : h q x = Real.exp (-q * Real.log x) := by
    clear * - q x
    exact rfl
  -- Midpoint convexity of `h`.
  have h_midpoint (q m t : ℝ) (hq : 0 ≤ q) (ht0 : 0 ≤ t) (ht : t < m) :
      2 * h q m ≤ h q (m - t) + h q (m + t) := by
    clear * - q m t hq ht0 ht h_eq
    have hm : 0 < m := by linarith
    have h1 : 0 < m - t := by linarith
    have h2 : 0 < m + t := by linarith
    set A := -q * Real.log (m - t) with hA
    set B := -q * Real.log (m + t) with hB
    have hsum : -q * Real.log m ≤ (A + B) / 2 := by
      have hl : Real.log (m - t) + Real.log (m + t) ≤ 2 * Real.log m := by
        rw [← Real.log_mul h1.ne' h2.ne', show 2 * Real.log m = Real.log m + Real.log m by ring,
          ← Real.log_mul hm.ne' hm.ne']
        apply Real.log_le_log (mul_pos h1 h2)
        nlinarith
      rw [hA, hB]
      nlinarith
    have hamgm : 2 * Real.exp ((A + B) / 2) ≤ Real.exp A + Real.exp B := by
      have e1 : Real.exp A = Real.exp (A / 2) * Real.exp (A / 2) := by
        rw [← Real.exp_add]; ring_nf
      have e2 : Real.exp B = Real.exp (B / 2) * Real.exp (B / 2) := by
        rw [← Real.exp_add]; ring_nf
      have e3 : Real.exp ((A + B) / 2) = Real.exp (A / 2) * Real.exp (B / 2) := by
        rw [← Real.exp_add]; ring_nf
      rw [e1, e2, e3]
      nlinarith [sq_nonneg (Real.exp (A / 2) - Real.exp (B / 2))]
    have := Real.exp_le_exp.mpr hsum
    rw [h_eq, h_eq, h_eq]
    linarith
  have hd : ∀ t ∈ Set.Icc (0:ℝ) (1 / 2), HasDerivAt
      (fun t : ℝ => h_integral_exact q (m + t) - h_integral_exact q (m - t) - 2 * t * h q m)
      (h q (m + t) + h q (m - t) - 2 * h q m) t := by
    intro t ht
    have h1 : HasDerivAt (fun t : ℝ => h_integral_exact q (m + t)) (h q (m + t)) t := by
      have := (h_integral_exact_hasDerivAt q (m + t) (by linarith [ht.1])).comp t
        ((hasDerivAt_id t).const_add m)
      simpa using this
    have h2 : HasDerivAt (fun t : ℝ => h_integral_exact q (m - t)) (-h q (m - t)) t := by
      have := (h_integral_exact_hasDerivAt q (m - t) (by linarith [ht.2])).comp t
        ((hasDerivAt_id t).const_sub m)
      simpa using this
    have h3 : HasDerivAt (fun t : ℝ => 2 * t * h q m) (2 * h q m) t := by
      have := ((hasDerivAt_id t).const_mul 2).mul_const (h q m)
      simpa using this
    convert (h1.sub h2).sub h3 using 1
    ring
  have hmono : MonotoneOn
      (fun t : ℝ => h_integral_exact q (m + t) - h_integral_exact q (m - t) - 2 * t * h q m)
      (Set.Icc 0 (1 / 2)) := by
    apply monotoneOn_of_deriv_nonneg (convex_Icc _ _)
    · exact fun t ht => (hd t ht).continuousAt.continuousWithinAt
    · exact fun t ht => (hd t (interior_subset ht)).differentiableAt.differentiableWithinAt
    · intro t ht
      have ht' := interior_subset ht
      rw [(hd t ht').deriv]
      have := h_midpoint q m t hq ht'.1 (by linarith [ht'.2])
      linarith
  have := hmono (Set.left_mem_Icc.mpr (by norm_num)) (Set.right_mem_Icc.mpr (by norm_num))
    (show (0:ℝ) ≤ 1 / 2 by norm_num)
  simp only [add_zero, sub_zero, sub_self, mul_zero, zero_mul] at this
  linarith

theorem h_integral_exact_nonneg (q x : ℝ) (hx : 1 ≤ x) : 0 ≤ h_integral_exact q x := by
  have exp_ratio_pos (y : ℝ) : 0 < exp_ratio y := by
    clear * - y
    unfold exp_ratio
    split_ifs with h0
    · exact one_pos
    · rcases lt_or_gt_of_ne h0 with hneg | hpos
      · apply div_pos_of_neg_of_neg _ hneg
        have := Real.exp_lt_one_iff.mpr hneg
        linarith
      · apply div_pos _ hpos
        have := Real.one_lt_exp_iff.mpr hpos
        linarith
  exact mul_nonneg (exp_ratio_pos _).le (Real.log_nonneg hx)

theorem h_integral_nonneg (q x : ℝ) (hx : 1 ≤ x) : 0 ≤ h_integral q x := by
  have exp_ratio_pos (y : ℝ) : 0 < exp_ratio y := by
    clear * - y
    unfold exp_ratio
    split_ifs with h0
    · exact one_pos
    · rcases lt_or_gt_of_ne h0 with hneg | hpos
      · apply div_pos_of_neg_of_neg _ hneg
        have := Real.exp_lt_one_iff.mpr hneg
        linarith
      · apply div_pos _ hpos
        have := Real.one_lt_exp_iff.mpr hpos
        linarith
  have helper2_pos (y : ℝ) : 0 < helper2 y := by
    clear * - y exp_ratio_pos
    by_cases hy : |y| > 1e-8
    · rw [helper2_direct y hy]; exact exp_ratio_pos y
    · have hy' := not_lt.mp hy
      rw [helper2_series y hy']
      have hb : |y| ≤ 1 / 100000000 := by norm_num at hy'; exact hy'
      obtain ⟨hlo, hhi⟩ := abs_le.mp hb
      have h3 : |y ^ 3| ≤ (1 / 100000000) ^ 3 := by
        rw [abs_pow]; exact pow_le_pow_left₀ (abs_nonneg y) hb 3
      have := (abs_le.mp h3).1
      have h2 : 0 ≤ y ^ 2 := sq_nonneg y
      norm_num at this
      linarith
  rw [h_integral_eq]
  exact mul_nonneg (helper2_pos _).le (Real.log_nonneg hx)

/-- Arguments between `-1` and a value of the integral function are in the domain of the
inverse: the cap `t = -1` of `h_integral_inv` is not taken there. -/
theorem inv_domain (q u x : ℝ) (hq : 0 < q) (hlo : -1 ≤ u)
    (hhi : u ≤ h_integral_exact q x) : -1 < u * (1 - q) := by
  rcases lt_trichotomy (1 - q) 0 with ha | ha | ha
  · have h1 : h_integral_exact q x * (1 - q) ≤ u * (1 - q) :=
      mul_le_mul_of_nonpos_right hhi ha.le
    have h2 := h_integral_exact_closed q x
    have h3 := Real.exp_pos ((1 - q) * Real.log x)
    linarith
  · rw [ha, mul_zero]; norm_num
  · have h1 : -1 * (1 - q) ≤ u * (1 - q) := mul_le_mul_of_nonneg_right hlo ha.le
    linarith

/-! ### Bounds on the helpers near zero -/

theorem log_three_halves_ge : (1 : ℝ) / 3 ≤ Real.log (3 / 2) := by
  have log_taylor_le (t : ℝ) (ht : 0 ≤ t) :
      t - t ^ 2 / 2 + t ^ 3 / 3 - t ^ 4 / 4 ≤ Real.log (1 + t) := by
    clear * - t ht
    have h := log_taylor_monotone (show (0:ℝ) ∈ Set.Ioi (-1) by simp)
      (show t ∈ Set.Ioi (-1) by simp; linarith) ht
    simp at h
    linarith
  have := log_taylor_le (1 / 2) (by norm_num)
  norm_num at this
  linarith

/-! ### Exponents near 1: numerical slack between the candidates of 2 and 3 -/

/-- Near exponent 1 the code's candidate of `m = 2`, which is `2 - s_`, is at least
`2 - 0.488`. -/
theorem code_candidate_two_ge (q : ℝ) (hnear : |1 - q| ≤ 1e-7) :
    189 / 125 ≤ h_integral_inv q (h_integral q (5 / 2) - h q 2) := by
  have exp_ratio_sub_one_abs (y : ℝ) (hy : |y| ≤ 1) : |exp_ratio y - 1| ≤ |y| := by
    clear * - y hy
    unfold exp_ratio
    split_ifs with h0
    · simp
    · have hb := Real.abs_exp_sub_one_sub_id_le hy
      have hpos : 0 < |y| := abs_pos.mpr h0
      have e : (Real.exp y - 1) / y - 1 = (Real.exp y - 1 - y) / y := by field_simp
      rw [e, abs_div, div_le_iff₀ hpos]
      calc |Real.exp y - 1 - y| ≤ y ^ 2 := hb
        _ = |y| * |y| := by rw [abs_mul_abs_self]; ring
  have helper1_series (x : ℝ) (hx : |x| ≤ 1e-8) :
      helper1 x = 1 - x / 2 + x ^ 2 / 3 - x ^ 3 / 4 := by
    clear * - x hx
    have hx' : ¬ (|x| > 1e-8) := not_lt.mpr hx
    rw [helper1, if_neg hx']
    norm_num
    ring
  have helper2_ge (y : ℝ) (hy : |y| ≤ 1) : 1 - |y| ≤ helper2 y := by
    clear * - y hy exp_ratio_sub_one_abs
    by_cases hdir : |y| > 1e-8
    · rw [helper2_direct y hdir]
      have := (abs_le.mp (exp_ratio_sub_one_abs y hy)).1
      linarith
    · have hy' := not_lt.mp hdir
      rw [helper2_series y hy']
      obtain ⟨hlo, hhi⟩ := abs_le.mp hy
      have habs : -|y| ≤ y := neg_abs_le y
      have h2 : 0 ≤ y ^ 2 := sq_nonneg y
      have h3 : -(|y|) ≤ y ^ 3 := by
        have : |y ^ 3| ≤ |y| := by
          rw [abs_pow]
          calc |y| ^ 3 = |y| * |y| ^ 2 := by ring
            _ ≤ |y| * 1 := by
              apply mul_le_mul_of_nonneg_left _ (abs_nonneg y)
              exact pow_le_one₀ (abs_nonneg y) hy
            _ = |y| := mul_one _
        exact (abs_le.mp this).1
      linarith [abs_nonneg y]
  have h_eq (q x : ℝ) : h q x = Real.exp (-q * Real.log x) := by
    clear * - q x
    exact rfl
  have helper1_direct (t : ℝ) (ht : |t| > 1e-8) : helper1 t = log_ratio t := by
    clear * - t ht
    have h0 : t ≠ 0 := by
      rintro rfl
      norm_num at ht
    rw [helper1, if_pos ht, log_ratio, if_neg h0]
  have h_pos (q x : ℝ) : 0 < h q x := by
    clear * - q x
    exact Real.exp_pos _
  have log_ratio_sub_one_abs (t : ℝ) (ht : |t| ≤ 1 / 2) : |log_ratio t - 1| ≤ 2 * |t| := by
    clear * - t ht
    unfold log_ratio
    split_ifs with h0
    · simp
    · have h1 : |-t| < 1 := by rw [abs_neg]; linarith
      have hb := Real.abs_log_sub_add_sum_range_le h1 1
      simp only [Finset.sum_range_one, abs_neg, sub_neg_eq_add] at hb
      norm_num at hb
      have hpos : 0 < |t| := abs_pos.mpr h0
      have e : Real.log (1 + t) / t - 1 = (-t + Real.log (1 + t)) / t := by field_simp; ring
      rw [e, abs_div, div_le_iff₀ hpos]
      refine hb.trans ?_
      rw [div_le_iff₀ (by linarith)]
      have hsq : t ^ 2 = |t| * |t| := by rw [abs_mul_abs_self]; ring
      rw [hsq]
      nlinarith [abs_nonneg t, mul_nonneg (abs_nonneg t) (abs_nonneg t)]
  -- The value `h x = x ^ (-q)` written around exponent 1.
  have h_eq_near (q x : ℝ) (hx : 0 < x) : h q x = Real.exp ((1 - q) * Real.log x) / x := by
    clear * - q x hx h_eq
    rw [h_eq, show -q * Real.log x = (1 - q) * Real.log x - Real.log x by ring, Real.exp_sub,
      Real.exp_log hx]
  have log_five_halves_ge : (3 : ℝ) / 5 ≤ Real.log (5 / 2) := by
    clear * -
    have h := Real.log_le_sub_one_of_pos (show (0:ℝ) < 2 / 5 by norm_num)
    have e : Real.log (5 / 2) = -Real.log (2 / 5) := by
      rw [← Real.log_inv]; norm_num
    rw [e]
    linarith
  have exp_le_one_add_two_abs (y : ℝ) (hy : |y| ≤ 1) : Real.exp y ≤ 1 + 2 * |y| := by
    clear * - y hy
    have hb := (abs_le.mp (Real.abs_exp_sub_one_sub_id_le hy)).2
    have h1 : y ^ 2 ≤ |y| := by
      calc y ^ 2 = |y| * |y| := by rw [abs_mul_abs_self]; ring
        _ ≤ |y| * 1 := mul_le_mul_of_nonneg_left hy (abs_nonneg y)
        _ = |y| := mul_one _
    linarith [le_abs_self y]
  have helper1_ge (t : ℝ) (ht : |t| ≤ 1 / 2) : 1 - 2 * |t| ≤ helper1 t := by
    clear * - t ht log_ratio_sub_one_abs helper1_direct helper1_series
    by_cases hdir : |t| > 1e-8
    · rw [helper1_direct t hdir]
      have := (abs_le.mp (log_ratio_sub_one_abs t ht)).1
      linarith
    · have ht' := not_lt.mp hdir
      rw [helper1_series t ht']
      have habs : t ≤ |t| := le_abs_self t
      have h2 : 0 ≤ t ^ 2 := sq_nonneg t
      have h3 : t ^ 3 ≤ |t| := by
        have : |t ^ 3| ≤ |t| := by
          rw [abs_pow]
          calc |t| ^ 3 = |t| * |t| ^ 2 := by ring
            _ ≤ |t| * 1 := by
              apply mul_le_mul_of_nonneg_left _ (abs_nonneg t)
              exact pow_le_one₀ (abs_nonneg t) (by linarith)
            _ = |t| := mul_one _
        exact (abs_le.mp this).2
      linarith [abs_nonneg t]
  have hd : |1 - q| ≤ 1 / 10000000 := by norm_num at hnear; exact hnear
  have hd0 := abs_nonneg (1 - q)
  generalize hddef : |1 - q| = d at hd hd0
  have hL25lo : 3 / 5 ≤ Real.log (5 / 2) := log_five_halves_ge
  have hL25hi : Real.log (5 / 2) ≤ 3 / 2 := by
    have := Real.log_le_sub_one_of_pos (show (0:ℝ) < 5 / 2 by norm_num); linarith
  have hL2lo : 0 ≤ Real.log 2 := Real.log_nonneg (by norm_num)
  have hL2hi : Real.log 2 ≤ 1 := by
    have := Real.log_le_sub_one_of_pos (show (0:ℝ) < 2 by norm_num); linarith
  have hy : |(1 - q) * Real.log (5 / 2)| ≤ d * (3 / 2) := by
    rw [abs_mul, abs_of_nonneg (by linarith : (0:ℝ) ≤ Real.log (5 / 2)), hddef]
    exact mul_le_mul_of_nonneg_left hL25hi hd0
  have hHlo : Real.log (5 / 2) - 9 / 4 * d ≤ h_integral q (5 / 2) := by
    have h1 := helper2_ge ((1 - q) * Real.log (5 / 2)) (by linarith)
    rw [h_integral_eq]
    have h2 : 1 - d * (3 / 2) ≤ helper2 ((1 - q) * Real.log (5 / 2)) := by linarith
    calc Real.log (5 / 2) - 9 / 4 * d ≤ (1 - d * (3 / 2)) * Real.log (5 / 2) := by nlinarith
      _ ≤ helper2 ((1 - q) * Real.log (5 / 2)) * Real.log (5 / 2) :=
        mul_le_mul_of_nonneg_right h2 (by linarith)
  have hHhi : h_integral q (5 / 2) ≤ 2 := by
    have h0 := h_integral_le_exact q (5 / 2) (by norm_num)
    have h1 := (abs_le.mp (exp_ratio_sub_one_abs ((1 - q) * Real.log (5 / 2))
      (by linarith))).2
    rw [h_integral_exact] at h0
    have h2 : exp_ratio ((1 - q) * Real.log (5 / 2)) ≤ 1 + d * (3 / 2) := by linarith
    have h3 : exp_ratio ((1 - q) * Real.log (5 / 2)) * Real.log (5 / 2) ≤
        (1 + d * (3 / 2)) * Real.log (5 / 2) :=
      mul_le_mul_of_nonneg_right h2 (by linarith)
    nlinarith
  have hh : h q 2 ≤ 1 / 2 + d := by
    rw [h_eq_near q 2 (by norm_num), div_le_iff₀ (by norm_num : (0:ℝ) < 2)]
    have h2 : |(1 - q) * Real.log 2| ≤ d := by
      rw [abs_mul, abs_of_nonneg hL2lo, hddef]
      calc d * Real.log 2 ≤ d * 1 := mul_le_mul_of_nonneg_left hL2hi hd0
        _ = d := mul_one d
    have h1 := exp_le_one_add_two_abs ((1 - q) * Real.log 2) (by linarith)
    linarith
  generalize hudef : h_integral q (5 / 2) - h q 2 = u
  have hu_lo : Real.log (5 / 2) - 1 / 2 - 13 / 4 * d ≤ u := by linarith
  have hu0 : 0 ≤ u := by linarith
  have hu2 : u ≤ 2 := by linarith [h_pos q 2]
  have hua : |u * (1 - q)| ≤ 2 * d := by
    rw [abs_mul, abs_of_nonneg hu0, hddef]
    exact mul_le_mul_of_nonneg_right hu2 hd0
  have hdom : -1 ≤ u * (1 - q) := by
    have := (abs_le.mp hua).1
    linarith
  have hh1 := helper1_ge (u * (1 - q)) (by linarith)
  have hexpo : Real.log (5 / 2) - (1 / 2 + 3 / 2500000) ≤ helper1 (u * (1 - q)) * u := by
    have h1 : 1 - 4 * d ≤ helper1 (u * (1 - q)) := by linarith
    have h2 : (1 - 4 * d) * u ≤ helper1 (u * (1 - q)) * u :=
      mul_le_mul_of_nonneg_right h1 hu0
    have h3 : d * u ≤ d * 2 := mul_le_mul_of_nonneg_left hu2 hd0
    linarith
  rw [h_integral_inv_eq q u hdom]
  have hexp_hi : Real.exp (1 / 2 + 3 / 2500000) ≤ 33 / 20 := by
    have hb := Real.exp_bound (show |(1 / 2 + 3 / 2500000 : ℝ)| ≤ 1 by
      rw [abs_of_nonneg (by norm_num)]; norm_num) (show 0 < 4 by norm_num)
    have hb' := (abs_le.mp hb).2
    simp only [Finset.sum_range_succ, Finset.sum_range_zero, Nat.factorial] at hb'
    rw [abs_of_nonneg (by norm_num : (0:ℝ) ≤ 1 / 2 + 3 / 2500000)] at hb'
    norm_num at hb'
    linarith
  calc (189 : ℝ) / 125 ≤ (5 / 2) / Real.exp (1 / 2 + 3 / 2500000) := by
        rw [le_div_iff₀ (Real.exp_pos _)]
        linarith
    _ = Real.exp (Real.log (5 / 2) - (1 / 2 + 3 / 2500000)) := by
        rw [Real.exp_sub, Real.exp_log (by norm_num)]
    _ ≤ Real.exp (helper1 (u * (1 - q)) * u) := Real.exp_le_exp.mpr hexpo

/-! ### Theorem 2 for the code and the soundness of the short-circuit -/

theorem h_integral_inv_exact_mono (q u v : ℝ) (hu : -1 < u * (1 - q)) (hv : -1 < v * (1 - q))
    (huv : u ≤ v) : h_integral_inv_exact q u ≤ h_integral_inv_exact q v := by
  -- From a product `g t * t` strictly increasing on `(-1, ∞)` with `g 0 = 1` to the exponent
  -- `g (u * a) * u` of the inverse transform, strictly increasing in `u`.
  have ratio_mul_arg_strictMono (g : ℝ → ℝ) (hg0 : g 0 = 1)
      (hG : ∀ s t : ℝ, -1 < s → s < t → g s * s < g t * t) (a u v : ℝ)
      (hu : -1 < u * a) (hv : -1 < v * a) (huv : u < v) : g (u * a) * u < g (v * a) * v := by
    clear * - g hg0 hG a u v hu hv huv
    rcases lt_trichotomy a 0 with ha | ha | ha
    · have h1 := hG (v * a) (u * a) hv (mul_lt_mul_of_neg_right huv ha)
      have e1 : g (u * a) * (u * a) = g (u * a) * u * a := by ring
      have e2 : g (v * a) * (v * a) = g (v * a) * v * a := by ring
      rw [e1, e2] at h1
      by_contra hcon
      have := mul_le_mul_of_nonpos_right (not_lt.mp hcon) ha.le
      linarith
    · rw [ha, mul_zero, mul_zero, hg0]
      linarith
    · have h1 := hG (u * a) (v * a) hu (mul_lt_mul_of_pos_right huv ha)
      have e1 : g (u * a) * (u * a) = g (u * a) * u * a := by ring
      have e2 : g (v * a) * (v * a) = g (v * a) * v * a := by ring
      rw [e1, e2] at h1
      exact lt_of_mul_lt_mul_right h1 ha.le
  have log_ratio_mul (t : ℝ) : log_ratio t * t = Real.log (1 + t) := by
    clear * - t
    unfold log_ratio
    split_ifs with h0
    · simp [h0]
    · field_simp
  -- The documented inverse is strictly increasing on its domain.
  have h_integral_inv_exact_strictMono (q u v : ℝ) (hu : -1 < u * (1 - q))
      (hv : -1 < v * (1 - q)) (huv : u < v) :
      h_integral_inv_exact q u < h_integral_inv_exact q v := by
    clear * - q u v hu hv huv log_ratio_mul ratio_mul_arg_strictMono
    have log_ratio_mul_strictMono (s t : ℝ) (hs : -1 < s) (hst : s < t) :
        log_ratio s * s < log_ratio t * t := by
      clear * - s t hs hst log_ratio_mul
      rw [log_ratio_mul, log_ratio_mul]
      exact Real.log_lt_log (by linarith) (by linarith)
    rw [h_integral_inv_exact, h_integral_inv_exact]
    exact Real.exp_lt_exp.mpr
      (ratio_mul_arg_strictMono log_ratio (by simp [log_ratio]) log_ratio_mul_strictMono
        (1 - q) u v hu hv huv)
  rcases eq_or_lt_of_le huv with h | h
  · rw [h]
  · exact (h_integral_inv_exact_strictMono q u v hu hv h).le

/-- Theorem 2 for the code: the candidate reached from the acceptance bound of `k ≥ 3` is at
most the one of 2 shifted by `k - 2`, that is `f(k) ≥ f(2) = s_`. -/
theorem code_candidate_le (q k : ℝ) (hq : 0 < q) (hk : 3 ≤ k) :
    h_integral_inv q (h_integral q (k + 1 / 2) - h q k) ≤
      h_integral_inv q (h_integral q (5 / 2) - h q 2) + (k - 2) := by
  -- Away from exponent 1 the code's `h_integral_inv` is the documented one on arguments that
  -- are at least `H(3/2)` and at most some value of `H`.
  have h_integral_inv_eq_exact_of_far (q u x : ℝ) (hq : 0 < q) (hfar : 1e-7 ≤ |1 - q|)
      (hlo : h_integral_exact q (3 / 2) ≤ u) (hhi : u ≤ h_integral_exact q x) :
      h_integral_inv q u = h_integral_inv_exact q u := by
    clear * - q u x hq hfar hlo hhi
    have helper1_direct (t : ℝ) (ht : |t| > 1e-8) : helper1 t = log_ratio t := by
      clear * - t ht
      have h0 : t ≠ 0 := by
        rintro rfl
        norm_num at ht
      rw [helper1, if_pos ht, log_ratio, if_neg h0]
    have exp_taylor_ge (y : ℝ) (hy : y ≤ 0) :
        Real.exp y ≤ 1 + y + y ^ 2 / 2 + y ^ 3 / 6 + y ^ 4 / 24 := by
      clear * - y hy
      have h := exp_taylor_antitone hy
      simp only [neg_zero, Real.exp_zero] at h
      norm_num at h
      rw [Real.exp_neg] at h
      have he := Real.exp_pos y
      rwa [← div_eq_mul_inv, one_le_div he] at h
    have hfar' : (1:ℝ) / 10000000 ≤ |1 - q| := by norm_num at hfar; exact hfar
    have hH0 : 0 ≤ h_integral_exact q (3 / 2) := h_integral_exact_nonneg q _ (by norm_num)
    have hdom := inv_domain q u x hq (by linarith) hhi
    have hcl := h_integral_exact_closed q (3 / 2)
    have hL := log_three_halves_ge
    have hdir : |u * (1 - q)| > 1e-8 := by
      have e8 : (1e-8 : ℝ) = 1 / 100000000 := by norm_num
      rw [e8]
      rcases le_or_lt 0 (1 - q) with ha | ha
      · rw [abs_of_nonneg ha] at hfar'
        have h1 : h_integral_exact q (3 / 2) * (1 - q) ≤ u * (1 - q) :=
          mul_le_mul_of_nonneg_right hlo ha
        have h2 := Real.add_one_le_exp ((1 - q) * Real.log (3 / 2))
        have h3 : (1:ℝ) / 10000000 * (1 / 3) ≤ (1 - q) * Real.log (3 / 2) :=
          mul_le_mul hfar' hL (by norm_num) ha
        have h4 : 1 / 100000000 < u * (1 - q) := by
          norm_num at h3; linarith
        exact lt_of_lt_of_le h4 (le_abs_self _)
      · rw [abs_of_neg ha] at hfar'
        have h1 : u * (1 - q) ≤ h_integral_exact q (3 / 2) * (1 - q) :=
          mul_le_mul_of_nonpos_right hlo ha.le
        have h3 : (1 - q) * Real.log (3 / 2) ≤ -(1 / 30000000) := by
          nlinarith
        have h2 : Real.exp ((1 - q) * Real.log (3 / 2)) ≤ Real.exp (-(1 / 30000000)) :=
          Real.exp_le_exp.mpr h3
        have h5 := exp_taylor_ge (-(1 / 30000000)) (by norm_num)
        have h4 : u * (1 - q) < -(1 / 100000000) := by
          norm_num at h5; linarith
        rw [abs_of_neg (by linarith)]
        linarith
    rw [h_integral_inv_eq q u hdom.le, helper1_direct _ hdir, h_integral_inv_exact]
  have exp_ratio_sub_one_abs (y : ℝ) (hy : |y| ≤ 1) : |exp_ratio y - 1| ≤ |y| := by
    clear * - y hy
    unfold exp_ratio
    split_ifs with h0
    · simp
    · have hb := Real.abs_exp_sub_one_sub_id_le hy
      have hpos : 0 < |y| := abs_pos.mpr h0
      have e : (Real.exp y - 1) / y - 1 = (Real.exp y - 1 - y) / y := by field_simp
      rw [e, abs_div, div_le_iff₀ hpos]
      calc |Real.exp y - 1 - y| ≤ y ^ 2 := hb
        _ = |y| * |y| := by rw [abs_mul_abs_self]; ring
  have h_eq (q x : ℝ) : h q x = Real.exp (-q * Real.log x) := by
    clear * - q x
    exact rfl
  have h_le_one (q x : ℝ) (hq : 0 ≤ q) (hx : 1 ≤ x) : h q x ≤ 1 := by
    clear * - q x hq hx h_eq
    rw [h_eq, ← Real.exp_zero]
    apply Real.exp_le_exp.mpr
    have := Real.log_nonneg hx
    nlinarith
  have h_integral_inv_mono (q u v : ℝ) (hu : -1 < u * (1 - q)) (hv : -1 < v * (1 - q))
      (huv : u ≤ v) : h_integral_inv q u ≤ h_integral_inv q v := by
    clear * - q u v hu hv huv
    rcases eq_or_lt_of_le huv with h | h
    · rw [h]
    · exact (h_integral_inv_strictMono q u v hu hv h).le
  -- The code's `h_integral_inv` never exceeds the documented inverse, on nonnegative
  -- arguments where the cap is not taken.
  have h_integral_inv_le_exact (q u : ℝ) (hu : 0 ≤ u) (hdom : -1 ≤ u * (1 - q)) :
      h_integral_inv q u ≤ h_integral_inv_exact q u := by
    clear * - q u hu hdom
    rw [h_integral_inv_eq q u hdom, h_integral_inv_exact]
    apply Real.exp_le_exp.mpr
    exact mul_le_mul_of_nonneg_right (helper1_le_log_ratio _) hu
  have h_pos (q x : ℝ) : 0 < h q x := by
    clear * - q x
    exact Real.exp_pos _
  have h_integral_inv_zero (q : ℝ) : h_integral_inv q 0 = 1 := by
    clear * - q
    rw [h_integral_inv_eq q 0 (by norm_num)]
    simp
  have exp_taylor_le (y : ℝ) (hy : 0 ≤ y) :
      1 + y + y ^ 2 / 2 + y ^ 3 / 6 + y ^ 4 / 24 ≤ Real.exp y := by
    clear * - y hy
    have h := exp_taylor_antitone hy
    simp only [neg_zero, Real.exp_zero] at h
    norm_num at h
    rw [Real.exp_neg] at h
    have he := Real.exp_pos y
    rwa [← div_eq_mul_inv, div_le_one he] at h
  have log_ratio_sub_one_abs (t : ℝ) (ht : |t| ≤ 1 / 2) : |log_ratio t - 1| ≤ 2 * |t| := by
    clear * - t ht
    unfold log_ratio
    split_ifs with h0
    · simp
    · have h1 : |-t| < 1 := by rw [abs_neg]; linarith
      have hb := Real.abs_log_sub_add_sum_range_le h1 1
      simp only [Finset.sum_range_one, abs_neg, sub_neg_eq_add] at hb
      norm_num at hb
      have hpos : 0 < |t| := abs_pos.mpr h0
      have e : Real.log (1 + t) / t - 1 = (-t + Real.log (1 + t)) / t := by field_simp; ring
      rw [e, abs_div, div_le_iff₀ hpos]
      refine hb.trans ?_
      rw [div_le_iff₀ (by linarith)]
      have hsq : t ^ 2 = |t| * |t| := by rw [abs_mul_abs_self]; ring
      rw [hsq]
      nlinarith [abs_nonneg t, mul_nonneg (abs_nonneg t) (abs_nonneg t)]
  have h_integral_inv_pos (q u : ℝ) : 0 < h_integral_inv q u := by
    clear * - q u
    exact Real.exp_pos _
  -- Away from exponent 1 the code's `h_integral` is the documented one at every `x ≥ 3/2`.
  have h_integral_eq_exact_of_far (q x : ℝ) (hfar : 1e-7 ≤ |1 - q|) (hx : 3 / 2 ≤ x) :
      h_integral q x = h_integral_exact q x := by
    clear * - q x hfar hx
    have hL : (1:ℝ) / 3 ≤ Real.log x :=
      log_three_halves_ge.trans (Real.log_le_log (by norm_num) hx)
    have hfar' : (1:ℝ) / 10000000 ≤ |1 - q| := by norm_num at hfar; exact hfar
    have hdir : |(1 - q) * Real.log x| > 1e-8 := by
      rw [abs_mul, abs_of_nonneg (by linarith : (0:ℝ) ≤ Real.log x)]
      norm_num
      nlinarith [abs_nonneg (1 - q)]
    rw [h_integral_eq, helper2_direct _ hdir, h_integral_exact]
  -- The value `h x = x ^ (-q)` written around exponent 1.
  have h_eq_near (q x : ℝ) (hx : 0 < x) : h q x = Real.exp ((1 - q) * Real.log x) / x := by
    clear * - q x hx h_eq
    rw [h_eq, show -q * Real.log x = (1 - q) * Real.log x - Real.log x by ring, Real.exp_sub,
      Real.exp_log hx]
  -- The documented candidate of 3 against the code's candidate of 2, for every exponent.
  have exact_three_le_code_two (q : ℝ) (hq : 0 < q) :
      h_integral_inv_exact q (h_integral_exact q (7 / 2) - h q 3) ≤
        h_integral_inv q (h_integral q (5 / 2) - h q 2) + 1 := by
    clear * - q hq h_eq_near h_integral_eq_exact_of_far log_ratio_sub_one_abs exp_taylor_le h_pos exp_ratio_sub_one_abs h_integral_inv_eq_exact_of_far
    -- Near exponent 1 the documented candidate of `m = 3` is at most `3 - 0.488`.
    have exact_candidate_three_le (q : ℝ) (hq : 0 < q) (hnear : |1 - q| ≤ 1e-7) :
        h_integral_inv_exact q (h_integral_exact q (7 / 2) - h q 3) ≤ 314 / 125 := by
      clear * - q hq hnear h_eq_near log_ratio_sub_one_abs exp_taylor_le exp_ratio_sub_one_abs
      have hd : |1 - q| ≤ 1 / 10000000 := by norm_num at hnear; exact hnear
      have hd0 := abs_nonneg (1 - q)
      generalize hddef : |1 - q| = d at hd hd0
      have hL35lo : 0 ≤ Real.log (7 / 2) := Real.log_nonneg (by norm_num)
      have hL35hi : Real.log (7 / 2) ≤ 5 / 2 := by
        have := Real.log_le_sub_one_of_pos (show (0:ℝ) < 7 / 2 by norm_num); linarith
      have hL3lo : 0 ≤ Real.log 3 := Real.log_nonneg (by norm_num)
      have hL3hi : Real.log 3 ≤ 2 := by
        have := Real.log_le_sub_one_of_pos (show (0:ℝ) < 3 by norm_num); linarith
      -- the integral function at 7/2
      have hy : |(1 - q) * Real.log (7 / 2)| ≤ d * (5 / 2) := by
        rw [abs_mul, abs_of_nonneg hL35lo, hddef]
        exact mul_le_mul_of_nonneg_left hL35hi hd0
      have hH : h_integral_exact q (7 / 2) ≤ Real.log (7 / 2) + 25 / 4 * d := by
        have h1 := (abs_le.mp (exp_ratio_sub_one_abs ((1 - q) * Real.log (7 / 2))
          (by linarith))).2
        rw [h_integral_exact]
        have h2 : exp_ratio ((1 - q) * Real.log (7 / 2)) ≤ 1 + d * (5 / 2) := by linarith
        calc exp_ratio ((1 - q) * Real.log (7 / 2)) * Real.log (7 / 2)
            ≤ (1 + d * (5 / 2)) * Real.log (7 / 2) := mul_le_mul_of_nonneg_right h2 hL35lo
          _ ≤ Real.log (7 / 2) + 25 / 4 * d := by nlinarith
      -- the value of `h` at 3
      have hh : 1 / 3 - 2 / 3 * d ≤ h q 3 := by
        rw [h_eq_near q 3 (by norm_num)]
        have h1 := Real.add_one_le_exp ((1 - q) * Real.log 3)
        have h2 : -(d * 2) ≤ (1 - q) * Real.log 3 := by
          have : |(1 - q) * Real.log 3| ≤ d * 2 := by
            rw [abs_mul, abs_of_nonneg hL3lo, hddef]
            exact mul_le_mul_of_nonneg_left hL3hi hd0
          exact (abs_le.mp this).1
        rw [le_div_iff₀ (by norm_num : (0:ℝ) < 3)]
        linarith
      generalize hudef : h_integral_exact q (7 / 2) - h q 3 = u
      have hu_hi : u ≤ Real.log (7 / 2) - 1 / 3 + 7 * d := by linarith
      have hu_lo : 0 ≤ u := by
        have h1 := h_le_integral q 3 hq.le (by norm_num)
        have h2 := h_integral_exact_nonneg q (5 / 2) (by norm_num)
        norm_num at h1
        linarith
      have hu3 : u ≤ 3 := by linarith
      have hua : |u * (1 - q)| ≤ 3 * d := by
        rw [abs_mul, abs_of_nonneg hu_lo, hddef]
        exact mul_le_mul_of_nonneg_right hu3 hd0
      have hlr := (abs_le.mp (log_ratio_sub_one_abs (u * (1 - q)) (by linarith))).2
      have hexpo : log_ratio (u * (1 - q)) * u ≤ Real.log (7 / 2) - (1 / 3 - 1 / 400000) := by
        have h1 : log_ratio (u * (1 - q)) ≤ 1 + 6 * d := by linarith
        have h2 : log_ratio (u * (1 - q)) * u ≤ (1 + 6 * d) * u :=
          mul_le_mul_of_nonneg_right h1 hu_lo
        have h3 : d * u ≤ d * 3 := mul_le_mul_of_nonneg_left hu3 hd0
        linarith
      rw [h_integral_inv_exact]
      calc Real.exp (log_ratio (u * (1 - q)) * u)
          ≤ Real.exp (Real.log (7 / 2) - (1 / 3 - 1 / 400000)) := Real.exp_le_exp.mpr hexpo
        _ = (7 / 2) / Real.exp (1 / 3 - 1 / 400000) := by
            rw [Real.exp_sub, Real.exp_log (by norm_num)]
        _ ≤ 314 / 125 := by
            have h1 := exp_taylor_le (1 / 3 - 1 / 400000) (by norm_num)
            rw [div_le_iff₀ (Real.exp_pos _)]
            norm_num at h1
            linarith
    -- Away from exponent 1 the constant `s_` is the value at 2 of the function `f` for the
    -- documented transforms.
    have s_eq_exact_of_far (q : ℝ) (hq : 0 < q) (hfar : 1e-7 ≤ |1 - q|) :
        h_integral_inv q (h_integral q (5 / 2) - h q 2) =
          h_integral_inv_exact q (h_integral_exact q (5 / 2) - h q 2) := by
      clear * - q hq hfar h_integral_eq_exact_of_far h_pos h_integral_inv_eq_exact_of_far
      rw [h_integral_eq_exact_of_far q (5 / 2) hfar (by norm_num)]
      apply h_integral_inv_eq_exact_of_far q _ (5 / 2) hq hfar
      · have := h_le_integral q 2 hq.le (by norm_num)
        norm_num at this
        linarith
      · linarith [h_pos q 2]
    by_cases hfar : 1e-7 ≤ |1 - q|
    · rw [s_eq_exact_of_far q hq hfar]
      have := exact_f_monotone q 2 3 hq (by norm_num) (by norm_num)
      norm_num at this
      linarith
    · have h1 := exact_candidate_three_le q hq (not_le.mp hfar).le
      have h2 := code_candidate_two_ge q (not_le.mp hfar).le
      linarith
  have hk1 : (1:ℝ) ≤ k + 1 / 2 := by linarith
  have hH0 := h_integral_nonneg q (k + 1 / 2) hk1
  have hHle := h_integral_le_exact q (k + 1 / 2) hk1
  have hh1 := h_le_one q k hq.le (by linarith)
  have hh0 := h_pos q k
  have hdom : -1 < (h_integral q (k + 1 / 2) - h q k) * (1 - q) :=
    inv_domain q _ (k + 1 / 2) hq (by linarith) (by linarith)
  have hdomx : -1 < (h_integral_exact q (k + 1 / 2) - h q k) * (1 - q) :=
    inv_domain q _ (k + 1 / 2) hq (by linarith) (by linarith)
  have hpos2 := h_integral_inv_pos q (h_integral q (5 / 2) - h q 2)
  by_cases hu : h_integral q (k + 1 / 2) - h q k ≤ 0
  · have h1 := h_integral_inv_mono q _ 0 hdom (by norm_num) hu
    rw [h_integral_inv_zero] at h1
    linarith
  · have hu' : 0 ≤ h_integral q (k + 1 / 2) - h q k := (not_le.mp hu).le
    have s1 := h_integral_inv_le_exact q _ hu' hdom.le
    have s2 := h_integral_inv_exact_mono q _ _ hdom hdomx
      (show h_integral q (k + 1 / 2) - h q k ≤ h_integral_exact q (k + 1 / 2) - h q k by linarith)
    have s3 := exact_f_monotone q 3 k hq (by norm_num) hk
    have s4 := exact_three_le_code_two q hq
    norm_num at s3
    linarith

/-! ### The sampler state -/

/-- The constant `h_integral_x1_` is below `h_integral_num_elements_`, by more than `1/2`. -/
theorem x1_lt_num_elements (q x : ℝ) (hq : 0 ≤ q) (hx : 1 ≤ x) :
    h_integral q (3 / 2) - 1 + 1 / 2 ≤ h_integral q x := by
  have h_one (q : ℝ) : h q 1 = 1 := by
    clear * - q
    simp [h]
  -- The integral function at `1.5` is at most `1/2`.
  have h_integral_exact_le_half (q : ℝ) (hq : 0 ≤ q) : h_integral_exact q (3 / 2) ≤ 1 / 2 := by
    clear * - q hq h_one
    have h_integral_exact_one (q : ℝ) : h_integral_exact q 1 = 0 := by
      clear * - q
      simp [h_integral_exact]
    have := (h_integral_exact_sub_bounds q 1 (3 / 2) hq one_pos (by norm_num)).2
    rw [h_integral_exact_one, h_one] at this
    linarith
  have h1 := h_integral_le_exact q (3 / 2) (by norm_num)
  have h2 := h_integral_exact_le_half q hq
  have h3 := h_integral_nonneg q x hx
  linarith

/-- The fields of a successfully constructed sampler. -/
theorem new_fields (n : Int) (q : ℝ) (z : ZipfDistribution)
    (hz : z = { num_elements_ := n
                exponent_ := q
                h_integral_x1_ := h_integral q 1.5 - 1
                h_integral_num_elements_ := h_integral q ((n : ℝ) + 0.5)
                s_ := 2 - h_integral_inv q (h_integral q 2.5 - h q 2) }) :
    z.num_elements_ = n ∧ z.exponent_ = q ∧ z.h_integral_x1_ = h_integral q (3 / 2) - 1 ∧
      z.h_integral_num_elements_ = h_integral q ((n : ℝ) + 1 / 2) ∧
      z.s_ = 2 - h_integral_inv q (h_integral q (5 / 2) - h q 2) := by
  subst hz
  refine ⟨rfl, rfl, ?_, ?_, ?_⟩
  · norm_num
  · norm_num
  · norm_num

/-- The value `u` of an iteration lies between the two constants. -/
theorem u_of_bounds (n : Int) (q r : ℝ) (hn : 1 ≤ n) (hq : 0 < q) (hr0 : 0 ≤ r) (hr1 : r ≤ 1)
    (z : ZipfDistribution)
    (hz : z = { num_elements_ := n
                exponent_ := q
                h_integral_x1_ := h_integral q 1.5 - 1
                h_integral_num_elements_ := h_integral q ((n : ℝ) + 0.5)
                s_ := 2 - h_integral_inv q (h_integral q 2.5 - h q 2) }) :
    h_integral q (3 / 2) - 1 ≤ z.u_of r ∧ z.u_of r ≤ h_integral q ((n : ℝ) + 1 / 2) := by
  obtain ⟨_, _, hx1, hnum, _⟩ := new_fields n q z hz
  have hn' : (1:ℝ) ≤ (n : ℝ) := by exact_mod_cast hn
  have hlt := x1_lt_num_elements q ((n : ℝ) + 1 / 2) hq.le (by linarith)
  rw [ZipfDistribution.u_of, hx1, hnum]
  constructor
  · nlinarith
  · nlinarith

/-- Soundness of the short-circuit for a constructed sampler and any draw in `[0, 1]`. -/
theorem short_circuit_sound (n : Int) (q r : ℝ) (hn : 1 ≤ n) (hq : 0 < q) (hr0 : 0 ≤ r)
    (hr1 : r ≤ 1) (z : ZipfDistribution)
    (hz : z = { num_elements_ := n
                exponent_ := q
                h_integral_x1_ := h_integral q 1.5 - 1
                h_integral_num_elements_ := h_integral q ((n : ℝ) + 0.5)
                s_ := 2 - h_integral_inv q (h_integral q 2.5 - h q 2) })
    (hs : (z.k_of r : ℝ) - h_integral_inv z.exponent_ (z.u_of r) ≤ z.s_) :
    z.u_of r ≥ h_integral z.exponent_ ((z.k_of r : ℝ) + 0.5) - h z.exponent_ (z.k_of r) := by
  have h_eq (q x : ℝ) : h q x = Real.exp (-q * Real.log x) := by
    clear * - q x
    exact rfl
  have h_one (q : ℝ) : h q 1 = 1 := by
    clear * - q
    simp [h]
  have h_le_one (q x : ℝ) (hq : 0 ≤ q) (hx : 1 ≤ x) : h q x ≤ 1 := by
    clear * - q x hq hx h_eq
    rw [h_eq, ← Real.exp_zero]
    apply Real.exp_le_exp.mpr
    have := Real.log_nonneg hx
    nlinarith
  have limit_range (z : ZipfDistribution) (hn : 1 ≤ z.num_elements_) (k : Int) :
      1 ≤ z.limit k ∧ z.limit k ≤ z.num_elements_ := by
    clear * - z hn k
    unfold ZipfDistribution.limit
    split_ifs with h1 h2
    · exact ⟨le_refl _, hn⟩
    · exact ⟨hn, le_refl _⟩
    · exact ⟨not_lt.mp h1, not_lt.mp h2⟩
  have h_pos (q x : ℝ) : 0 < h q x := by
    clear * - q x
    exact Real.exp_pos _
  -- Soundness of the short-circuit on the values themselves: for an integer `k ≥ 1` and a `u`
  -- between `h_integral_x1_` and a value of the integral function, `k - Hinv(u) ≤ s_` implies the
  -- exact acceptance test.
  have short_circuit_core (q : ℝ) (hq : 0 < q) (k : Int) (hk : 1 ≤ k) (u x0 : ℝ)
      (hlo : h_integral q (3 / 2) - 1 ≤ u) (hhi : u ≤ h_integral_exact q x0)
      (hs : (k : ℝ) - h_integral_inv q u ≤
        2 - h_integral_inv q (h_integral q (5 / 2) - h q 2)) :
      h_integral q ((k : ℝ) + 1 / 2) - h q (k : ℝ) ≤ u := by
    clear * - q hq k hk u x0 hlo hhi hs h_pos h_le_one h_one
    rcases eq_or_lt_of_le hk with h1 | h1
    · rw [← h1]
      have e : ((1 : Int) : ℝ) + 1 / 2 = 3 / 2 := by norm_num
      rw [e, Int.cast_one, h_one]
      exact hlo
    · have hk2 : (2:ℝ) ≤ (k : ℝ) := by exact_mod_cast (show (2:Int) ≤ k by omega)
      by_contra hcon
      have hlt := not_le.mp hcon
      have hk1 : (1:ℝ) ≤ (k : ℝ) + 1 / 2 := by linarith
      have hH0 := h_integral_nonneg q ((k : ℝ) + 1 / 2) hk1
      have hHle := h_integral_le_exact q ((k : ℝ) + 1 / 2) hk1
      have hh1 := h_le_one q (k : ℝ) hq.le (by linarith)
      have hh0 := h_pos q (k : ℝ)
      have hdomk : -1 < (h_integral q ((k : ℝ) + 1 / 2) - h q (k : ℝ)) * (1 - q) :=
        inv_domain q _ ((k : ℝ) + 1 / 2) hq (by linarith) (by linarith)
      have hx1 := h_integral_nonneg q (3 / 2) (by norm_num)
      have hdomu : -1 < u * (1 - q) := inv_domain q u x0 hq (by linarith) hhi
      have hmono := h_integral_inv_strictMono q u _ hdomu hdomk hlt
      have hcand : h_integral_inv q (h_integral q ((k : ℝ) + 1 / 2) - h q (k : ℝ)) ≤
          h_integral_inv q (h_integral q (5 / 2) - h q 2) + ((k : ℝ) - 2) := by
        rcases eq_or_lt_of_le (show (2:Int) ≤ k by omega) with h2 | h2
        · rw [← h2]
          have e : ((2 : Int) : ℝ) + 1 / 2 = 5 / 2 := by norm_num
          rw [e]
          norm_num
        · exact code_candidate_le q (k : ℝ) hq (by exact_mod_cast (show (3:Int) ≤ k by omega))
      linarith
  obtain ⟨hnum, hexp, _, _, hsf⟩ := new_fields n q z hz
  obtain ⟨hlo, hhi⟩ := u_of_bounds n q r hn hq hr0 hr1 z hz
  have hn' : (1:ℝ) ≤ (n : ℝ) := by exact_mod_cast hn
  have hk := (limit_range z (by rw [hnum]; exact hn)
    (round_to_int (h_integral_inv z.exponent_ (z.u_of r)))).1
  rw [hexp, hsf] at hs
  rw [hexp]
  have e : ((z.k_of r : ℝ) + 0.5) = (z.k_of r : ℝ) + 1 / 2 := by norm_num
  rw [e]
  exact short_circuit_core q hq (z.k_of r) hk (z.u_of r) ((n : ℝ) + 1 / 2) hlo
    (hhi.trans (h_integral_le_exact q _ (by linarith))) hs

/-! ### Rounding and the region of rejected draws -/

/-- Arguments at or above `H(y)` are mapped to at least `y` by the documented inverse. -/
theorem le_exact_inv_iff (q u y x0 : ℝ) (hq : 0 < q) (hy : 1 ≤ y) (hlo : -1 ≤ u)
    (hhi : u ≤ h_integral_exact q x0) :
    y ≤ h_integral_inv_exact q u ↔ h_integral_exact q y ≤ u := by
  -- From a product `g t * t` strictly increasing on `(-1, ∞)` with `g 0 = 1` to the exponent
  -- `g (u * a) * u` of the inverse transform, strictly increasing in `u`.
  have ratio_mul_arg_strictMono (g : ℝ → ℝ) (hg0 : g 0 = 1)
      (hG : ∀ s t : ℝ, -1 < s → s < t → g s * s < g t * t) (a u v : ℝ)
      (hu : -1 < u * a) (hv : -1 < v * a) (huv : u < v) : g (u * a) * u < g (v * a) * v := by
    clear * - g hg0 hG a u v hu hv huv
    rcases lt_trichotomy a 0 with ha | ha | ha
    · have h1 := hG (v * a) (u * a) hv (mul_lt_mul_of_neg_right huv ha)
      have e1 : g (u * a) * (u * a) = g (u * a) * u * a := by ring
      have e2 : g (v * a) * (v * a) = g (v * a) * v * a := by ring
      rw [e1, e2] at h1
      by_contra hcon
      have := mul_le_mul_of_nonpos_right (not_lt.mp hcon) ha.le
      linarith
    · rw [ha, mul_zero, mul_zero, hg0]
      linarith
    · have h1 := hG (u * a) (v * a) hu (mul_lt_mul_of_pos_right huv ha)
      have e1 : g (u * a) * (u * a) = g (u * a) * u * a := by ring
      have e2 : g (v * a) * (v * a) = g (v * a) * v * a := by ring
      rw [e1, e2] at h1
      exact lt_of_mul_lt_mul_right h1 ha.le
  have log_ratio_mul (t : ℝ) : log_ratio t * t = Real.log (1 + t) := by
    clear * - t
    unfold log_ratio
    split_ifs with h0
    · simp [h0]
    · field_simp
  -- The documented inverse is strictly increasing on its domain.
  have h_integral_inv_exact_strictMono (q u v : ℝ) (hu : -1 < u * (1 - q))
      (hv : -1 < v * (1 - q)) (huv : u < v) :
      h_integral_inv_exact q u < h_integral_inv_exact q v := by
    clear * - q u v hu hv huv log_ratio_mul ratio_mul_arg_strictMono
    have log_ratio_mul_strictMono (s t : ℝ) (hs : -1 < s) (hst : s < t) :
        log_ratio s * s < log_ratio t * t := by
      clear * - s t hs hst log_ratio_mul
      rw [log_ratio_mul, log_ratio_mul]
      exact Real.log_lt_log (by linarith) (by linarith)
    rw [h_integral_inv_exact, h_integral_inv_exact]
    exact Real.exp_lt_exp.mpr
      (ratio_mul_arg_strictMono log_ratio (by simp [log_ratio]) log_ratio_mul_strictMono
        (1 - q) u v hu hv huv)
  have hdomu := inv_domain q u x0 hq hlo hhi
  have hdomy := inv_domain q (h_integral_exact q y) y hq
    (by linarith [h_integral_exact_nonneg q y hy]) (le_refl _)
  have hinv := h_integral_inv_exact_h_integral_exact q y (by linarith)
  constructor
  · intro h1
    by_contra hcon
    have := h_integral_inv_exact_strictMono q u _ hdomu hdomy (not_le.mp hcon)
    rw [hinv] at this
    linarith
  · intro h1
    have := h_integral_inv_exact_mono q _ u hdomy hdomu h1
    rw [hinv] at this
    exact this

open MeasureTheory

/-! ### Where the code computes the documented transforms, and the candidate of an iteration -/

/-- At exponent 1 and away from it the code's `h_integral` is the documented one
at every `x ≥ 3/2`. -/
theorem regime_h_integral (q x : ℝ) (hreg : q = 1 ∨ 1e-7 ≤ |1 - q|) (hx : 3 / 2 ≤ x) :
    h_integral q x = h_integral_exact q x := by
  have h_integral_exact_at_one (x : ℝ) : h_integral_exact 1 x = Real.log x := by
    clear * - x
    simp [h_integral_exact, exp_ratio]
  have h_integral_at_one (x : ℝ) : h_integral 1 x = Real.log x := by
    clear * - x
    have helper2_zero : helper2 0 = 1 := by
      clear * -
      norm_num [helper2]
    rw [h_integral_eq]
    simp [helper2_zero]
  -- Away from exponent 1 the code's `h_integral` is the documented one at every `x ≥ 3/2`.
  have h_integral_eq_exact_of_far (q x : ℝ) (hfar : 1e-7 ≤ |1 - q|) (hx : 3 / 2 ≤ x) :
      h_integral q x = h_integral_exact q x := by
    clear * - q x hfar hx
    have hL : (1:ℝ) / 3 ≤ Real.log x :=
      log_three_halves_ge.trans (Real.log_le_log (by norm_num) hx)
    have hfar' : (1:ℝ) / 10000000 ≤ |1 - q| := by norm_num at hfar; exact hfar
    have hdir : |(1 - q) * Real.log x| > 1e-8 := by
      rw [abs_mul, abs_of_nonneg (by linarith : (0:ℝ) ≤ Real.log x)]
      norm_num
      nlinarith [abs_nonneg (1 - q)]
    rw [h_integral_eq, helper2_direct _ hdir, h_integral_exact]
  rcases hreg with h1 | hfar
  · rw [h1, h_integral_at_one, h_integral_exact_at_one]
  · exact h_integral_eq_exact_of_far q x hfar hx

/-- At exponent 1 and away from it the code's `h_integral_inv` is the documented one on
arguments that are at least `H(3/2)`. -/
theorem regime_h_integral_inv (q u x0 : ℝ) (hq : 0 < q) (hreg : q = 1 ∨ 1e-7 ≤ |1 - q|)
    (hlo : h_integral_exact q (3 / 2) ≤ u) (hhi : u ≤ h_integral_exact q x0) :
    h_integral_inv q u = h_integral_inv_exact q u := by
  -- Away from exponent 1 the code's `h_integral_inv` is the documented one on arguments that
  -- are at least `H(3/2)` and at most some value of `H`.
  have h_integral_inv_eq_exact_of_far (q u x : ℝ) (hq : 0 < q) (hfar : 1e-7 ≤ |1 - q|)
      (hlo : h_integral_exact q (3 / 2) ≤ u) (hhi : u ≤ h_integral_exact q x) :
      h_integral_inv q u = h_integral_inv_exact q u := by
    clear * - q u x hq hfar hlo hhi
    have helper1_direct (t : ℝ) (ht : |t| > 1e-8) : helper1 t = log_ratio t := by
      clear * - t ht
      have h0 : t ≠ 0 := by
        rintro rfl
        norm_num at ht
      rw [helper1, if_pos ht, log_ratio, if_neg h0]
    have exp_taylor_ge (y : ℝ) (hy : y ≤ 0) :
        Real.exp y ≤ 1 + y + y ^ 2 / 2 + y ^ 3 / 6 + y ^ 4 / 24 := by
      clear * - y hy
      have h := exp_taylor_antitone hy
      simp only [neg_zero, Real.exp_zero] at h
      norm_num at h
      rw [Real.exp_neg] at h
      have he := Real.exp_pos y
      rwa [← div_eq_mul_inv, one_le_div he] at h
    have hfar' : (1:ℝ) / 10000000 ≤ |1 - q| := by norm_num at hfar; exact hfar
    have hH0 : 0 ≤ h_integral_exact q (3 / 2) := h_integral_exact_nonneg q _ (by norm_num)
    have hdom := inv_domain q u x hq (by linarith) hhi
    have hcl := h_integral_exact_closed q (3 / 2)
    have hL := log_three_halves_ge
    have hdir : |u * (1 - q)| > 1e-8 := by
      have e8 : (1e-8 : ℝ) = 1 / 100000000 := by norm_num
      rw [e8]
      rcases le_or_lt 0 (1 - q) with ha | ha
      · rw [abs_of_nonneg ha] at hfar'
        have h1 : h_integral_exact q (3 / 2) * (1 - q) ≤ u * (1 - q) :=
          mul_le_mul_of_nonneg_right hlo ha
        have h2 := Real.add_one_le_exp ((1 - q) * Real.log (3 / 2))
        have h3 : (1:ℝ) / 10000000 * (1 / 3) ≤ (1 - q) * Real.log (3 / 2) :=
          mul_le_mul hfar' hL (by norm_num) ha
        have h4 : 1 / 100000000 < u * (1 - q) := by
          norm_num at h3; linarith
        exact lt_of_lt_of_le h4 (le_abs_self _)
      · rw [abs_of_neg ha] at hfar'
        have h1 : u * (1 - q) ≤ h_integral_exact q (3 / 2) * (1 - q) :=
          mul_le_mul_of_nonpos_right hlo ha.le
        have h3 : (1 - q) * Real.log (3 / 2) ≤ -(1 / 30000000) := by
          nlinarith
        have h2 : Real.exp ((1 - q) * Real.log (3 / 2)) ≤ Real.exp (-(1 / 30000000)) :=
          Real.exp_le_exp.mpr h3
        have h5 := exp_taylor_ge (-(1 / 30000000)) (by norm_num)
        have h4 : u * (1 - q) < -(1 / 100000000) := by
          norm_num at h5; linarith
        rw [abs_of_neg (by linarith)]
        linarith
    rw [h_integral_inv_eq q u hdom.le, helper1_direct _ hdir, h_integral_inv_exact]
  have helper1_zero : helper1 0 = 1 := by
    clear * -
    norm_num [helper1]
  have h_integral_inv_at_one (u : ℝ) : h_integral_inv 1 u = Real.exp u := by
    clear * - u helper1_zero
    rw [h_integral_inv_eq 1 u (by norm_num)]
    simp [helper1_zero]
  have h_integral_inv_exact_at_one (u : ℝ) : h_integral_inv_exact 1 u = Real.exp u := by
    clear * - u
    simp [h_integral_inv_exact, log_ratio]
  rcases hreg with h1 | hfar
  · rw [h1, h_integral_inv_at_one, h_integral_inv_exact_at_one]
  · exact h_integral_inv_eq_exact_of_far q u x0 hq hfar hlo hhi

/-- Below `H(y)` the code's inverse stays below `y` (for every exponent). -/
theorem h_integral_inv_lt (q u y x0 : ℝ) (hq : 0 < q) (hy : 1 < y) (hlo : -1 ≤ u)
    (hhi : u ≤ h_integral_exact q x0) (hu : u < h_integral_exact q y) :
    h_integral_inv q u < y := by
  have h_integral_inv_mono (q u v : ℝ) (hu : -1 < u * (1 - q)) (hv : -1 < v * (1 - q))
      (huv : u ≤ v) : h_integral_inv q u ≤ h_integral_inv q v := by
    clear * - q u v hu hv huv
    rcases eq_or_lt_of_le huv with h | h
    · rw [h]
    · exact (h_integral_inv_strictMono q u v hu hv h).le
  -- The code's `h_integral_inv` never exceeds the documented inverse, on nonnegative
  -- arguments where the cap is not taken.
  have h_integral_inv_le_exact (q u : ℝ) (hu : 0 ≤ u) (hdom : -1 ≤ u * (1 - q)) :
      h_integral_inv q u ≤ h_integral_inv_exact q u := by
    clear * - q u hu hdom
    rw [h_integral_inv_eq q u hdom, h_integral_inv_exact]
    apply Real.exp_le_exp.mpr
    exact mul_le_mul_of_nonneg_right (helper1_le_log_ratio _) hu
  have h_integral_inv_zero (q : ℝ) : h_integral_inv q 0 = 1 := by
    clear * - q
    rw [h_integral_inv_eq q 0 (by norm_num)]
    simp
  have hdom := inv_domain q u x0 hq hlo hhi
  rcases le_or_lt u 0 with h0 | h0
  · have := h_integral_inv_mono q u 0 hdom (by norm_num) h0
    rw [h_integral_inv_zero] at this
    linarith
  · have h1 := h_integral_inv_le_exact q u h0.le hdom.le
    have h2 : ¬ y ≤ h_integral_inv_exact q u := by
      rw [le_exact_inv_iff q u y x0 hq hy.le hlo hhi]
      exact not_le.mpr hu
    linarith [not_le.mp h2]

/-! ### The draws accepted with a given value -/

/-- Every draw whose `u` is below `H(3/2)` is accepted with the value 1 (for every
exponent). -/
theorem first_bin_accepts (n : Int) (q r : ℝ) (hn : 1 ≤ n) (hq : 0 < q) (hr0 : 0 ≤ r)
    (hr1 : r ≤ 1) (z : ZipfDistribution)
    (hz : z = { num_elements_ := n
                exponent_ := q
                h_integral_x1_ := h_integral q 1.5 - 1
                h_integral_num_elements_ := h_integral q ((n : ℝ) + 0.5)
                s_ := 2 - h_integral_inv q (h_integral q 2.5 - h q 2) })
    (hu : z.u_of r < h_integral_exact q (3 / 2)) : z.iteration r = some 1 := by
  -- The limited candidate is `m` when `x` rounds to `m`, or to less than `m = 1`.
  have k_of_eq_of_bounds (z : ZipfDistribution) (r : ℝ) (m : Int) (hm1 : 1 ≤ m)
      (hmn : m ≤ z.num_elements_)
      (hlo : m = 1 ∨ (m : ℝ) - 1 / 2 ≤ h_integral_inv z.exponent_ (z.u_of r))
      (hhi : h_integral_inv z.exponent_ (z.u_of r) < (m : ℝ) + 1 / 2) : z.k_of r = m := by
    clear * - z r m hm1 hmn hlo hhi
    have round_to_int_lt (x : ℝ) (hx : 0 ≤ x) (k : Int) :
        round_to_int x < k ↔ x < (k : ℝ) - 1 / 2 := by
      clear * - x hx k
      have round_to_int_of_pos (x : ℝ) (hx : 0 ≤ x) : round_to_int x = ⌊x + 1 / 2⌋ := by
        clear * - x hx
        rw [round_to_int, if_pos hx]
      rw [round_to_int_of_pos x hx, Int.floor_lt]
      constructor <;> intro h <;> linarith
    have le_round_to_int (x : ℝ) (hx : 0 ≤ x) (k : Int) :
        k ≤ round_to_int x ↔ (k : ℝ) - 1 / 2 ≤ x := by
      clear * - x hx k
      have round_to_int_of_pos (x : ℝ) (hx : 0 ≤ x) : round_to_int x = ⌊x + 1 / 2⌋ := by
        clear * - x hx
        rw [round_to_int, if_pos hx]
      rw [round_to_int_of_pos x hx, Int.le_floor]
      constructor <;> intro h <;> linarith
    have h_integral_inv_pos (q u : ℝ) : 0 < h_integral_inv q u := by
      clear * - q u
      exact Real.exp_pos _
    have hx0 := (h_integral_inv_pos z.exponent_ (z.u_of r)).le
    have h1 : round_to_int (h_integral_inv z.exponent_ (z.u_of r)) < m + 1 := by
      rw [round_to_int_lt _ hx0]
      push_cast
      linarith
    unfold ZipfDistribution.k_of ZipfDistribution.limit
    rcases hlo with h | h
    · split_ifs <;> omega
    · have h2 := (le_round_to_int _ hx0 m).mpr h
      split_ifs <;> omega
  have h_one (q : ℝ) : h q 1 = 1 := by
    clear * - q
    simp [h]
  have iteration_eq_some_iff (z : ZipfDistribution) (r : ℝ) (m : Int) :
      z.iteration r = some m ↔
        z.k_of r = m ∧ z.accepts (z.u_of r) (h_integral_inv z.exponent_ (z.u_of r)) (z.k_of r) := by
    clear * - z r m
    unfold ZipfDistribution.iteration
    simp only [ZipfDistribution.k_of]
    split_ifs with hacc
    · simp [hacc]
    · simp [hacc]
  obtain ⟨hnum, hexp, _, _, _⟩ := new_fields n q z hz
  obtain ⟨hlo, hhi⟩ := u_of_bounds n q r hn hq hr0 hr1 z hz
  have hn' : (1:ℝ) ≤ (n : ℝ) := by exact_mod_cast hn
  have hhi' : z.u_of r ≤ h_integral_exact q ((n : ℝ) + 1 / 2) :=
    hhi.trans (h_integral_le_exact q _ (by linarith))
  have hx1 := h_integral_nonneg q (3 / 2) (by norm_num)
  have hx := h_integral_inv_lt q _ (3 / 2) _ hq (by norm_num) (by linarith) hhi' hu
  have hk : z.k_of r = 1 := by
    apply k_of_eq_of_bounds z r 1 (le_refl _) (by rw [hnum]; exact hn) (Or.inl rfl)
    rw [hexp]
    norm_num
    linarith
  rw [iteration_eq_some_iff]
  refine ⟨hk, Or.inr ?_⟩
  rw [hk, hexp]
  have e : (((1 : Int) : ℝ) + 0.5) = 3 / 2 := by norm_num
  rw [e, Int.cast_one, h_one]
  exact hlo

/-! ## Claims -/

/-- C1 (range invariant): for `num_elements ≥ 1`, `exponent > 0` and draws in `[0,1)`, the
constructor succeeds, and whenever `operator()` returns a value `k` (after any number of
iterations), `1 ≤ k ≤ num_elements`. -/
theorem C1_sample_range (num_elements : Int) (exponent : ℝ) (rng : ℕ → ℝ)
    (hn : 1 ≤ num_elements) (hq : 0 < exponent) (hr : ∀ i, 0 ≤ rng i ∧ rng i < 1) :
    ∃ z, ZipfDistribution.new num_elements exponent = .ok z ∧
      ∀ (fuel : ℕ) (k : Int) (i : ℕ), z.sample rng fuel = some (k, i) →
        1 ≤ k ∧ k ≤ num_elements := by
  have limit_range (z : ZipfDistribution) (hn : 1 ≤ z.num_elements_) (k : Int) :
      1 ≤ z.limit k ∧ z.limit k ≤ z.num_elements_ := by
    clear * - z hn k
    unfold ZipfDistribution.limit
    split_ifs with h1 h2
    · exact ⟨le_refl _, hn⟩
    · exact ⟨hn, le_refl _⟩
    · exact ⟨not_lt.mp h1, not_lt.mp h2⟩
  have sample_from_range (z : ZipfDistribution) (hn : 1 ≤ z.num_elements_) (rng : ℕ → ℝ)
      (fuel : ℕ) : ∀ (i : ℕ) (k : Int) (j : ℕ), z.sample_from rng fuel i = some (k, j) →
        1 ≤ k ∧ k ≤ z.num_elements_ := by
    clear * - z hn rng fuel limit_range
    have iteration_range (z : ZipfDistribution) (hn : 1 ≤ z.num_elements_) (r : ℝ) (k : Int)
        (hk : z.iteration r = some k) : 1 ≤ k ∧ k ≤ z.num_elements_ := by
      clear * - z hn r k hk limit_range
      unfold ZipfDistribution.iteration at hk
      simp only at hk
      split_ifs at hk
      cases hk
      exact limit_range z hn _
    induction fuel with
    | zero => intro i k j hs; simp [ZipfDistribution.sample_from] at hs
    | succ fuel ih =>
      intro i k j hs
      rw [ZipfDistribution.sample_from] at hs
      cases hit : z.iteration (rng i) with
      | none => rw [hit] at hs; exact ih _ _ _ hs
      | some k' =>
        rw [hit] at hs
        simp only [Option.some.injEq, Prod.mk.injEq] at hs
        rw [← hs.1]
        exact iteration_range z hn _ _ hit
  have _ := hr
  refine ⟨_, new_ok num_elements exponent (by omega) hq, ?_⟩
  intro fuel k i hs
  exact sample_from_range _ hn rng fuel 0 k i hs

/-- Witness of C1 at `num_elements = 1`, `exponent = 1`, all draws `0`: the sampler does
return a value there, and it is in range. -/
theorem C1_sample_range_witness :
    ∃ z, ZipfDistribution.new 1 1 = .ok z ∧
      z.sample (fun _ => 0) 1 = some (1, 1) ∧
      ∀ (fuel : ℕ) (k : Int) (i : ℕ), z.sample (fun _ => 0) fuel = some (k, i) →
        1 ≤ k ∧ k ≤ 1 := by
  -- With one element the right-hand test holds for every draw `r ≤ 1`.
  have iteration_single (q r : ℝ) (hr : r ≤ 1) (z : ZipfDistribution)
      (hz : z = { num_elements_ := 1
                  exponent_ := q
                  h_integral_x1_ := h_integral q 1.5 - 1
                  h_integral_num_elements_ := h_integral q (((1 : Int) : ℝ) + 0.5)
                  s_ := 2 - h_integral_inv q (h_integral q 2.5 - h q 2) }) :
      z.iteration r = some 1 := by
    clear * - q r hr z hz
    have h_one (q : ℝ) : h q 1 = 1 := by
      clear * - q
      simp [h]
    have limit_range (z : ZipfDistribution) (hn : 1 ≤ z.num_elements_) (k : Int) :
        1 ≤ z.limit k ∧ z.limit k ≤ z.num_elements_ := by
      clear * - z hn k
      unfold ZipfDistribution.limit
      split_ifs with h1 h2
      · exact ⟨le_refl _, hn⟩
      · exact ⟨hn, le_refl _⟩
      · exact ⟨not_lt.mp h1, not_lt.mp h2⟩
    have limit_one (z : ZipfDistribution) (hn : z.num_elements_ = 1) (k : Int) :
        z.limit k = 1 := by
      clear * - z hn k limit_range
      have h := limit_range z (le_of_eq hn.symm) k
      omega
    have hn : z.num_elements_ = 1 := by rw [hz]
    have hl := limit_one z hn (round_to_int (h_integral_inv z.exponent_ (z.u_of r)))
    have hacc : z.accepts (z.u_of r) (h_integral_inv z.exponent_ (z.u_of r)) 1 := by
      right
      have e1 : (((1 : Int) : ℝ) + 0.5) = 1.5 := by norm_num
      have hu : z.u_of r = h_integral q 1.5 - r := by
        rw [hz]
        simp only [ZipfDistribution.u_of, e1]
        ring
      have hq : z.exponent_ = q := by rw [hz]
      rw [hu, hq, e1]
      have : h q (((1 : Int) : ℝ)) = 1 := by
        rw [Int.cast_one]; exact h_one q
      rw [this]
      linarith
    unfold ZipfDistribution.iteration
    simp only
    rw [if_pos (by rw [hl]; exact hacc), hl]
  have sample_single (q : ℝ) (rng : ℕ → ℝ) (hr : ∀ i, rng i ≤ 1) (fuel : ℕ)
      (z : ZipfDistribution)
      (hz : z = { num_elements_ := 1
                  exponent_ := q
                  h_integral_x1_ := h_integral q 1.5 - 1
                  h_integral_num_elements_ := h_integral q (((1 : Int) : ℝ) + 0.5)
                  s_ := 2 - h_integral_inv q (h_integral q 2.5 - h q 2) }) :
      z.sample rng (fuel + 1) = some (1, 1) := by
    clear * - q rng hr fuel z hz iteration_single
    unfold ZipfDistribution.sample
    rw [ZipfDistribution.sample_from, iteration_single q (rng 0) (hr 0) z hz]
  obtain ⟨z, hz, hall⟩ := C1_sample_range 1 1 (fun _ => 0) (by norm_num) (by norm_num)
    (fun _ => ⟨le_refl _, by norm_num⟩)
  refine ⟨z, hz, ?_, hall⟩
  rw [new_ok 1 1 (by norm_num) (by norm_num)] at hz
  exact sample_single 1 (fun _ => 0) (fun _ => by norm_num) 0 z (Except.ok.inj hz).symm

/-- C2: construction fails exactly when `num_elements ≤ 0` or `exponent ≤ 0` (so
`exponent = 0` is rejected), and succeeds for `num_elements ≥ 1`, `exponent > 0`. -/
theorem C2_new_fails_iff (num_elements : Int) (exponent : ℝ) :
    ((∃ e, ZipfDistribution.new num_elements exponent = .error e) ↔
        (num_elements ≤ 0 ∨ exponent ≤ 0)) ∧
      ((∃ z, ZipfDistribution.new num_elements exponent = .ok z) ↔
        (1 ≤ num_elements ∧ 0 < exponent)) ∧
      (∃ e, ZipfDistribution.new 1 0 = .error e) := by
  have new_error_exponent (n : Int) (q : ℝ) (hn : 0 < n) (hq : q ≤ 0) :
      ZipfDistribution.new n q = .error (.exponent_not_positive q) := by
    clear * - n q hn hq
    have hq' : ¬ ((q : ℝ) > 0.0) := by norm_num; exact hq
    simp only [ZipfDistribution.new, gt_iff_lt, hn, if_true, hq', if_false]
    rfl
  have new_error_num_elements (n : Int) (q : ℝ) (hn : n ≤ 0) :
      ZipfDistribution.new n q = .error (.num_elements_not_positive n) := by
    clear * - n q hn
    have hn' : ¬ (n > 0) := not_lt.mpr hn
    simp only [ZipfDistribution.new, hn', if_false]
    rfl
  refine ⟨?_, ?_, ⟨_, new_error_exponent 1 0 (by norm_num) (le_refl _)⟩⟩
  · constructor
    · rintro ⟨e, he⟩
      by_contra hcon
      push_neg at hcon
      rw [new_ok num_elements exponent hcon.1 hcon.2] at he
      cases he
    · rintro (hn | hq)
      · exact ⟨_, new_error_num_elements num_elements exponent hn⟩
      · rcases le_or_lt num_elements 0 with hn | hn
        · exact ⟨_, new_error_num_elements num_elements exponent hn⟩
        · exact ⟨_, new_error_exponent num_elements exponent hn hq⟩
  · constructor
    · rintro ⟨z, hz⟩
      by_contra hcon
      rcases le_or_lt num_elements 0 with hn | hn
      · rw [new_error_num_elements num_elements exponent hn] at hz; cases hz
      · rcases le_or_lt exponent 0 with hq | hq
        · rw [new_error_exponent num_elements exponent hn hq] at hz; cases hz
        · exact hcon ⟨hn, hq⟩
    · rintro ⟨hn, hq⟩
      exact ⟨_, new_ok num_elements exponent (by omega) hq⟩

/-- C4: with `num_elements = 1` and `exponent > 0`, for every draw `r` in `[0,1)` the first
loop iteration accepts and returns `1`; hence `operator()` returns `1` for every uniform
source after consuming exactly one draw. -/
theorem C4_single_element (exponent : ℝ) (hq : 0 < exponent) :
    ∃ z, ZipfDistribution.new 1 exponent = .ok z ∧
      (∀ r : ℝ, 0 ≤ r → r < 1 →
        z.accepts (z.u_of r) (h_integral_inv z.exponent_ (z.u_of r)) (z.k_of r) ∧
        z.iteration r = some 1) ∧
      ∀ rng : ℕ → ℝ, (∀ i, 0 ≤ rng i ∧ rng i < 1) →
        ∀ fuel : ℕ, z.sample rng (fuel + 1) = some (1, 1) := by
  -- With one element the right-hand test holds for every draw `r ≤ 1`.
  have iteration_single (q r : ℝ) (hr : r ≤ 1) (z : ZipfDistribution)
      (hz : z = { num_elements_ := 1
                  exponent_ := q
                  h_integral_x1_ := h_integral q 1.5 - 1
                  h_integral_num_elements_ := h_integral q (((1 : Int) : ℝ) + 0.5)
                  s_ := 2 - h_integral_inv q (h_integral q 2.5 - h q 2) }) :
      z.iteration r = some 1 := by
    clear * - q r hr z hz
    have h_one (q : ℝ) : h q 1 = 1 := by
      clear * - q
      simp [h]
    have limit_range (z : ZipfDistribution) (hn : 1 ≤ z.num_elements_) (k : Int) :
        1 ≤ z.limit k ∧ z.limit k ≤ z.num_elements_ := by
      clear * - z hn k
      unfold ZipfDistribution.limit
      split_ifs with h1 h2
      · exact ⟨le_refl _, hn⟩
      · exact ⟨hn, le_refl _⟩
      · exact ⟨not_lt.mp h1, not_lt.mp h2⟩
    have limit_one (z : ZipfDistribution) (hn : z.num_elements_ = 1) (k : Int) :
        z.limit k = 1 := by
      clear * - z hn k limit_range
      have h := limit_range z (le_of_eq hn.symm) k
      omega
    have hn : z.num_elements_ = 1 := by rw [hz]
    have hl := limit_one z hn (round_to_int (h_integral_inv z.exponent_ (z.u_of r)))
    have hacc : z.accepts (z.u_of r) (h_integral_inv z.exponent_ (z.u_of r)) 1 := by
      right
      have e1 : (((1 : Int) : ℝ) + 0.5) = 1.5 := by norm_num
      have hu : z.u_of r = h_integral q 1.5 - r := by
        rw [hz]
        simp only [ZipfDistribution.u_of, e1]
        ring
      have hq : z.exponent_ = q := by rw [hz]
      rw [hu, hq, e1]
      have : h q (((1 : Int) : ℝ)) = 1 := by
        rw [Int.cast_one]; exact h_one q
      rw [this]
      linarith
    unfold ZipfDistribution.iteration
    simp only
    rw [if_pos (by rw [hl]; exact hacc), hl]
  have sample_single (q : ℝ) (rng : ℕ → ℝ) (hr : ∀ i, rng i ≤ 1) (fuel : ℕ)
      (z : ZipfDistribution)
      (hz : z = { num_elements_ := 1
                  exponent_ := q
                  h_integral_x1_ := h_integral q 1.5 - 1
                  h_integral_num_elements_ := h_integral q (((1 : Int) : ℝ) + 0.5)
                  s_ := 2 - h_integral_inv q (h_integral q 2.5 - h q 2) }) :
      z.sample rng (fuel + 1) = some (1, 1) := by
    clear * - q rng hr fuel z hz iteration_single
    unfold ZipfDistribution.sample
    rw [ZipfDistribution.sample_from, iteration_single q (rng 0) (hr 0) z hz]
  refine ⟨_, new_ok 1 exponent (by norm_num) hq, ?_, ?_⟩
  · intro r _ hr1
    have hit := iteration_single exponent r hr1.le _ rfl
    refine ⟨?_, hit⟩
    by_contra hna
    unfold ZipfDistribution.iteration at hit
    simp only [ZipfDistribution.k_of] at hna
    simp only [if_neg hna] at hit
    cases hit
  · intro rng hr fuel
    exact sample_single exponent rng (fun i => (hr i).2.le) fuel _ rfl

/-- Witness of C4 at `exponent = 2`. -/
theorem C4_single_element_witness :
    ∃ z, ZipfDistribution.new 1 2 = .ok z ∧
      (∀ r : ℝ, 0 ≤ r → r < 1 →
        z.accepts (z.u_of r) (h_integral_inv z.exponent_ (z.u_of r)) (z.k_of r) ∧
        z.iteration r = some 1) ∧
      ∀ rng : ℕ → ℝ, (∀ i, 0 ≤ rng i ∧ rng i < 1) →
        ∀ fuel : ℕ, z.sample rng (fuel + 1) = some (1, 1) :=
  C4_single_element 2 (by norm_num)

/-- C6: at `x = 0` both helpers take the series branch (the test `|x| > 1e-8` is false, so
nothing is divided by `x`) and evaluate to exactly `1`. -/
theorem C6_helpers_at_zero :
    ¬ (|(0 : ℝ)| > 1e-8) ∧ helper1 0 = 1 ∧ helper2 0 = 1 ∧
      helper1 0 = 1.0 - 0 * (0.5 - 0 * (1.0 / 3.0 - 0.25 * 0)) ∧
      helper2 0 = 1.0 + 0 * 0.5 * (1.0 + 0 / 3.0 * (1.0 + 0.25 * 0)) := by
  have helper1_zero : helper1 0 = 1 := by
    clear * -
    norm_num [helper1]
  have helper2_zero : helper2 0 = 1 := by
    clear * -
    norm_num [helper2]
  refine ⟨by norm_num, helper1_zero, helper2_zero, ?_, ?_⟩
  · rw [helper1_zero]; norm_num
  · rw [helper2_zero]; norm_num

/-- C7: for `0 < |x| ≤ 1e-8` (where both helpers return their series value), `helper1 x`
differs from `log(1 + x) / x` by at most `1e-10 * |log(1 + x) / x|`, and `helper2 x` differs
from `(exp x - 1) / x` by at most `1e-10 * |(exp x - 1) / x|`. -/
theorem C7_series_relative_error (x : ℝ) (hx0 : 0 < |x|) (hx : |x| ≤ 1e-8) :
    |helper1 x - Real.log (1 + x) / x| ≤ 1e-10 * |Real.log (1 + x) / x| ∧
      |helper2 x - (Real.exp x - 1) / x| ≤ 1e-10 * |(Real.exp x - 1) / x| := by
  have helper1_series (x : ℝ) (hx : |x| ≤ 1e-8) :
      helper1 x = 1 - x / 2 + x ^ 2 / 3 - x ^ 3 / 4 := by
    clear * - x hx
    have hx' : ¬ (|x| > 1e-8) := not_lt.mpr hx
    rw [helper1, if_neg hx']
    norm_num
    ring
  -- From an absolute bound on `f - x * S` to a relative bound on `S - f / x`.
  have series_relative_error (f S x : ℝ) (hx0 : 0 < |x|) (hx : |x| ≤ 1e-8) (hS : 1 / 2 ≤ S)
      (hb : |f - x * S| ≤ |x| ^ 5 * 2) : |S - f / x| ≤ 1e-10 * |f / x| := by
    clear * - f S x hx0 hx hS hb
    have hx8 : |x| ≤ 1 / 100000000 := by norm_num at hx; exact hx
    have hxne : x ≠ 0 := abs_pos.mp hx0
    have hd : S - f / x = -((f - x * S) / x) := by
      field_simp
      ring
    have h4 : |x| ^ 4 ≤ (1 / 100000000) ^ 4 := pow_le_pow_left₀ (abs_nonneg x) hx8 4
    have hdiff : |S - f / x| ≤ |x| ^ 4 * 2 := by
      rw [hd, abs_neg, abs_div, div_le_iff₀ hx0]
      calc |f - x * S| ≤ |x| ^ 5 * 2 := hb
        _ = |x| ^ 4 * 2 * |x| := by ring
    have hlow : S - |x| ^ 4 * 2 ≤ |f / x| := by
      have h1 := (abs_le.mp hdiff).2
      have h2 := le_abs_self (f / x)
      linarith
    have e10 : (1e-10 : ℝ) = 1 / 10000000000 := by norm_num
    rw [e10]
    norm_num at h4
    linarith
  -- Distance between `exp x - 1` and `x` times the cubic series, for small `x`.
  have exp_series_bound (x : ℝ) (hx : |x| ≤ 1e-8) :
      |Real.exp x - 1 - x * (1 + x / 2 + x ^ 2 / 6 + x ^ 3 / 24)| ≤ |x| ^ 5 := by
    clear * - x hx
    have hx8 : |x| ≤ 1 / 100000000 := by norm_num at hx; exact hx
    have h1 : |x| ≤ 1 := by linarith
    have hb := Real.exp_bound h1 (show 0 < 5 by norm_num)
    simp only [Finset.sum_range_succ, Finset.sum_range_zero, Nat.factorial] at hb
    have he : Real.exp x - 1 - x * (1 + x / 2 + x ^ 2 / 6 + x ^ 3 / 24) =
        Real.exp x - (0 + x ^ 0 / ((1 : ℕ) : ℝ) + x ^ 1 / ((Nat.succ 0 * 1 : ℕ) : ℝ) +
          x ^ 2 / ((Nat.succ 1 * (Nat.succ 0 * 1) : ℕ) : ℝ) +
          x ^ 3 / ((Nat.succ 2 * (Nat.succ 1 * (Nat.succ 0 * 1)) : ℕ) : ℝ) +
          x ^ 4 / ((Nat.succ 3 * (Nat.succ 2 * (Nat.succ 1 * (Nat.succ 0 * 1))) : ℕ) : ℝ)) := by
      push_cast
      ring
    rw [he]
    refine hb.trans ?_
    have h5 : 0 ≤ |x| ^ 5 := by positivity
    have : ((Nat.succ 5 : ℕ) : ℝ) / (((Nat.succ 4 * (Nat.succ 3 * (Nat.succ 2 *
        (Nat.succ 1 * (Nat.succ 0 * 1)))) : ℕ) : ℝ) * 5) ≤ 1 := by
      norm_num
    calc _ ≤ |x| ^ 5 * 1 := by
          apply mul_le_mul_of_nonneg_left _ h5
          simpa using this
      _ = |x| ^ 5 := mul_one _
  -- Distance between `log(1 + x)` and `x` times the cubic series, for small `x`.
  have log_series_bound (x : ℝ) (hx : |x| ≤ 1e-8) :
      |Real.log (1 + x) - x * (1 - x / 2 + x ^ 2 / 3 - x ^ 3 / 4)| ≤ |x| ^ 5 * 2 := by
    clear * - x hx
    have hx8 : |x| ≤ 1 / 100000000 := by norm_num at hx; exact hx
    have h1 : |-x| < 1 := by rw [abs_neg]; linarith
    have hb := Real.abs_log_sub_add_sum_range_le h1 4
    simp only [Finset.sum_range_succ, Finset.sum_range_zero, abs_neg, sub_neg_eq_add] at hb
    have he : Real.log (1 + x) - x * (1 - x / 2 + x ^ 2 / 3 - x ^ 3 / 4) =
        (0 + (-x) ^ (0 + 1) / ((0 : ℕ) + 1 : ℝ) + (-x) ^ (1 + 1) / ((1 : ℕ) + 1 : ℝ) +
          (-x) ^ (2 + 1) / ((2 : ℕ) + 1 : ℝ) + (-x) ^ (3 + 1) / ((3 : ℕ) + 1 : ℝ)) +
          Real.log (1 + x) := by
      push_cast
      ring
    rw [he]
    refine hb.trans ?_
    have hpos : (0 : ℝ) < 1 - |x| := by linarith
    rw [div_le_iff₀ hpos]
    have h5 : 0 ≤ |x| ^ 5 := by positivity
    have e5 : |x| ^ (4 + 1) = |x| ^ 5 := by norm_num
    rw [e5]
    nlinarith [mul_le_mul_of_nonneg_left hx8 h5]
  have hx8 : |x| ≤ 1 / 100000000 := by norm_num at hx; exact hx
  obtain ⟨hlo, hhi⟩ := abs_le.mp hx8
  have h3 : |x ^ 3| ≤ (1 / 100000000) ^ 3 := by
    rw [abs_pow]; exact pow_le_pow_left₀ (abs_nonneg x) hx8 3
  obtain ⟨h3lo, h3hi⟩ := abs_le.mp h3
  have h2 : 0 ≤ x ^ 2 := sq_nonneg x
  norm_num at h3lo h3hi
  constructor
  · rw [helper1_series x hx]
    apply series_relative_error _ _ x hx0 hx _ (log_series_bound x hx)
    linarith
  · rw [helper2_series x hx]
    apply series_relative_error _ _ x hx0 hx _ ((exp_series_bound x hx).trans _)
    · linarith
    · have : 0 ≤ |x| ^ 5 := by positivity
      linarith

/-- Witness of C7 at `x = 1e-9`. -/
theorem C7_series_relative_error_witness :
    |helper1 1e-9 - Real.log (1 + 1e-9) / 1e-9| ≤ 1e-10 * |Real.log (1 + 1e-9) / 1e-9| ∧
      |helper2 1e-9 - (Real.exp 1e-9 - 1) / 1e-9| ≤ 1e-10 * |(Real.exp 1e-9 - 1) / 1e-9| :=
  C7_series_relative_error 1e-9 (by norm_num) (by norm_num [abs_of_pos])

/-- C8: at `exponent = 1` the transforms have no singularity: `h_integral x = ln x` and
`h x = 1 / x` for `x > 0`, `h_integral_inv u = exp u` for every `u`, and the construction
with `num_elements = 1000000`, `exponent = 1.0` succeeds with
`h_integral_num_elements_ = ln 1000000.5` and `h_integral_x1_ = ln 1.5 - 1`. -/
theorem C8_exponent_one (x u : ℝ) (hx : 0 < x) :
    h_integral 1 x = Real.log x ∧ h 1 x = 1 / x ∧ h_integral_inv 1 u = Real.exp u ∧
      ∃ z, ZipfDistribution.new 1000000 1.0 = .ok z ∧
        z.h_integral_num_elements_ = Real.log 1000000.5 ∧
        z.h_integral_x1_ = Real.log 1.5 - 1 := by
  have helper1_zero : helper1 0 = 1 := by
    clear * -
    norm_num [helper1]
  have helper2_zero : helper2 0 = 1 := by
    clear * -
    norm_num [helper2]
  have hH : ∀ y : ℝ, h_integral 1 y = Real.log y := by
    intro y
    simp only [h_integral]
    norm_num [helper2_zero]
  refine ⟨hH x, ?_, ?_, ?_⟩
  · simp only [h]
    rw [neg_one_mul, Real.exp_neg, Real.exp_log hx, one_div]
  · simp only [h_integral_inv]
    norm_num [helper1_zero]
  · have e1 : (1.0 : ℝ) = 1 := by norm_num
    refine ⟨_, new_ok 1000000 1.0 (by norm_num) (by norm_num), ?_, ?_⟩
    · simp only [e1, hH]
      norm_num
    · simp only [e1, hH]

/-- Witness of C8 at `x = 2`, `u = 0`. -/
theorem C8_exponent_one_witness :
    h_integral 1 2 = Real.log 2 ∧ h 1 2 = 1 / 2 ∧ h_integral_inv 1 0 = Real.exp 0 ∧
      ∃ z, ZipfDistribution.new 1000000 1.0 = .ok z ∧
        z.h_integral_num_elements_ = Real.log 1000000.5 ∧
        z.h_integral_x1_ = Real.log 1.5 - 1 :=
  C8_exponent_one 2 0 (by norm_num)

/-- C9: `num_elements` is validated first.  When `num_elements ≤ 0` the constructor throws the
"number of elements is not strictly positive" error carrying `num_elements` (its message ends
with the decimal value), whatever the exponent; when `num_elements > 0` and `exponent ≤ 0` it
throws the "exponent is not strictly positive" error; in both cases no object with derived
constants results. -/
theorem C9_error_order (num_elements : Int) (exponent : ℝ) :
    (num_elements ≤ 0 →
      ZipfDistribution.new num_elements exponent =
          .error (.num_elements_not_positive num_elements) ∧
        (logic_error.num_elements_not_positive num_elements).what_head =
          "number of elements is not strictly positive: " ∧
        what_num_elements num_elements =
          (logic_error.num_elements_not_positive num_elements).what_head ++
            toString num_elements ∧
        ¬ ∃ z, ZipfDistribution.new num_elements exponent = .ok z) ∧
    (0 < num_elements → exponent ≤ 0 →
      ZipfDistribution.new num_elements exponent = .error (.exponent_not_positive exponent) ∧
        (logic_error.exponent_not_positive exponent).what_head =
          "exponent is not strictly positive: " ∧
        ¬ ∃ z, ZipfDistribution.new num_elements exponent = .ok z) := by
  have new_error_exponent (n : Int) (q : ℝ) (hn : 0 < n) (hq : q ≤ 0) :
      ZipfDistribution.new n q = .error (.exponent_not_positive q) := by
    clear * - n q hn hq
    have hq' : ¬ ((q : ℝ) > 0.0) := by norm_num; exact hq
    simp only [ZipfDistribution.new, gt_iff_lt, hn, if_true, hq', if_false]
    rfl
  have new_error_num_elements (n : Int) (q : ℝ) (hn : n ≤ 0) :
      ZipfDistribution.new n q = .error (.num_elements_not_positive n) := by
    clear * - n q hn
    have hn' : ¬ (n > 0) := not_lt.mpr hn
    simp only [ZipfDistribution.new, hn', if_false]
    rfl
  constructor
  · intro hn
    have he := new_error_num_elements num_elements exponent hn
    refine ⟨he, rfl, rfl, ?_⟩
    rintro ⟨z, hz⟩
    rw [he] at hz
    cases hz
  · intro hn hq
    have he := new_error_exponent num_elements exponent hn hq
    refine ⟨he, rfl, ?_⟩
    rintro ⟨z, hz⟩
    rw [he] at hz
    cases hz

/-- Witness of C9: `num_elements = -5` with the invalid exponent `-1` reports the number of
elements, with the message ending in `-5`; `num_elements = 3` with exponent `0` reports the
exponent. -/
theorem C9_error_order_witness :
    (ZipfDistribution.new (-5) (-1) = .error (.num_elements_not_positive (-5)) ∧
      what_num_elements (-5) = "number of elements is not strictly positive: -5") ∧
    ZipfDistribution.new 3 0 = .error (.exponent_not_positive 0) :=
  ⟨⟨((C9_error_order (-5) (-1)).1 (by decide)).1, by decide⟩,
    ((C9_error_order 3 0).2 (by decide) (le_refl _)).1⟩

/-- C10: the short-circuit is sound.  For `num_elements ≥ 1`, `exponent > 0` and a draw
`r` in `[0, 1)`, with `u`, `x = h_integral_inv(u)` and the clamped `k` of that iteration,
`k - x ≤ s_` implies `u ≥ h_integral(k + 0.5) - h(k)`; hence the acceptance test is
equivalent to the exact test alone. -/
theorem C10_short_circuit_sound (num_elements : Int) (exponent r : ℝ) (hn : 1 ≤ num_elements)
    (hq : 0 < exponent) (hr0 : 0 ≤ r) (hr1 : r < 1) :
    ∃ z, ZipfDistribution.new num_elements exponent = .ok z ∧
      (((z.k_of r : ℝ) - h_integral_inv z.exponent_ (z.u_of r) ≤ z.s_ →
          z.u_of r ≥
            h_integral z.exponent_ ((z.k_of r : ℝ) + 0.5) - h z.exponent_ (z.k_of r)) ∧
        (z.accepts (z.u_of r) (h_integral_inv z.exponent_ (z.u_of r)) (z.k_of r) ↔
          z.u_of r ≥
            h_integral z.exponent_ ((z.k_of r : ℝ) + 0.5) - h z.exponent_ (z.k_of r))) := by
  refine ⟨_, new_ok num_elements exponent (by omega) hq, ?_⟩
  have key := short_circuit_sound num_elements exponent r hn hq hr0 hr1.le _ rfl
  refine ⟨key, ?_⟩
  constructor
  · rintro (hl | hr)
    · exact key hl
    · exact hr
  · exact fun hr => Or.inr hr

/-- Witness of C10 at `num_elements = 10`, `exponent = 3/2`, `r = 1/2`. -/
theorem C10_short_circuit_sound_witness :
    ∃ z, ZipfDistribution.new 10 (3 / 2) = .ok z ∧
      (((z.k_of (1 / 2) : ℝ) - h_integral_inv z.exponent_ (z.u_of (1 / 2)) ≤ z.s_ →
          z.u_of (1 / 2) ≥ h_integral z.exponent_ ((z.k_of (1 / 2) : ℝ) + 0.5) -
            h z.exponent_ (z.k_of (1 / 2))) ∧
        (z.accepts (z.u_of (1 / 2)) (h_integral_inv z.exponent_ (z.u_of (1 / 2)))
            (z.k_of (1 / 2)) ↔
          z.u_of (1 / 2) ≥ h_integral z.exponent_ ((z.k_of (1 / 2) : ℝ) + 0.5) -
            h z.exponent_ (z.k_of (1 / 2)))) :=
  C10_short_circuit_sound 10 (3 / 2) (1 / 2) (by norm_num) (by norm_num) (by norm_num)
    (by norm_num)

/-- C5: one loop iteration accepts a set of draws of measure at least `1/2`, whatever
`num_elements ≥ 1` and `exponent > 0` are; so the expected number of iterations is at
most 2, independently of `num_elements`. -/
theorem C5_acceptance_bound :
    ∃ c : ℝ, 0 < c ∧ ∀ (num_elements : Int) (exponent : ℝ), 1 ≤ num_elements → 0 < exponent →
      ∃ z, ZipfDistribution.new num_elements exponent = .ok z ∧
        ENNReal.ofReal c ≤ volume {r : ℝ | 0 ≤ r ∧ r < 1 ∧ (z.iteration r).isSome} := by
  have h_one (q : ℝ) : h q 1 = 1 := by
    clear * - q
    simp [h]
  -- The integral function at `1.5` is at most `1/2`.
  have h_integral_exact_le_half (q : ℝ) (hq : 0 ≤ q) : h_integral_exact q (3 / 2) ≤ 1 / 2 := by
    clear * - q hq h_one
    have h_integral_exact_one (q : ℝ) : h_integral_exact q 1 = 0 := by
      clear * - q
      simp [h_integral_exact]
    have := (h_integral_exact_sub_bounds q 1 (3 / 2) hq one_pos (by norm_num)).2
    rw [h_integral_exact_one, h_one] at this
    linarith
  have limit_range (z : ZipfDistribution) (hn : 1 ≤ z.num_elements_) (k : Int) :
      1 ≤ z.limit k ∧ z.limit k ≤ z.num_elements_ := by
    clear * - z hn k
    unfold ZipfDistribution.limit
    split_ifs with h1 h2
    · exact ⟨le_refl _, hn⟩
    · exact ⟨hn, le_refl _⟩
    · exact ⟨not_lt.mp h1, not_lt.mp h2⟩
  have h_integral_inv_mono (q u v : ℝ) (hu : -1 < u * (1 - q)) (hv : -1 < v * (1 - q))
      (huv : u ≤ v) : h_integral_inv q u ≤ h_integral_inv q v := by
    clear * - q u v hu hv huv
    rcases eq_or_lt_of_le huv with h | h
    · rw [h]
    · exact (h_integral_inv_strictMono q u v hu hv h).le
  -- The code's `h_integral_inv` never exceeds the documented inverse, on nonnegative
  -- arguments where the cap is not taken.
  have h_integral_inv_le_exact (q u : ℝ) (hu : 0 ≤ u) (hdom : -1 ≤ u * (1 - q)) :
      h_integral_inv q u ≤ h_integral_inv_exact q u := by
    clear * - q u hu hdom
    rw [h_integral_inv_eq q u hdom, h_integral_inv_exact]
    apply Real.exp_le_exp.mpr
    exact mul_le_mul_of_nonneg_right (helper1_le_log_ratio _) hu
  have h_pos (q x : ℝ) : 0 < h q x := by
    clear * - q x
    exact Real.exp_pos _
  have h_integral_inv_zero (q : ℝ) : h_integral_inv q 0 = 1 := by
    clear * - q
    rw [h_integral_inv_eq q 0 (by norm_num)]
    simp
  have le_round_to_int (x : ℝ) (hx : 0 ≤ x) (k : Int) :
      k ≤ round_to_int x ↔ (k : ℝ) - 1 / 2 ≤ x := by
    clear * - x hx k
    have round_to_int_of_pos (x : ℝ) (hx : 0 ≤ x) : round_to_int x = ⌊x + 1 / 2⌋ := by
      clear * - x hx
      rw [round_to_int, if_pos hx]
    rw [round_to_int_of_pos x hx, Int.le_floor]
    constructor <;> intro h <;> linarith
  have h_integral_inv_pos (q u : ℝ) : 0 < h_integral_inv q u := by
    clear * - q u
    exact Real.exp_pos _
  have h_integral_exact_one (q : ℝ) : h_integral_exact q 1 = 0 := by
    clear * - q
    simp [h_integral_exact]
  -- The draws of `[0, 1)` that one iteration rejects have measure at most `1/2`.
  have reject_volume_le (n : Int) (q : ℝ) (hn : 1 ≤ n) (hq : 0 < q) (z : ZipfDistribution)
      (hz : z = { num_elements_ := n
                  exponent_ := q
                  h_integral_x1_ := h_integral q 1.5 - 1
                  h_integral_num_elements_ := h_integral q ((n : ℝ) + 0.5)
                  s_ := 2 - h_integral_inv q (h_integral q 2.5 - h q 2) }) :
      volume {r : ℝ | 0 ≤ r ∧ r < 1 ∧ z.iteration r = none} ≤ ENNReal.ofReal (1 / 2) := by
    clear * - n q hn hq z hz h_integral_exact_one h_integral_inv_pos le_round_to_int h_integral_inv_zero h_pos h_integral_inv_le_exact h_integral_inv_mono limit_range h_integral_exact_le_half h_one
    -- The second halves of the bins 2, …, N + 1, cut at a level `H ≥ 0`, have total length at
    -- most half of what lies below.
    have reject_sum_le (q H : ℝ) (hq : 0 ≤ q) (hH : 0 ≤ H) (N : ℕ) :
        (∑ j in Finset.range N,
          max 0 (min (h_integral_exact q ((j : ℝ) + 2)) H -
            h_integral_exact q ((j : ℝ) + 2 - 1 / 2))) ≤
          min (h_integral_exact q ((N : ℝ) + 1)) H / 2 := by
      clear * - q H hq hH N h_integral_exact_one
      -- Concavity of the documented integral function over two consecutive half steps.
      have half_step_concave (q m : ℝ) (hq : 0 ≤ q) (hm : 0 < m) :
          h_integral_exact q (m + 1) - h_integral_exact q (m + 1 / 2) ≤
            h_integral_exact q (m + 1 / 2) - h_integral_exact q m := by
        clear * - q m hq hm
        have h1 := (h_integral_exact_sub_bounds q (m + 1 / 2) (m + 1) hq (by linarith) (by linarith)).2
        have h2 := (h_integral_exact_sub_bounds q m (m + 1 / 2) hq hm (by linarith)).1
        have e1 : m + 1 - (m + 1 / 2) = 1 / 2 := by ring
        have e2 : m + 1 / 2 - m = 1 / 2 := by ring
        rw [e1] at h1
        rw [e2] at h2
        linarith
      induction N with
      | zero =>
        simp only [Finset.range_zero, Finset.sum_empty, Nat.cast_zero, zero_add]
        rw [h_integral_exact_one, min_eq_left hH]
        norm_num
      | succ N ih =>
        rw [Finset.sum_range_succ]
        have hm : (0:ℝ) < (N : ℝ) + 1 := by positivity
        have hc := half_step_concave q ((N : ℝ) + 1) hq hm
        have hmono1 := (h_integral_exact_strictMono q ((N : ℝ) + 1) ((N : ℝ) + 1 + 1 / 2) hq hm
          (by linarith)).le
        have hmono2 := (h_integral_exact_strictMono q ((N : ℝ) + 1 + 1 / 2) ((N : ℝ) + 1 + 1) hq
          (by linarith) (by linarith)).le
        have e1 : ((N : ℝ) + 2 - 1 / 2) = (N : ℝ) + 1 + 1 / 2 := by ring
        have e2 : ((N : ℝ) + 2) = (N : ℝ) + 1 + 1 := by ring
        have e3 : (((N + 1 : ℕ) : ℝ) + 1) = (N : ℝ) + 1 + 1 := by push_cast; ring
        rw [e1, e2, e3]
        generalize h_integral_exact q ((N : ℝ) + 1) = A at ih hc hmono1 ⊢
        generalize h_integral_exact q ((N : ℝ) + 1 + 1 / 2) = M at hc hmono1 hmono2 ⊢
        generalize h_integral_exact q ((N : ℝ) + 1 + 1) = B at hc hmono2 ⊢
        have key : min A H / 2 + max 0 (min B H - M) ≤ min B H / 2 := by
          rcases le_total B H with hBH | hBH
          · rw [min_eq_left hBH, min_eq_left (by linarith : A ≤ H)]
            rcases le_total 0 (B - M) with h0 | h0
            · rw [max_eq_right h0]; linarith
            · rw [max_eq_left h0]; linarith
          · rw [min_eq_right hBH]
            rcases le_total A H with hAH | hAH
            · rw [min_eq_left hAH]
              rcases le_total 0 (H - M) with h0 | h0
              · rw [max_eq_right h0]; linarith
              · rw [max_eq_left h0]; linarith
            · rw [min_eq_right hAH, max_eq_left (by linarith)]
              linarith
        linarith
    -- A rejected draw has its `u` in the second half of a bin of the documented transform:
    -- `H(k - 1/2) ≤ u < H(k)` for its candidate `k`, which is at least 2.
    have reject_region (n : Int) (q r : ℝ) (hn : 1 ≤ n) (hq : 0 < q) (hr0 : 0 ≤ r) (hr1 : r ≤ 1)
        (z : ZipfDistribution)
        (hz : z = { num_elements_ := n
                    exponent_ := q
                    h_integral_x1_ := h_integral q 1.5 - 1
                    h_integral_num_elements_ := h_integral q ((n : ℝ) + 0.5)
                    s_ := 2 - h_integral_inv q (h_integral q 2.5 - h q 2) })
        (hrej : z.iteration r = none) :
        2 ≤ z.k_of r ∧ z.k_of r ≤ n ∧ h_integral_exact q ((z.k_of r : ℝ) - 1 / 2) ≤ z.u_of r ∧
          z.u_of r < h_integral_exact q (z.k_of r : ℝ) := by
      clear * - n q r hn hq hr0 hr1 z hz hrej h_integral_inv_pos le_round_to_int h_integral_inv_zero h_pos h_integral_inv_le_exact h_integral_inv_mono limit_range h_one
      -- The documented integral function grows by at most `h x / 2` over the half step after `x`.
      have exact_threshold_le (q x : ℝ) (hq : 0 ≤ q) (hx : 0 < x) :
          h_integral_exact q (x + 1 / 2) - h q x ≤ h_integral_exact q x := by
        clear * - q x hq hx h_pos
        have h1 := (h_integral_exact_sub_bounds q x (x + 1 / 2) hq hx (by linarith)).2
        have h2 := h_pos q x
        nlinarith
      -- The candidate before the limit is at least the limited candidate, unless that is 1.
      have limit_le_of_two_le (z : ZipfDistribution) (k : Int) (h2 : 2 ≤ z.limit k) :
          z.limit k ≤ k := by
        clear * - z k h2
        unfold ZipfDistribution.limit at h2 ⊢
        split_ifs at h2 ⊢ with h1 hn
        · omega
        · omega
        · exact le_refl _
      obtain ⟨hnum, hexp, _, _, _⟩ := new_fields n q z hz
      obtain ⟨hlo, hhi⟩ := u_of_bounds n q r hn hq hr0 hr1 z hz
      have hn' : (1:ℝ) ≤ (n : ℝ) := by exact_mod_cast hn
      have hhi' : z.u_of r ≤ h_integral_exact q ((n : ℝ) + 1 / 2) :=
        hhi.trans (h_integral_le_exact q _ (by linarith))
      have hx1 := h_integral_nonneg q (3 / 2) (by norm_num)
      have hdomu : -1 < z.u_of r * (1 - q) := inv_domain q _ _ hq (by linarith) hhi'
      -- the exact test fails
      have hnacc : ¬ z.accepts (z.u_of r) (h_integral_inv z.exponent_ (z.u_of r)) (z.k_of r) := by
        intro hacc
        unfold ZipfDistribution.iteration at hrej
        simp only [ZipfDistribution.k_of] at hacc
        simp only [if_pos hacc] at hrej
        cases hrej
      have hb : z.u_of r < h_integral q ((z.k_of r : ℝ) + 1 / 2) - h q (z.k_of r : ℝ) := by
        by_contra hcon
        apply hnacc
        right
        rw [hexp]
        have e : ((z.k_of r : ℝ) + 0.5) = (z.k_of r : ℝ) + 1 / 2 := by norm_num
        rw [e]
        exact not_lt.mp hcon
      have hrange := limit_range z (by rw [hnum]; exact hn)
        (round_to_int (h_integral_inv z.exponent_ (z.u_of r)))
      rw [hnum] at hrange
      have hk1 : 1 ≤ z.k_of r := hrange.1
      have hk2 : 2 ≤ z.k_of r := by
        by_contra hcon
        have h1 : z.k_of r = 1 := by omega
        rw [h1] at hb
        have e : ((1 : Int) : ℝ) + 1 / 2 = 3 / 2 := by norm_num
        rw [e, Int.cast_one, h_one] at hb
        linarith
      have hk2' : (2:ℝ) ≤ (z.k_of r : ℝ) := by exact_mod_cast hk2
      refine ⟨hk2, hrange.2, ?_, ?_⟩
      · -- the candidate before the limit is at least `k`, so `x ≥ k - 1/2`
        have hle := limit_le_of_two_le z _ hk2
        have hx0 := (h_integral_inv_pos z.exponent_ (z.u_of r)).le
        have hx : (z.k_of r : ℝ) - 1 / 2 ≤ h_integral_inv z.exponent_ (z.u_of r) :=
          (le_round_to_int _ hx0 _).mp hle
        rw [hexp] at hx
        have hu0 : 0 ≤ z.u_of r := by
          by_contra hcon
          have := h_integral_inv_mono q _ 0 hdomu (by norm_num) (not_le.mp hcon).le
          rw [h_integral_inv_zero] at this
          linarith
        have hxx := h_integral_inv_le_exact q _ hu0 hdomu.le
        exact (le_exact_inv_iff q _ _ _ hq (by linarith) (by linarith) hhi').mp (hx.trans hxx)
      · have h1 := h_integral_le_exact q ((z.k_of r : ℝ) + 1 / 2) (by linarith)
        have h2 := exact_threshold_le q (z.k_of r : ℝ) hq.le (by linarith)
        linarith
    obtain ⟨_, _, hx1, hnum, _⟩ := new_fields n q z hz
    have hn' : (1:ℝ) ≤ (n : ℝ) := by exact_mod_cast hn
    have hH0 : 0 ≤ h_integral q ((n : ℝ) + 1 / 2) := h_integral_nonneg q _ (by linarith)
    have hgap := x1_lt_num_elements q ((n : ℝ) + 1 / 2) hq.le (by linarith)
    have hx1le : h_integral q (3 / 2) - 1 ≤ -(1 / 2) := by
      have h1 := h_integral_le_exact q (3 / 2) (by norm_num)
      have h2 := h_integral_exact_le_half q hq.le
      linarith
    have hu : ∀ r : ℝ, z.u_of r = h_integral q ((n : ℝ) + 1 / 2) -
        r * (h_integral q ((n : ℝ) + 1 / 2) - (h_integral q (3 / 2) - 1)) := by
      intro r
      rw [ZipfDistribution.u_of, hx1, hnum]
      ring
    generalize hHdef : h_integral q ((n : ℝ) + 1 / 2) = H at hH0 hgap hu
    generalize hTdef : H - (h_integral q (3 / 2) - 1) = T at hu
    have hT : 0 < T := by linarith
    have hHT : H + 1 / 2 ≤ T := by linarith
    have hsub : {r : ℝ | 0 ≤ r ∧ r < 1 ∧ z.iteration r = none} ⊆
        ⋃ j ∈ Finset.range (n - 1).toNat,
          Set.Icc ((H - min (h_integral_exact q ((j : ℝ) + 2)) H) / T)
            ((H - h_integral_exact q ((j : ℝ) + 2 - 1 / 2)) / T) := by
      rintro r ⟨hr0, hr1, hrej⟩
      obtain ⟨hk2, hkn, hlo, hhi⟩ := reject_region n q r hn hq hr0 hr1.le z hz hrej
      have hj : (((z.k_of r - 2).toNat : ℕ) : ℝ) + 2 = (z.k_of r : ℝ) := by
        have h1 : (((z.k_of r - 2).toNat : ℕ) : Int) = z.k_of r - 2 :=
          Int.toNat_of_nonneg (by omega)
        have h2 : (((z.k_of r - 2).toNat : ℕ) : ℝ) = ((z.k_of r - 2 : Int) : ℝ) := by
          rw [← Int.cast_natCast, h1]
        rw [h2]
        push_cast
        ring
      refine Set.mem_iUnion₂.mpr ⟨(z.k_of r - 2).toNat, Finset.mem_range.mpr (by omega), ?_⟩
      rw [hj, hu r] at *
      constructor
      · rw [div_le_iff₀ hT]
        have h1 : H - r * T ≤ min (h_integral_exact q (z.k_of r : ℝ)) H :=
          le_min hhi.le (by nlinarith)
        linarith
      · rw [le_div_iff₀ hT]
        linarith
    calc volume {r : ℝ | 0 ≤ r ∧ r < 1 ∧ z.iteration r = none}
        ≤ volume (⋃ j ∈ Finset.range (n - 1).toNat,
            Set.Icc ((H - min (h_integral_exact q ((j : ℝ) + 2)) H) / T)
              ((H - h_integral_exact q ((j : ℝ) + 2 - 1 / 2)) / T)) := measure_mono hsub
      _ ≤ ∑ j in Finset.range (n - 1).toNat,
            volume (Set.Icc ((H - min (h_integral_exact q ((j : ℝ) + 2)) H) / T)
              ((H - h_integral_exact q ((j : ℝ) + 2 - 1 / 2)) / T)) :=
          measure_biUnion_finset_le _ _
      _ ≤ ∑ j in Finset.range (n - 1).toNat,
            ENNReal.ofReal (max 0 (min (h_integral_exact q ((j : ℝ) + 2)) H -
              h_integral_exact q ((j : ℝ) + 2 - 1 / 2)) / T) := by
          apply Finset.sum_le_sum
          intro j _
          rw [Real.volume_Icc]
          apply ENNReal.ofReal_le_ofReal
          rw [← sub_div]
          apply div_le_div_of_nonneg_right _ hT.le
          have := le_max_right 0 (min (h_integral_exact q ((j : ℝ) + 2)) H -
              h_integral_exact q ((j : ℝ) + 2 - 1 / 2))
          linarith
      _ = ENNReal.ofReal (∑ j in Finset.range (n - 1).toNat,
            max 0 (min (h_integral_exact q ((j : ℝ) + 2)) H -
              h_integral_exact q ((j : ℝ) + 2 - 1 / 2)) / T) := by
          rw [ENNReal.ofReal_sum_of_nonneg]
          intro j _
          exact div_nonneg (le_max_left _ _) hT.le
      _ ≤ ENNReal.ofReal (1 / 2) := by
          apply ENNReal.ofReal_le_ofReal
          rw [← Finset.sum_div, div_le_iff₀ hT]
          have h1 := reject_sum_le q H hq.le hH0 (n - 1).toNat
          have h2 := min_le_right (h_integral_exact q (((n - 1).toNat : ℝ) + 1)) H
          linarith
  refine ⟨1 / 2, by norm_num, ?_⟩
  intro n q hn hq
  refine ⟨_, new_ok n q (by omega) hq, ?_⟩
  generalize hz : ({ num_elements_ := n
                     exponent_ := q
                     h_integral_x1_ := h_integral q 1.5 - 1
                     h_integral_num_elements_ := h_integral q ((n : ℝ) + 0.5)
                     s_ := 2 - h_integral_inv q (h_integral q 2.5 - h q 2) } :
                     ZipfDistribution) = z
  have hrej := reject_volume_le n q hn hq z hz.symm
  have hcover : Set.Ico (0:ℝ) 1 ⊆ {r : ℝ | 0 ≤ r ∧ r < 1 ∧ (z.iteration r).isSome} ∪
      {r : ℝ | 0 ≤ r ∧ r < 1 ∧ z.iteration r = none} := by
    rintro r ⟨hr0, hr1⟩
    cases hit : z.iteration r with
    | none => exact Or.inr ⟨hr0, hr1, hit⟩
    | some k => exact Or.inl ⟨hr0, hr1, by simp [hit]⟩
  have h1 : volume (Set.Ico (0:ℝ) 1) ≤
      volume {r : ℝ | 0 ≤ r ∧ r < 1 ∧ (z.iteration r).isSome} + ENNReal.ofReal (1 / 2) :=
    (measure_mono hcover).trans ((measure_union_le _ _).trans (add_le_add_left hrej _))
  rw [Real.volume_Ico] at h1
  have h2 : ENNReal.ofReal (1 - 0) = ENNReal.ofReal (1 / 2) + ENNReal.ofReal (1 / 2) := by
    rw [← ENNReal.ofReal_add (by norm_num) (by norm_num)]
    norm_num
  rw [h2] at h1
  exact ENNReal.le_of_add_le_add_right ENNReal.ofReal_ne_top h1

/-- C3, as amended: for `num_elements ≥ 1`, an exponent that is 1 or at least `1e-7` away
from 1, and `1 ≤ m ≤ num_elements`, the draws `r` of `[0, 1)` for which one loop iteration
accepts and returns `m` have Lebesgue measure
`m ^ (-exponent) / (h_integral_num_elements_ - h_integral_x1_)`, with a positive denominator
that does not depend on `m`. -/
theorem C3_distribution_law (num_elements : Int) (exponent : ℝ) (m : Int)
    (hn : 1 ≤ num_elements) (hq : 0 < exponent)
    (hreg : exponent = 1 ∨ 1e-7 ≤ |1 - exponent|) (hm1 : 1 ≤ m) (hmn : m ≤ num_elements) :
    ∃ z, ZipfDistribution.new num_elements exponent = .ok z ∧
      0 < z.h_integral_num_elements_ - z.h_integral_x1_ ∧
      volume {r : ℝ | 0 ≤ r ∧ r < 1 ∧ z.iteration r = some m} =
        ENNReal.ofReal ((m : ℝ) ^ (-exponent) /
          (z.h_integral_num_elements_ - z.h_integral_x1_)) := by
  have h_eq (q x : ℝ) : h q x = Real.exp (-q * Real.log x) := by
    clear * - q x
    exact rfl
  -- The limited candidate is `m` when `x` rounds to `m`, or to less than `m = 1`.
  have k_of_eq_of_bounds (z : ZipfDistribution) (r : ℝ) (m : Int) (hm1 : 1 ≤ m)
      (hmn : m ≤ z.num_elements_)
      (hlo : m = 1 ∨ (m : ℝ) - 1 / 2 ≤ h_integral_inv z.exponent_ (z.u_of r))
      (hhi : h_integral_inv z.exponent_ (z.u_of r) < (m : ℝ) + 1 / 2) : z.k_of r = m := by
    clear * - z r m hm1 hmn hlo hhi
    have round_to_int_lt (x : ℝ) (hx : 0 ≤ x) (k : Int) :
        round_to_int x < k ↔ x < (k : ℝ) - 1 / 2 := by
      clear * - x hx k
      have round_to_int_of_pos (x : ℝ) (hx : 0 ≤ x) : round_to_int x = ⌊x + 1 / 2⌋ := by
        clear * - x hx
        rw [round_to_int, if_pos hx]
      rw [round_to_int_of_pos x hx, Int.floor_lt]
      constructor <;> intro h <;> linarith
    have le_round_to_int (x : ℝ) (hx : 0 ≤ x) (k : Int) :
        k ≤ round_to_int x ↔ (k : ℝ) - 1 / 2 ≤ x := by
      clear * - x hx k
      have round_to_int_of_pos (x : ℝ) (hx : 0 ≤ x) : round_to_int x = ⌊x + 1 / 2⌋ := by
        clear * - x hx
        rw [round_to_int, if_pos hx]
      rw [round_to_int_of_pos x hx, Int.le_floor]
      constructor <;> intro h <;> linarith
    have h_integral_inv_pos (q u : ℝ) : 0 < h_integral_inv q u := by
      clear * - q u
      exact Real.exp_pos _
    have hx0 := (h_integral_inv_pos z.exponent_ (z.u_of r)).le
    have h1 : round_to_int (h_integral_inv z.exponent_ (z.u_of r)) < m + 1 := by
      rw [round_to_int_lt _ hx0]
      push_cast
      linarith
    unfold ZipfDistribution.k_of ZipfDistribution.limit
    rcases hlo with h | h
    · split_ifs <;> omega
    · have h2 := (le_round_to_int _ hx0 m).mpr h
      split_ifs <;> omega
  have h_one (q : ℝ) : h q 1 = 1 := by
    clear * - q
    simp [h]
  -- The integral function at `1.5` is at most `1/2`.
  have h_integral_exact_le_half (q : ℝ) (hq : 0 ≤ q) : h_integral_exact q (3 / 2) ≤ 1 / 2 := by
    clear * - q hq h_one
    have h_integral_exact_one (q : ℝ) : h_integral_exact q 1 = 0 := by
      clear * - q
      simp [h_integral_exact]
    have := (h_integral_exact_sub_bounds q 1 (3 / 2) hq one_pos (by norm_num)).2
    rw [h_integral_exact_one, h_one] at this
    linarith
  have iteration_eq_some_iff (z : ZipfDistribution) (r : ℝ) (m : Int) :
      z.iteration r = some m ↔
        z.k_of r = m ∧ z.accepts (z.u_of r) (h_integral_inv z.exponent_ (z.u_of r)) (z.k_of r) := by
    clear * - z r m
    unfold ZipfDistribution.iteration
    simp only [ZipfDistribution.k_of]
    split_ifs with hacc
    · simp [hacc]
    · simp [hacc]
  have round_to_int_lt (x : ℝ) (hx : 0 ≤ x) (k : Int) :
      round_to_int x < k ↔ x < (k : ℝ) - 1 / 2 := by
    clear * - x hx k
    have round_to_int_of_pos (x : ℝ) (hx : 0 ≤ x) : round_to_int x = ⌊x + 1 / 2⌋ := by
      clear * - x hx
      rw [round_to_int, if_pos hx]
    rw [round_to_int_of_pos x hx, Int.floor_lt]
    constructor <;> intro h <;> linarith
  have h_integral_inv_pos (q u : ℝ) : 0 < h_integral_inv q u := by
    clear * - q u
    exact Real.exp_pos _
  -- At or above `H(y)`, `y ≥ 3/2`, the code's inverse is at least `y`, at exponent 1 and
  -- away from it.
  have le_h_integral_inv (q u y x0 : ℝ) (hq : 0 < q) (hreg : q = 1 ∨ 1e-7 ≤ |1 - q|)
      (hy : 3 / 2 ≤ y) (hhi : u ≤ h_integral_exact q x0) (hu : h_integral_exact q y ≤ u) :
      y ≤ h_integral_inv q u := by
    clear * - q u y x0 hq hreg hy hhi hu
    have hmono : h_integral_exact q (3 / 2) ≤ h_integral_exact q y := by
      rcases eq_or_lt_of_le hy with h | h
      · rw [h]
      · exact (h_integral_exact_strictMono q _ _ hq.le (by norm_num) h).le
    have h0 := h_integral_exact_nonneg q (3 / 2) (by norm_num)
    rw [regime_h_integral_inv q u x0 hq hreg (hmono.trans hu) hhi]
    exact (le_exact_inv_iff q u y x0 hq (by linarith) (by linarith) hhi).mpr hu
  have h_eq_rpow (q m : ℝ) (hm : 0 < m) : h q m = m ^ (-q) := by
    clear * - q m hm h_eq
    rw [h_eq, Real.rpow_def_of_pos hm]
    ring_nf
  -- At exponent 1 and away from it, the draws of `[0, 1)` that one iteration accepts with
  -- the value `m` have measure `h(m) / (h_integral_num_elements_ - h_integral_x1_)`.
  have volume_accepts_eq (n : Int) (q : ℝ) (hn : 1 ≤ n) (hq : 0 < q)
      (hreg : q = 1 ∨ 1e-7 ≤ |1 - q|) (z : ZipfDistribution)
      (hz : z = { num_elements_ := n
                  exponent_ := q
                  h_integral_x1_ := h_integral q 1.5 - 1
                  h_integral_num_elements_ := h_integral q ((n : ℝ) + 0.5)
                  s_ := 2 - h_integral_inv q (h_integral q 2.5 - h q 2) })
      (m : Int) (hm1 : 1 ≤ m) (hmn : m ≤ n) :
      0 < z.h_integral_num_elements_ - z.h_integral_x1_ ∧
      volume {r : ℝ | 0 ≤ r ∧ r < 1 ∧ z.iteration r = some m} =
        ENNReal.ofReal (h q (m : ℝ) / (z.h_integral_num_elements_ - z.h_integral_x1_)) := by
    clear * - n q hn hq hreg z hz m hm1 hmn le_h_integral_inv h_integral_inv_pos round_to_int_lt iteration_eq_some_iff h_integral_exact_le_half h_one k_of_eq_of_bounds
    -- At exponent 1 and away from it, a draw that is accepted with the value `m` has its `u`
    -- in `[H(m + 1/2) - h(m), H(m + 1/2)]`.
    have bounds_of_accepts (n : Int) (q r : ℝ) (hn : 1 ≤ n) (hq : 0 < q)
        (hreg : q = 1 ∨ 1e-7 ≤ |1 - q|) (hr0 : 0 ≤ r) (hr1 : r ≤ 1) (z : ZipfDistribution)
        (hz : z = { num_elements_ := n
                    exponent_ := q
                    h_integral_x1_ := h_integral q 1.5 - 1
                    h_integral_num_elements_ := h_integral q ((n : ℝ) + 0.5)
                    s_ := 2 - h_integral_inv q (h_integral q 2.5 - h q 2) })
        (m : Int) (hm1 : 1 ≤ m) (hmn : m ≤ n) (hit : z.iteration r = some m) :
        h_integral_exact q ((m : ℝ) + 1 / 2) - h q (m : ℝ) ≤ z.u_of r ∧
          z.u_of r ≤ h_integral_exact q ((m : ℝ) + 1 / 2) := by
      clear * - n q r hn hq hreg hr0 hr1 z hz m hm1 hmn hit le_h_integral_inv h_integral_inv_pos round_to_int_lt iteration_eq_some_iff
      -- A limited candidate `m` below `num_elements_` comes from an `x` below `m + 1/2`.
      have lt_of_k_of_eq (z : ZipfDistribution) (r : ℝ) (m : Int)
          (hmn : m < z.num_elements_) (hk : z.k_of r = m) :
          h_integral_inv z.exponent_ (z.u_of r) < (m : ℝ) + 1 / 2 := by
        clear * - z r m hmn hk h_integral_inv_pos round_to_int_lt
        have hx0 := (h_integral_inv_pos z.exponent_ (z.u_of r)).le
        have h1 : round_to_int (h_integral_inv z.exponent_ (z.u_of r)) < m + 1 := by
          unfold ZipfDistribution.k_of ZipfDistribution.limit at hk
          split_ifs at hk <;> omega
        rw [round_to_int_lt _ hx0] at h1
        push_cast at h1
        linarith
      obtain ⟨hnum, hexp, _, _, _⟩ := new_fields n q z hz
      obtain ⟨hulo, huhi⟩ := u_of_bounds n q r hn hq hr0 hr1 z hz
      have hn' : (1:ℝ) ≤ (n : ℝ) := by exact_mod_cast hn
      have hm1' : (1:ℝ) ≤ (m : ℝ) := by exact_mod_cast hm1
      have huhi' : z.u_of r ≤ h_integral_exact q ((n : ℝ) + 1 / 2) :=
        huhi.trans (h_integral_le_exact q _ (by linarith))
      obtain ⟨hk, hacc⟩ := (iteration_eq_some_iff z r m).mp hit
      have hb : z.u_of r ≥
          h_integral z.exponent_ ((z.k_of r : ℝ) + 0.5) - h z.exponent_ (z.k_of r) := by
        rcases hacc with hl | hr
        · exact short_circuit_sound n q r hn hq hr0 hr1 z hz hl
        · exact hr
      rw [hk, hexp] at hb
      have e : ((m : ℝ) + 0.5) = (m : ℝ) + 1 / 2 := by norm_num
      rw [e, regime_h_integral q _ hreg (by linarith)] at hb
      refine ⟨hb, ?_⟩
      rcases eq_or_lt_of_le hmn with h | h
      · rw [h]; exact huhi'
      · by_contra hcon
        have h1 := lt_of_k_of_eq z r m (by rw [hnum]; exact h) hk
        rw [hexp] at h1
        have h2 := le_h_integral_inv q (z.u_of r) ((m : ℝ) + 1 / 2) _ hq hreg (by linarith) huhi'
          (not_le.mp hcon).le
        linarith
    -- At exponent 1 and away from it, a draw whose `u` lies in
    -- `[H(m + 1/2) - h(m), H(m + 1/2))` is accepted with the value `m`, for `2 ≤ m ≤ n`.
    have bin_accepts (n : Int) (q r : ℝ) (hn : 1 ≤ n) (hq : 0 < q)
        (hreg : q = 1 ∨ 1e-7 ≤ |1 - q|) (hr0 : 0 ≤ r) (hr1 : r ≤ 1) (z : ZipfDistribution)
        (hz : z = { num_elements_ := n
                    exponent_ := q
                    h_integral_x1_ := h_integral q 1.5 - 1
                    h_integral_num_elements_ := h_integral q ((n : ℝ) + 0.5)
                    s_ := 2 - h_integral_inv q (h_integral q 2.5 - h q 2) })
        (m : Int) (hm2 : 2 ≤ m) (hmn : m ≤ n)
        (hlo : h_integral_exact q ((m : ℝ) + 1 / 2) - h q (m : ℝ) ≤ z.u_of r)
        (hhi : z.u_of r < h_integral_exact q ((m : ℝ) + 1 / 2)) : z.iteration r = some m := by
      clear * - n q r hn hq hreg hr0 hr1 z hz m hm2 hmn hlo hhi le_h_integral_inv iteration_eq_some_iff k_of_eq_of_bounds
      obtain ⟨hnum, hexp, _, _, _⟩ := new_fields n q z hz
      obtain ⟨hulo, huhi⟩ := u_of_bounds n q r hn hq hr0 hr1 z hz
      have hn' : (1:ℝ) ≤ (n : ℝ) := by exact_mod_cast hn
      have hm2' : (2:ℝ) ≤ (m : ℝ) := by exact_mod_cast hm2
      have huhi' : z.u_of r ≤ h_integral_exact q ((n : ℝ) + 1 / 2) :=
        huhi.trans (h_integral_le_exact q _ (by linarith))
      have hx1 := h_integral_nonneg q (3 / 2) (by norm_num)
      have hHH := h_le_integral q (m : ℝ) hq.le (by linarith)
      have hxlo := le_h_integral_inv q (z.u_of r) ((m : ℝ) - 1 / 2) _ hq hreg (by linarith) huhi'
        (by linarith)
      have hxhi := h_integral_inv_lt q (z.u_of r) ((m : ℝ) + 1 / 2) _ hq (by linarith)
        (by linarith) huhi' hhi
      have hk : z.k_of r = m := by
        apply k_of_eq_of_bounds z r m (by omega) (by rw [hnum]; exact hmn)
        · right; rw [hexp]; exact hxlo
        · rw [hexp]; exact hxhi
      rw [iteration_eq_some_iff]
      refine ⟨hk, Or.inr ?_⟩
      rw [hk, hexp]
      have e : ((m : ℝ) + 0.5) = (m : ℝ) + 1 / 2 := by norm_num
      rw [e, regime_h_integral q _ hreg (by linarith)]
      exact hlo
    obtain ⟨_, _, hx1, hnum, _⟩ := new_fields n q z hz
    have hn' : (1:ℝ) ≤ (n : ℝ) := by exact_mod_cast hn
    have hm1' : (1:ℝ) ≤ (m : ℝ) := by exact_mod_cast hm1
    have hmn' : (m : ℝ) ≤ (n : ℝ) := by exact_mod_cast hmn
    have hHreg : h_integral q ((n : ℝ) + 1 / 2) = h_integral_exact q ((n : ℝ) + 1 / 2) :=
      regime_h_integral q _ hreg (by linarith)
    have hXreg : h_integral q (3 / 2) = h_integral_exact q (3 / 2) :=
      regime_h_integral q _ hreg (le_refl _)
    have hgap := x1_lt_num_elements q ((n : ℝ) + 1 / 2) hq.le (by linarith)
    have hX0 := h_integral_exact_nonneg q (3 / 2) (by norm_num)
    have hXhalf := h_integral_exact_le_half q hq.le
    have hmono : h_integral_exact q ((m : ℝ) + 1 / 2) ≤ h_integral_exact q ((n : ℝ) + 1 / 2) := by
      rcases eq_or_lt_of_le hmn' with h | h
      · rw [h]
      · exact (h_integral_exact_strictMono q _ _ hq.le (by linarith) (by linarith)).le
    have hthr : h_integral_exact q (3 / 2) - 1 ≤
        h_integral_exact q ((m : ℝ) + 1 / 2) - h q (m : ℝ) := by
      rcases eq_or_lt_of_le hm1 with h | h
      · rw [← h]
        have e : ((1 : Int) : ℝ) + 1 / 2 = 3 / 2 := by norm_num
        rw [e, Int.cast_one, h_one]
      · have hm2 : (2:ℝ) ≤ (m : ℝ) := by exact_mod_cast (show (2:Int) ≤ m by omega)
        have h1 := h_le_integral q (m : ℝ) hq.le (by linarith)
        have h2 := h_integral_exact_nonneg q ((m : ℝ) - 1 / 2) (by linarith)
        linarith
    have hu : ∀ r : ℝ, z.u_of r = h_integral_exact q ((n : ℝ) + 1 / 2) -
        r * (h_integral_exact q ((n : ℝ) + 1 / 2) - (h_integral_exact q (3 / 2) - 1)) := by
      intro r
      rw [ZipfDistribution.u_of, hx1, hnum, hHreg, hXreg]
      ring
    have hTeq : z.h_integral_num_elements_ - z.h_integral_x1_ =
        h_integral_exact q ((n : ℝ) + 1 / 2) - (h_integral_exact q (3 / 2) - 1) := by
      rw [hx1, hnum, hHreg, hXreg]
    rw [hTeq]
    rw [hHreg, hXreg] at hgap
    generalize h_integral_exact q ((n : ℝ) + 1 / 2) = H at hmono hu hgap ⊢
    generalize hTdef : H - (h_integral_exact q (3 / 2) - 1) = T at hu ⊢
    have hT : 0 < T := by linarith
    refine ⟨hT, ?_⟩
    have hlo0 : 0 ≤ (H - h_integral_exact q ((m : ℝ) + 1 / 2)) / T :=
      div_nonneg (by linarith) hT.le
    have hhi1 : (H - (h_integral_exact q ((m : ℝ) + 1 / 2) - h q (m : ℝ))) / T ≤ 1 := by
      rw [div_le_one hT]
      linarith
    have hsub1 : Set.Ioo ((H - h_integral_exact q ((m : ℝ) + 1 / 2)) / T)
        ((H - (h_integral_exact q ((m : ℝ) + 1 / 2) - h q (m : ℝ))) / T) ⊆
        {r : ℝ | 0 ≤ r ∧ r < 1 ∧ z.iteration r = some m} := by
      rintro r ⟨hr_lo, hr_hi⟩
      have hr0 : 0 ≤ r := by linarith
      have hr1 : r < 1 := by linarith
      rw [div_lt_iff₀ hT] at hr_lo
      rw [lt_div_iff₀ hT] at hr_hi
      refine ⟨hr0, hr1, ?_⟩
      rcases eq_or_lt_of_le hm1 with h | h
      · rw [← h]
        apply first_bin_accepts n q r hn hq hr0 hr1.le z hz
        rw [hu r]
        rw [← h] at hr_lo
        have e : ((1 : Int) : ℝ) + 1 / 2 = 3 / 2 := by norm_num
        rw [e] at hr_lo
        linarith
      · apply bin_accepts n q r hn hq hreg hr0 hr1.le z hz m (by omega) hmn
        · rw [hu r]; linarith
        · rw [hu r]; linarith
    have hsub2 : {r : ℝ | 0 ≤ r ∧ r < 1 ∧ z.iteration r = some m} ⊆
        Set.Icc ((H - h_integral_exact q ((m : ℝ) + 1 / 2)) / T)
          ((H - (h_integral_exact q ((m : ℝ) + 1 / 2) - h q (m : ℝ))) / T) := by
      rintro r ⟨hr0, hr1, hit⟩
      obtain ⟨h1, h2⟩ := bounds_of_accepts n q r hn hq hreg hr0 hr1.le z hz m hm1 hmn hit
      rw [hu r] at h1 h2
      constructor
      · rw [div_le_iff₀ hT]; linarith
      · rw [le_div_iff₀ hT]; linarith
    have hlen : (H - (h_integral_exact q ((m : ℝ) + 1 / 2) - h q (m : ℝ))) / T -
        (H - h_integral_exact q ((m : ℝ) + 1 / 2)) / T = h q (m : ℝ) / T := by
      rw [← sub_div]
      congr 1
      ring
    apply le_antisymm
    · calc volume {r : ℝ | 0 ≤ r ∧ r < 1 ∧ z.iteration r = some m}
          ≤ volume (Set.Icc ((H - h_integral_exact q ((m : ℝ) + 1 / 2)) / T)
            ((H - (h_integral_exact q ((m : ℝ) + 1 / 2) - h q (m : ℝ))) / T)) :=
            measure_mono hsub2
        _ = ENNReal.ofReal (h q (m : ℝ) / T) := by rw [Real.volume_Icc, hlen]
    · calc ENNReal.ofReal (h q (m : ℝ) / T)
          = volume (Set.Ioo ((H - h_integral_exact q ((m : ℝ) + 1 / 2)) / T)
            ((H - (h_integral_exact q ((m : ℝ) + 1 / 2) - h q (m : ℝ))) / T)) := by
            rw [Real.volume_Ioo, hlen]
        _ ≤ volume {r : ℝ | 0 ≤ r ∧ r < 1 ∧ z.iteration r = some m} := measure_mono hsub1
  refine ⟨_, new_ok num_elements exponent (by omega) hq, ?_⟩
  have hm0 : (0:ℝ) < (m : ℝ) := by exact_mod_cast (show (0:Int) < m by omega)
  rw [← h_eq_rpow exponent (m : ℝ) hm0]
  exact volume_accepts_eq num_elements exponent hn hq hreg _ rfl m hm1 hmn

/-- Witness of the amended C3 at `num_elements = 10`, `exponent = 3/2`, `m = 3`. -/
theorem C3_distribution_law_witness :
    ∃ z, ZipfDistribution.new 10 (3 / 2) = .ok z ∧
      0 < z.h_integral_num_elements_ - z.h_integral_x1_ ∧
      volume {r : ℝ | 0 ≤ r ∧ r < 1 ∧ z.iteration r = some 3} =
        ENNReal.ofReal (((3 : Int) : ℝ) ^ (-(3 / 2 : ℝ)) /
          (z.h_integral_num_elements_ - z.h_integral_x1_)) :=
  C3_distribution_law 10 (3 / 2) 3 (by norm_num) (by norm_num)
    (Or.inr (by rw [abs_of_neg (by norm_num)]; norm_num)) (by norm_num) (by norm_num)

/-- Counterexample to C3 as stated: with `num_elements = 2`, `exponent = 1 + 1e-9` and
`m = 1`, the measure of the draws accepted with the value 1 is not
`1 ^ (-exponent) / (h_integral_num_elements_ - h_integral_x1_)`. -/
theorem C3_counterexample :
    ∃ z, ZipfDistribution.new 2 (1 + 1e-9) = .ok z ∧
      volume {r : ℝ | 0 ≤ r ∧ r < 1 ∧ z.iteration r = some 1} ≠
        ENNReal.ofReal (((1 : Int) : ℝ) ^ (-(1 + 1e-9 : ℝ)) /
          (z.h_integral_num_elements_ - z.h_integral_x1_)) := by
  have exp_ratio_sub_one_abs (y : ℝ) (hy : |y| ≤ 1) : |exp_ratio y - 1| ≤ |y| := by
    clear * - y hy
    unfold exp_ratio
    split_ifs with h0
    · simp
    · have hb := Real.abs_exp_sub_one_sub_id_le hy
      have hpos : 0 < |y| := abs_pos.mpr h0
      have e : (Real.exp y - 1) / y - 1 = (Real.exp y - 1 - y) / y := by field_simp
      rw [e, abs_div, div_le_iff₀ hpos]
      calc |Real.exp y - 1 - y| ≤ y ^ 2 := hb
        _ = |y| * |y| := by rw [abs_mul_abs_self]; ring
  have helper2_ge (y : ℝ) (hy : |y| ≤ 1) : 1 - |y| ≤ helper2 y := by
    clear * - y hy exp_ratio_sub_one_abs
    by_cases hdir : |y| > 1e-8
    · rw [helper2_direct y hdir]
      have := (abs_le.mp (exp_ratio_sub_one_abs y hy)).1
      linarith
    · have hy' := not_lt.mp hdir
      rw [helper2_series y hy']
      obtain ⟨hlo, hhi⟩ := abs_le.mp hy
      have habs : -|y| ≤ y := neg_abs_le y
      have h2 : 0 ≤ y ^ 2 := sq_nonneg y
      have h3 : -(|y|) ≤ y ^ 3 := by
        have : |y ^ 3| ≤ |y| := by
          rw [abs_pow]
          calc |y| ^ 3 = |y| * |y| ^ 2 := by ring
            _ ≤ |y| * 1 := by
              apply mul_le_mul_of_nonneg_left _ (abs_nonneg y)
              exact pow_le_one₀ (abs_nonneg y) hy
            _ = |y| := mul_one _
        exact (abs_le.mp this).1
      linarith [abs_nonneg y]
  have h_one (q : ℝ) : h q 1 = 1 := by
    clear * - q
    simp [h]
  -- The integral function at `1.5` is at most `1/2`.
  have h_integral_exact_le_half (q : ℝ) (hq : 0 ≤ q) : h_integral_exact q (3 / 2) ≤ 1 / 2 := by
    clear * - q hq h_one
    have h_integral_exact_one (q : ℝ) : h_integral_exact q 1 = 0 := by
      clear * - q
      simp [h_integral_exact]
    have := (h_integral_exact_sub_bounds q 1 (3 / 2) hq one_pos (by norm_num)).2
    rw [h_integral_exact_one, h_one] at this
    linarith
  have log_five_halves_ge : (3 : ℝ) / 5 ≤ Real.log (5 / 2) := by
    clear * -
    have h := Real.log_le_sub_one_of_pos (show (0:ℝ) < 2 / 5 by norm_num)
    have e : Real.log (5 / 2) = -Real.log (2 / 5) := by
      rw [← Real.log_inv]; norm_num
    rw [e]
    linarith
  -- Near exponent 1 (here `exponent = 1 + 1e-9`, two elements) the draws accepted with the
  -- value 1 have measure strictly larger than `1 / (h_integral_num_elements_ - h_integral_x1_)`:
  -- the series of `helper2` makes `h_integral(1.5)` smaller than the documented `H(1.5)`.
  have volume_first_bin_near_one (z : ZipfDistribution)
      (hz : z = { num_elements_ := 2
                  exponent_ := 1 + 1e-9
                  h_integral_x1_ := h_integral (1 + 1e-9) 1.5 - 1
                  h_integral_num_elements_ := h_integral (1 + 1e-9) (((2 : Int) : ℝ) + 0.5)
                  s_ := 2 - h_integral_inv (1 + 1e-9) (h_integral (1 + 1e-9) 2.5 -
                    h (1 + 1e-9) 2) }) :
      ENNReal.ofReal (1 / (z.h_integral_num_elements_ - z.h_integral_x1_)) <
        volume {r : ℝ | 0 ≤ r ∧ r < 1 ∧ z.iteration r = some 1} := by
    clear * - z hz log_five_halves_ge h_integral_exact_le_half helper2_ge
    -- Where `helper2` takes its series at a negative argument it is strictly below the
    -- documented function.
    have helper2_lt_exp_ratio (y : ℝ) (hy : y < 0) (hser : |y| ≤ 1e-8) :
        helper2 y < exp_ratio y := by
      clear * - y hy hser
      -- For negative `y` the exponential is strictly below its quartic Taylor polynomial.
      have exp_lt_taylor (y : ℝ) (hy : y < 0) (hy1 : -1 ≤ y) :
          Real.exp y < 1 + y + y ^ 2 / 2 + y ^ 3 / 6 + y ^ 4 / 24 := by
        clear * - y hy hy1
        have habs : |y| ≤ 1 := abs_le.mpr ⟨hy1, by linarith⟩
        have hb := (abs_le.mp (Real.exp_bound habs (show 0 < 6 by norm_num))).2
        simp only [Finset.sum_range_succ, Finset.sum_range_zero, Nat.factorial] at hb
        rw [abs_of_neg hy] at hb
        norm_num at hb
        have h5 : y ^ 5 < 0 := by
          have : y ^ 5 = y * (y ^ 2) ^ 2 := by ring
          rw [this]
          have hy2 : 0 < y ^ 2 := (sq_pos_of_neg hy)
          exact mul_neg_of_neg_of_pos hy (pow_pos hy2 2)
        have h6 : y ^ 6 = -y * (-(y ^ 5)) := by ring
        have h7 : -y * (-(y ^ 5)) ≤ 1 * (-(y ^ 5)) :=
          mul_le_mul_of_nonneg_right (by linarith) (by linarith)
        nlinarith
      have hb : |y| ≤ 1 / 100000000 := by norm_num at hser; exact hser
      have hy1 : -1 ≤ y := by linarith [(abs_le.mp hb).1]
      rw [helper2_series y hser, exp_ratio, if_neg hy.ne, lt_div_iff_of_neg hy]
      have := exp_lt_taylor y hy hy1
      nlinarith
    have hq : (0:ℝ) < 1 + 1e-9 := by norm_num
    obtain ⟨_, _, hx1, hnum, _⟩ := new_fields 2 (1 + 1e-9) z hz
    have ha : (1 : ℝ) - (1 + 1e-9) = -(1 / 1000000000) := by norm_num
    have hL := log_three_halves_ge
    have hLhi : Real.log (3 / 2) ≤ 1 / 2 := by
      have := Real.log_le_sub_one_of_pos (show (0:ℝ) < 3 / 2 by norm_num); linarith
    -- the code's value at 3/2 is strictly below the documented one
    have hstrict : h_integral (1 + 1e-9) (3 / 2) < h_integral_exact (1 + 1e-9) (3 / 2) := by
      rw [h_integral_eq, h_integral_exact, ha]
      apply mul_lt_mul_of_pos_right _ (by linarith)
      apply helper2_lt_exp_ratio
      · nlinarith
      · rw [abs_of_neg (by nlinarith)]
        norm_num
        nlinarith
    -- the code's value at 5/2 is at least 1/2
    have hH : 1 / 2 ≤ h_integral (1 + 1e-9) (((2 : Int) : ℝ) + 1 / 2) := by
      have e : (((2 : Int) : ℝ) + 1 / 2) = 5 / 2 := by norm_num
      rw [e, h_integral_eq, ha]
      have hL25 := log_five_halves_ge
      have hL25hi : Real.log (5 / 2) ≤ 3 / 2 := by
        have := Real.log_le_sub_one_of_pos (show (0:ℝ) < 5 / 2 by norm_num); linarith
      have habs : |-(1 / 1000000000) * Real.log (5 / 2)| ≤ 1 / 100 := by
        rw [abs_of_neg (by nlinarith)]
        nlinarith
      have h1 := helper2_ge (-(1 / 1000000000) * Real.log (5 / 2)) (by linarith)
      have h2 : (99 : ℝ) / 100 ≤ helper2 (-(1 / 1000000000) * Real.log (5 / 2)) := by linarith
      nlinarith
    have hXhalf := h_integral_exact_le_half (1 + 1e-9) hq.le
    have hX0 := h_integral_nonneg (1 + 1e-9) (3 / 2) (by norm_num)
    have hXle := h_integral_le_exact (1 + 1e-9) (3 / 2) (by norm_num)
    have hu : ∀ r : ℝ, z.u_of r = h_integral (1 + 1e-9) (((2 : Int) : ℝ) + 1 / 2) -
        r * (h_integral (1 + 1e-9) (((2 : Int) : ℝ) + 1 / 2) -
          (h_integral (1 + 1e-9) (3 / 2) - 1)) := by
      intro r
      rw [ZipfDistribution.u_of, hx1, hnum]
      ring
    rw [hx1, hnum]
    generalize h_integral (1 + 1e-9) (((2 : Int) : ℝ) + 1 / 2) = H at hH hu ⊢
    generalize hTdef : H - (h_integral (1 + 1e-9) (3 / 2) - 1) = T at hu ⊢
    have hT : 0 < T := by linarith
    have hlo0 : 0 ≤ (H - h_integral_exact (1 + 1e-9) (3 / 2)) / T :=
      div_nonneg (by linarith) hT.le
    have hsub : Set.Ioo ((H - h_integral_exact (1 + 1e-9) (3 / 2)) / T) 1 ⊆
        {r : ℝ | 0 ≤ r ∧ r < 1 ∧ z.iteration r = some 1} := by
      rintro r ⟨hr_lo, hr1⟩
      have hr0 : 0 ≤ r := by linarith
      rw [div_lt_iff₀ hT] at hr_lo
      refine ⟨hr0, hr1, ?_⟩
      apply first_bin_accepts 2 (1 + 1e-9) r (by norm_num) hq hr0 hr1.le z hz
      rw [hu r]
      linarith
    have hlen : 1 / T < 1 - (H - h_integral_exact (1 + 1e-9) (3 / 2)) / T := by
      have e : 1 - (H - h_integral_exact (1 + 1e-9) (3 / 2)) / T =
          (T - (H - h_integral_exact (1 + 1e-9) (3 / 2))) / T := by
        field_simp
      rw [e]
      apply div_lt_div_of_pos_right _ hT
      linarith
    calc ENNReal.ofReal (1 / T)
        < ENNReal.ofReal (1 - (H - h_integral_exact (1 + 1e-9) (3 / 2)) / T) :=
          (ENNReal.ofReal_lt_ofReal_iff (lt_trans (by positivity) hlen)).mpr hlen
      _ = volume (Set.Ioo ((H - h_integral_exact (1 + 1e-9) (3 / 2)) / T) 1) := by
          rw [Real.volume_Ioo]
      _ ≤ volume {r : ℝ | 0 ≤ r ∧ r < 1 ∧ z.iteration r = some 1} := measure_mono hsub
  refine ⟨_, new_ok 2 (1 + 1e-9) (by norm_num) (by norm_num), ?_⟩
  have h := volume_first_bin_near_one _ rfl
  rw [Int.cast_one, Real.one_rpow]
  exact ne_of_gt h

/-- C12: for `num_elements ≥ 1`, `exponent > 0` and a draw `r` in `[0, 1)`, the value
`u = h_integral_num_elements_ + r * (h_integral_x1_ - h_integral_num_elements_)` lies in
the half-open interval `(h_integral_x1_, h_integral_num_elements_]`, and
`h_integral_x1_ < h_integral_num_elements_`. -/
theorem C12_u_interval (num_elements : Int) (exponent r : ℝ) (hn : 1 ≤ num_elements)
    (hq : 0 < exponent) (hr0 : 0 ≤ r) (hr1 : r < 1) :
    ∃ z, ZipfDistribution.new num_elements exponent = .ok z ∧
      z.h_integral_x1_ < z.u_of r ∧ z.u_of r ≤ z.h_integral_num_elements_ ∧
      z.h_integral_x1_ < z.h_integral_num_elements_ := by
  -- Strict lower bound of `u` for draws below 1.
  have x1_lt_u_of (n : Int) (q r : ℝ) (hn : 1 ≤ n) (hq : 0 < q) (hr1 : r < 1)
      (z : ZipfDistribution)
      (hz : z = { num_elements_ := n
                  exponent_ := q
                  h_integral_x1_ := h_integral q 1.5 - 1
                  h_integral_num_elements_ := h_integral q ((n : ℝ) + 0.5)
                  s_ := 2 - h_integral_inv q (h_integral q 2.5 - h q 2) }) :
      z.h_integral_x1_ < z.u_of r ∧ z.h_integral_x1_ < z.h_integral_num_elements_ := by
    clear * - n q r hn hq hr1 z hz
    obtain ⟨_, _, hx1, hnum, _⟩ := new_fields n q z hz
    have hn' : (1:ℝ) ≤ (n : ℝ) := by exact_mod_cast hn
    have hlt := x1_lt_num_elements q ((n : ℝ) + 1 / 2) hq.le (by linarith)
    rw [ZipfDistribution.u_of, hx1, hnum]
    constructor
    · nlinarith
    · linarith
  refine ⟨_, new_ok num_elements exponent (by omega) hq, ?_⟩
  obtain ⟨h1, h2⟩ := x1_lt_u_of num_elements exponent r hn hq hr1 _ rfl
  refine ⟨h1, ?_, h2⟩
  rw [ZipfDistribution.u_of]
  nlinarith

/-- Witness of C12 at `num_elements = 5`, `exponent = 2`, `r = 0`, where `u` is
`h_integral_num_elements_`, the right end of the interval. -/
theorem C12_u_interval_witness :
    ∃ z, ZipfDistribution.new 5 2 = .ok z ∧
      z.h_integral_x1_ < z.u_of 0 ∧ z.u_of 0 ≤ z.h_integral_num_elements_ ∧
      z.h_integral_x1_ < z.h_integral_num_elements_ :=
  C12_u_interval 5 2 0 (by norm_num) (by norm_num) (le_refl _) (by norm_num)

/-- C13: a candidate `k = 1` is always accepted.  For `num_elements ≥ 1` and
`exponent > 0`, `h_integral(1.5) - h(1) = h_integral_x1_`, so for every `u` in
`(h_integral_x1_, h_integral_num_elements_]` the right-hand test
`u >= h_integral(1 + 0.5) - h(1)` is true and the acceptance test holds for `k = 1`,
whatever `x` is. -/
theorem C13_first_candidate_accepted (num_elements : Int) (exponent : ℝ)
    (hn : 1 ≤ num_elements) (hq : 0 < exponent) :
    ∃ z, ZipfDistribution.new num_elements exponent = .ok z ∧
      h_integral z.exponent_ 1.5 - h z.exponent_ 1 = z.h_integral_x1_ ∧
      ∀ u : ℝ, z.h_integral_x1_ < u → u ≤ z.h_integral_num_elements_ →
        u ≥ h_integral z.exponent_ (((1 : Int) : ℝ) + 0.5) - h z.exponent_ ((1 : Int) : ℝ) ∧
        ∀ x : ℝ, z.accepts u x 1 := by
  have h_one (q : ℝ) : h q 1 = 1 := by
    clear * - q
    simp [h]
  refine ⟨_, new_ok num_elements exponent (by omega) hq, ?_, ?_⟩
  · rw [h_one]
  · intro u hu _
    have e : (((1 : Int) : ℝ) + 0.5) = 1.5 := by norm_num
    have key : u ≥ h_integral exponent (((1 : Int) : ℝ) + 0.5) - h exponent ((1 : Int) : ℝ) := by
      rw [e, Int.cast_one, h_one]
      exact hu.le
    exact ⟨key, fun x => Or.inr key⟩

/-- Witness of C13 at `num_elements = 3`, `exponent = 1/2`. -/
theorem C13_first_candidate_accepted_witness :
    ∃ z, ZipfDistribution.new 3 (1 / 2) = .ok z ∧
      h_integral z.exponent_ 1.5 - h z.exponent_ 1 = z.h_integral_x1_ ∧
      ∀ u : ℝ, z.h_integral_x1_ < u → u ≤ z.h_integral_num_elements_ →
        u ≥ h_integral z.exponent_ (((1 : Int) : ℝ) + 0.5) - h z.exponent_ ((1 : Int) : ℝ) ∧
        ∀ x : ℝ, z.accepts u x 1 :=
  C13_first_candidate_accepted 3 (1 / 2) (by norm_num) (by norm_num)

/-- C16: the near-zero branches of the helpers are the Taylor polynomials through the
cubic term, and the other branches are the direct formulas: for `|x| ≤ 1e-8`,
`helper1 x = 1 - x/2 + x^2/3 - x^3/4` and `helper2 x = 1 + x/2 + x^2/6 + x^3/24`; for
`|x| > 1e-8`, `helper1 x = log(1 + x) / x` and `helper2 x = (exp x - 1) / x`. -/
theorem C16_helper_branches (x : ℝ) :
    (|x| ≤ 1e-8 →
      helper1 x = 1 - x / 2 + x ^ 2 / 3 - x ^ 3 / 4 ∧
      helper2 x = 1 + x / 2 + x ^ 2 / 6 + x ^ 3 / 24) ∧
    (|x| > 1e-8 →
      helper1 x = Real.log (1 + x) / x ∧ helper2 x = (Real.exp x - 1) / x) := by
  have helper1_series (x : ℝ) (hx : |x| ≤ 1e-8) :
      helper1 x = 1 - x / 2 + x ^ 2 / 3 - x ^ 3 / 4 := by
    clear * - x hx
    have hx' : ¬ (|x| > 1e-8) := not_lt.mpr hx
    rw [helper1, if_neg hx']
    norm_num
    ring
  constructor
  · intro hx
    exact ⟨helper1_series x hx, helper2_series x hx⟩
  · intro hx
    exact ⟨by rw [helper1, if_pos hx], by rw [helper2, if_pos hx]⟩

/-- Witness of C16: the series branch at `x = 1e-8`, the last point that takes it, and the
direct branch at `x = 1`. -/
theorem C16_helper_branches_witness :
    (helper1 1e-8 = 1 - 1e-8 / 2 + 1e-8 ^ 2 / 3 - 1e-8 ^ 3 / 4 ∧
      helper2 1e-8 = 1 + 1e-8 / 2 + 1e-8 ^ 2 / 6 + 1e-8 ^ 3 / 24) ∧
    (helper1 1 = Real.log (1 + 1) / 1 ∧ helper2 1 = (Real.exp 1 - 1) / 1) :=
  ⟨(C16_helper_branches 1e-8).1 (by norm_num [abs_of_pos]),
    (C16_helper_branches 1).2 (by norm_num)⟩

/-- C18: closed form of the integral function.  For `exponent > 0`, `exponent ≠ 1` and
`x > 0` with `|(1 - exponent) * ln x| > 1e-8` (the direct formula of `helper2` is used),
`h_integral x = (x ^ (1 - exponent) - 1) / (1 - exponent)`. -/
theorem C18_h_integral_closed_form (exponent x : ℝ) (hq : 0 < exponent) (hq1 : exponent ≠ 1)
    (hx : 0 < x) (hdir : |(1 - exponent) * Real.log x| > 1e-8) :
    h_integral exponent x = (x ^ (1 - exponent) - 1) / (1 - exponent) := by
  have _ := hq
  have ha : (1 - exponent) ≠ 0 := sub_ne_zero.mpr (Ne.symm hq1)
  have hdir' : |(1.0 - exponent) * Real.log x| > 1e-8 := by
    norm_num at hdir ⊢
    exact hdir
  have hl : Real.log x ≠ 0 := by
    intro h0
    rw [h0, mul_zero, abs_zero] at hdir
    norm_num at hdir
  have e1 : (1.0 : ℝ) - exponent = 1 - exponent := by norm_num
  show helper2 ((1.0 - exponent) * Real.log x) * Real.log x = _
  rw [helper2, if_pos hdir', e1, Real.rpow_def_of_pos hx, mul_comm (Real.log x) (1 - exponent)]
  field_simp
  ring

/-- Witness of C18 at `exponent = 2`, `x = exp 1`: `h_integral = 1 - 1/e`. -/
theorem C18_h_integral_closed_form_witness :
    h_integral 2 (Real.exp 1) = ((Real.exp 1) ^ ((1 : ℝ) - 2) - 1) / (1 - 2) :=
  C18_h_integral_closed_form 2 (Real.exp 1) (by norm_num) (by norm_num) (Real.exp_pos 1)
    (by rw [Real.log_exp]; norm_num)

/-- C19: the cap `t = -1` of `h_integral_inv` is never taken on the arguments the sampler
feeds it.  For `num_elements ≥ 1` and `exponent > 0`, every `u` in
`(h_integral_x1_, h_integral_num_elements_]` has `u * (1 - exponent) > -1`, and so has the
constructor's argument `h_integral(2.5) - h(2)`; the capped `t` is then `t` itself and
`1 + t` is strictly positive. -/
theorem C19_cap_not_taken (num_elements : Int) (exponent : ℝ) (hn : 1 ≤ num_elements)
    (hq : 0 < exponent) :
    ∃ z, ZipfDistribution.new num_elements exponent = .ok z ∧
      (∀ u : ℝ, z.h_integral_x1_ < u → u ≤ z.h_integral_num_elements_ →
        u * (1 - z.exponent_) > -1 ∧
        (if u * (1.0 - z.exponent_) < -1.0 then -1.0 else u * (1.0 - z.exponent_))
          = u * (1.0 - z.exponent_) ∧
        0 < 1 + u * (1.0 - z.exponent_)) ∧
      (h_integral z.exponent_ 2.5 - h z.exponent_ 2) * (1 - z.exponent_) > -1 ∧
      (if (h_integral z.exponent_ 2.5 - h z.exponent_ 2) * (1.0 - z.exponent_) < -1.0
        then -1.0 else (h_integral z.exponent_ 2.5 - h z.exponent_ 2) * (1.0 - z.exponent_))
        = (h_integral z.exponent_ 2.5 - h z.exponent_ 2) * (1.0 - z.exponent_) ∧
      0 < 1 + (h_integral z.exponent_ 2.5 - h z.exponent_ 2) * (1.0 - z.exponent_) := by
  have h_eq (q x : ℝ) : h q x = Real.exp (-q * Real.log x) := by
    clear * - q x
    exact rfl
  have h_le_one (q x : ℝ) (hq : 0 ≤ q) (hx : 1 ≤ x) : h q x ≤ 1 := by
    clear * - q x hq hx h_eq
    rw [h_eq, ← Real.exp_zero]
    apply Real.exp_le_exp.mpr
    have := Real.log_nonneg hx
    nlinarith
  have h_pos (q x : ℝ) : 0 < h q x := by
    clear * - q x
    exact Real.exp_pos _
  -- The argument `h_integral(2.5) - h(2)` of the constructor is in the domain of the
  -- inverse.
  have s_argument_domain (q : ℝ) (hq : 0 < q) :
      -1 < (h_integral q (5 / 2) - h q 2) * (1 - q) := by
    clear * - q hq h_pos h_le_one
    have h0 := h_integral_nonneg q (5 / 2) (by norm_num)
    have h1 := h_le_one q 2 hq.le (by norm_num)
    have h2 := h_pos q 2
    have h3 := h_integral_le_exact q (5 / 2) (by norm_num)
    exact inv_domain q _ (5 / 2) hq (by linarith) (by linarith)
  have e1 : (1.0 : ℝ) - exponent = 1 - exponent := by norm_num
  have e2 : (-1.0 : ℝ) = -1 := by norm_num
  have e3 : (2.5 : ℝ) = 5 / 2 := by norm_num
  have hn' : (1:ℝ) ≤ (num_elements : ℝ) := by exact_mod_cast hn
  refine ⟨_, new_ok num_elements exponent (by omega) hq, ?_, ?_⟩
  · intro u hu1 hu2
    have hu1' : h_integral exponent 1.5 - 1 < u := hu1
    have hu2' : u ≤ h_integral exponent ((num_elements : ℝ) + 0.5) := hu2
    have h0 := h_integral_nonneg exponent 1.5 (by norm_num)
    have h3 := h_integral_le_exact exponent ((num_elements : ℝ) + 0.5)
      (by norm_num; linarith)
    have key : -1 < u * (1 - exponent) :=
      inv_domain exponent u _ hq (by linarith) (by linarith)
    show u * (1 - exponent) > -1 ∧
      (if u * (1.0 - exponent) < -1.0 then -1.0 else u * (1.0 - exponent))
        = u * (1.0 - exponent) ∧ 0 < 1 + u * (1.0 - exponent)
    rw [e1, e2]
    exact ⟨key, if_neg (not_lt.mpr key.le), by linarith⟩
  · have key := s_argument_domain exponent hq
    show (h_integral exponent 2.5 - h exponent 2) * (1 - exponent) > -1 ∧
      (if (h_integral exponent 2.5 - h exponent 2) * (1.0 - exponent) < -1.0
        then -1.0 else (h_integral exponent 2.5 - h exponent 2) * (1.0 - exponent))
        = (h_integral exponent 2.5 - h exponent 2) * (1.0 - exponent) ∧
      0 < 1 + (h_integral exponent 2.5 - h exponent 2) * (1.0 - exponent)
    rw [e1, e2, e3]
    exact ⟨key, if_neg (not_lt.mpr key.le), by linarith⟩

/-- Witness of C19 at `num_elements = 100`, `exponent = 3`. -/
theorem C19_cap_not_taken_witness :
    ∃ z, ZipfDistribution.new 100 3 = .ok z ∧
      (∀ u : ℝ, z.h_integral_x1_ < u → u ≤ z.h_integral_num_elements_ →
        u * (1 - z.exponent_) > -1 ∧
        (if u * (1.0 - z.exponent_) < -1.0 then -1.0 else u * (1.0 - z.exponent_))
          = u * (1.0 - z.exponent_) ∧
        0 < 1 + u * (1.0 - z.exponent_)) ∧
      (h_integral z.exponent_ 2.5 - h z.exponent_ 2) * (1 - z.exponent_) > -1 ∧
      (if (h_integral z.exponent_ 2.5 - h z.exponent_ 2) * (1.0 - z.exponent_) < -1.0
        then -1.0 else (h_integral z.exponent_ 2.5 - h z.exponent_ 2) * (1.0 - z.exponent_))
        = (h_integral z.exponent_ 2.5 - h z.exponent_ 2) * (1.0 - z.exponent_) ∧
      0 < 1 + (h_integral z.exponent_ 2.5 - h z.exponent_ 2) * (1.0 - z.exponent_) :=
  C19_cap_not_taken 100 3 (by norm_num) (by norm_num)

/-- C20: the threshold `s_ = 2 - h_integral_inv(h_integral(2.5) - h(2))` satisfies
`0 < s_ ≤ 1/2` for every `exponent > 0`; hence a candidate with `k - x ≤ 0` passes the
left test `k - x <= s_` of the acceptance test, and the iteration returns it. -/
theorem C20_threshold_range (num_elements : Int) (exponent : ℝ) (hn : 1 ≤ num_elements)
    (hq : 0 < exponent) :
    ∃ z, ZipfDistribution.new num_elements exponent = .ok z ∧
      z.s_ = 2 - h_integral_inv exponent (h_integral exponent 2.5 - h exponent 2) ∧
      0 < z.s_ ∧ z.s_ ≤ 1 / 2 ∧
      (∀ (u x : ℝ) (k : Int), (k : ℝ) - x ≤ 0 → (k : ℝ) - x ≤ z.s_ ∧ z.accepts u x k) ∧
      ∀ r : ℝ, (z.k_of r : ℝ) - h_integral_inv z.exponent_ (z.u_of r) ≤ 0 →
        z.iteration r = some (z.k_of r) := by
  have h_eq (q x : ℝ) : h q x = Real.exp (-q * Real.log x) := by
    clear * - q x
    exact rfl
  have h_le_one (q x : ℝ) (hq : 0 ≤ q) (hx : 1 ≤ x) : h q x ≤ 1 := by
    clear * - q x hq hx h_eq
    rw [h_eq, ← Real.exp_zero]
    apply Real.exp_le_exp.mpr
    have := Real.log_nonneg hx
    nlinarith
  have h_pos (q x : ℝ) : 0 < h q x := by
    clear * - q x
    exact Real.exp_pos _
  have iteration_eq_some_iff (z : ZipfDistribution) (r : ℝ) (m : Int) :
      z.iteration r = some m ↔
        z.k_of r = m ∧ z.accepts (z.u_of r) (h_integral_inv z.exponent_ (z.u_of r)) (z.k_of r) := by
    clear * - z r m
    unfold ZipfDistribution.iteration
    simp only [ZipfDistribution.k_of]
    split_ifs with hacc
    · simp [hacc]
    · simp [hacc]
  -- At or above `H(y)`, `y ≥ 3/2`, the code's inverse is at least `y`, at exponent 1 and
  -- away from it.
  have le_h_integral_inv (q u y x0 : ℝ) (hq : 0 < q) (hreg : q = 1 ∨ 1e-7 ≤ |1 - q|)
      (hy : 3 / 2 ≤ y) (hhi : u ≤ h_integral_exact q x0) (hu : h_integral_exact q y ≤ u) :
      y ≤ h_integral_inv q u := by
    clear * - q u y x0 hq hreg hy hhi hu
    have hmono : h_integral_exact q (3 / 2) ≤ h_integral_exact q y := by
      rcases eq_or_lt_of_le hy with h | h
      · rw [h]
      · exact (h_integral_exact_strictMono q _ _ hq.le (by norm_num) h).le
    have h0 := h_integral_exact_nonneg q (3 / 2) (by norm_num)
    rw [regime_h_integral_inv q u x0 hq hreg (hmono.trans hu) hhi]
    exact (le_exact_inv_iff q u y x0 hq (by linarith) (by linarith) hhi).mpr hu
  -- The candidate `2 - s_` is at least `3/2`.
  have s_candidate_ge (q : ℝ) (hq : 0 < q) :
      3 / 2 ≤ h_integral_inv q (h_integral q (5 / 2) - h q 2) := by
    clear * - q hq le_h_integral_inv h_pos
    by_cases hreg : q = 1 ∨ 1e-7 ≤ |1 - q|
    · have hHH := h_le_integral q 2 hq.le (by norm_num)
      norm_num at hHH
      have h2 := h_pos q 2
      rw [regime_h_integral q (5 / 2) hreg (by norm_num)]
      exact le_h_integral_inv q _ (3 / 2) (5 / 2) hq hreg (le_refl _) (by linarith)
        (by linarith)
    · push_neg at hreg
      have := code_candidate_two_ge q hreg.2.le
      linarith
  -- The candidate `2 - s_` is below 2.
  have s_candidate_lt_two (q : ℝ) (hq : 0 < q) :
      h_integral_inv q (h_integral q (5 / 2) - h q 2) < 2 := by
    clear * - q hq h_pos h_le_one
    -- The constructor's argument of `h_integral_inv`, `h_integral(2.5) - h(2)`, is below the
    -- documented `H(2)`, by at least `h(2) / 2`.
    have s_argument_lt (q : ℝ) (hq : 0 < q) :
        h_integral q (5 / 2) - h q 2 ≤ h_integral_exact q 2 - h q 2 / 2 := by
      clear * - q hq
      have h1 := h_integral_le_exact q (5 / 2) (by norm_num)
      have h2 := (h_integral_exact_sub_bounds q 2 (5 / 2) hq.le (by norm_num) (by norm_num)).2
      linarith
    have h0 := h_integral_nonneg q (5 / 2) (by norm_num)
    have h1 := h_le_one q 2 hq.le (by norm_num)
    have h2 := h_pos q 2
    have h3 := h_integral_le_exact q (5 / 2) (by norm_num)
    have h4 := s_argument_lt q hq
    exact h_integral_inv_lt q _ 2 (5 / 2) hq (by norm_num) (by linarith) (by linarith)
      (by linarith)
  have e3 : (2.5 : ℝ) = 5 / 2 := by norm_num
  have hlt := s_candidate_lt_two exponent hq
  have hge := s_candidate_ge exponent hq
  have hs0 : 0 < 2 - h_integral_inv exponent (h_integral exponent 2.5 - h exponent 2) := by
    rw [e3]; linarith
  have hs1 : 2 - h_integral_inv exponent (h_integral exponent 2.5 - h exponent 2) ≤ 1 / 2 := by
    rw [e3]; linarith
  refine ⟨_, new_ok num_elements exponent (by omega) hq, rfl, hs0, hs1, ?_, ?_⟩
  · intro u x k hk
    have : (k : ℝ) - x ≤
        2 - h_integral_inv exponent (h_integral exponent 2.5 - h exponent 2) := by linarith
    exact ⟨this, Or.inl this⟩
  · intro r hk
    rw [iteration_eq_some_iff]
    refine ⟨rfl, Or.inl ?_⟩
    exact hk.trans hs0.le

/-- Witness of C20 at `num_elements = 10`, `exponent = 1`, where
`s_ = 2 - exp (log 2.5 - 1/2)`. -/
theorem C20_threshold_range_witness :
    ∃ z, ZipfDistribution.new 10 1 = .ok z ∧
      z.s_ = 2 - h_integral_inv 1 (h_integral 1 2.5 - h 1 2) ∧
      0 < z.s_ ∧ z.s_ ≤ 1 / 2 ∧
      (∀ (u x : ℝ) (k : Int), (k : ℝ) - x ≤ 0 → (k : ℝ) - x ≤ z.s_ ∧ z.accepts u x k) ∧
      ∀ r : ℝ, (z.k_of r : ℝ) - h_integral_inv z.exponent_ (z.u_of r) ≤ 0 →
        z.iteration r = some (z.k_of r) :=
  C20_threshold_range 10 1 (by norm_num) (by norm_num)

/-- C14, amended: for `num_elements ≥ 1`, `exponent > 0` and a draw `r` in `[0, 1)`, the
candidate `round(h_integral_inv(u))` before the limit lies in `[1, num_elements + 1]`;
for `r > 0` it lies in `[1, num_elements]` and the limit leaves it unchanged; at `r = 0`
(with the exponent equal to 1 or at least `1e-7` away from 1) it is `num_elements + 1`,
which the limit takes to `num_elements`. -/
theorem C14_unclamped_candidate (num_elements : Int) (exponent r : ℝ) (hn : 1 ≤ num_elements)
    (hq : 0 < exponent) (hr0 : 0 ≤ r) (hr1 : r < 1) :
    ∃ z, ZipfDistribution.new num_elements exponent = .ok z ∧
      1 ≤ round_to_int (h_integral_inv z.exponent_ (z.u_of r)) ∧
      round_to_int (h_integral_inv z.exponent_ (z.u_of r)) ≤ num_elements + 1 ∧
      (0 < r →
        round_to_int (h_integral_inv z.exponent_ (z.u_of r)) ≤ num_elements ∧
        z.limit (round_to_int (h_integral_inv z.exponent_ (z.u_of r))) =
          round_to_int (h_integral_inv z.exponent_ (z.u_of r))) ∧
      (r = 0 → (exponent = 1 ∨ 1e-7 ≤ |1 - exponent|) →
        round_to_int (h_integral_inv z.exponent_ (z.u_of r)) = num_elements + 1 ∧
        z.limit (round_to_int (h_integral_inv z.exponent_ (z.u_of r))) = num_elements) := by
  have exp_ratio_sub_one_abs (y : ℝ) (hy : |y| ≤ 1) : |exp_ratio y - 1| ≤ |y| := by
    clear * - y hy
    unfold exp_ratio
    split_ifs with h0
    · simp
    · have hb := Real.abs_exp_sub_one_sub_id_le hy
      have hpos : 0 < |y| := abs_pos.mpr h0
      have e : (Real.exp y - 1) / y - 1 = (Real.exp y - 1 - y) / y := by field_simp
      rw [e, abs_div, div_le_iff₀ hpos]
      calc |Real.exp y - 1 - y| ≤ y ^ 2 := hb
        _ = |y| * |y| := by rw [abs_mul_abs_self]; ring
  have helper2_ge (y : ℝ) (hy : |y| ≤ 1) : 1 - |y| ≤ helper2 y := by
    clear * - y hy exp_ratio_sub_one_abs
    by_cases hdir : |y| > 1e-8
    · rw [helper2_direct y hdir]
      have := (abs_le.mp (exp_ratio_sub_one_abs y hy)).1
      linarith
    · have hy' := not_lt.mp hdir
      rw [helper2_series y hy']
      obtain ⟨hlo, hhi⟩ := abs_le.mp hy
      have habs : -|y| ≤ y := neg_abs_le y
      have h2 : 0 ≤ y ^ 2 := sq_nonneg y
      have h3 : -(|y|) ≤ y ^ 3 := by
        have : |y ^ 3| ≤ |y| := by
          rw [abs_pow]
          calc |y| ^ 3 = |y| * |y| ^ 2 := by ring
            _ ≤ |y| * 1 := by
              apply mul_le_mul_of_nonneg_left _ (abs_nonneg y)
              exact pow_le_one₀ (abs_nonneg y) hy
            _ = |y| := mul_one _
        exact (abs_le.mp this).1
      linarith [abs_nonneg y]
  have h_one (q : ℝ) : h q 1 = 1 := by
    clear * - q
    simp [h]
  -- At the draw `r = 0`, at exponent 1 and away from it, the candidate before the limit is
  -- `num_elements_ + 1`.
  have unclamped_at_zero (n : Int) (q : ℝ) (hn : 1 ≤ n) (hq : 0 < q)
      (hreg : q = 1 ∨ 1e-7 ≤ |1 - q|) (z : ZipfDistribution)
      (hz : z = { num_elements_ := n
                  exponent_ := q
                  h_integral_x1_ := h_integral q 1.5 - 1
                  h_integral_num_elements_ := h_integral q ((n : ℝ) + 0.5)
                  s_ := 2 - h_integral_inv q (h_integral q 2.5 - h q 2) }) :
      h_integral_inv z.exponent_ (z.u_of 0) = (n : ℝ) + 1 / 2 ∧
        round_to_int (h_integral_inv z.exponent_ (z.u_of 0)) = n + 1 := by
    clear * - n q hn hq hreg z hz
    have round_to_int_of_pos (x : ℝ) (hx : 0 ≤ x) : round_to_int x = ⌊x + 1 / 2⌋ := by
      clear * - x hx
      rw [round_to_int, if_pos hx]
    obtain ⟨hnum, hexp, hx1, hnumv, _⟩ := new_fields n q z hz
    have hn' : (1:ℝ) ≤ (n : ℝ) := by exact_mod_cast hn
    have hu : z.u_of 0 = h_integral_exact q ((n : ℝ) + 1 / 2) := by
      rw [ZipfDistribution.u_of, hnumv, zero_mul, add_zero,
        regime_h_integral q _ hreg (by linarith)]
    have hx : h_integral_inv z.exponent_ (z.u_of 0) = (n : ℝ) + 1 / 2 := by
      rw [hexp, hu, regime_h_integral_inv q _ ((n : ℝ) + 1 / 2) hq hreg ?_ (le_refl _),
        h_integral_inv_exact_h_integral_exact q _ (by linarith)]
      rcases eq_or_lt_of_le hn' with h1 | h1
      · rw [← h1]; norm_num
      · exact (h_integral_exact_strictMono q _ _ hq.le (by norm_num) (by linarith)).le
    refine ⟨hx, ?_⟩
    rw [hx, round_to_int_of_pos _ (by linarith)]
    have : (n : ℝ) + 1 / 2 + 1 / 2 = ((n + 1 : Int) : ℝ) := by push_cast; ring
    rw [this, Int.floor_intCast]
  have h_integral_inv_mono (q u v : ℝ) (hu : -1 < u * (1 - q)) (hv : -1 < v * (1 - q))
      (huv : u ≤ v) : h_integral_inv q u ≤ h_integral_inv q v := by
    clear * - q u v hu hv huv
    rcases eq_or_lt_of_le huv with h | h
    · rw [h]
    · exact (h_integral_inv_strictMono q u v hu hv h).le
  -- The code's `h_integral_inv` never exceeds the documented inverse, on nonnegative
  -- arguments where the cap is not taken.
  have h_integral_inv_le_exact (q u : ℝ) (hu : 0 ≤ u) (hdom : -1 ≤ u * (1 - q)) :
      h_integral_inv q u ≤ h_integral_inv_exact q u := by
    clear * - q u hu hdom
    rw [h_integral_inv_eq q u hdom, h_integral_inv_exact]
    apply Real.exp_le_exp.mpr
    exact mul_le_mul_of_nonneg_right (helper1_le_log_ratio _) hu
  have h_integral_inv_zero (q : ℝ) : h_integral_inv q 0 = 1 := by
    clear * - q
    rw [h_integral_inv_eq q 0 (by norm_num)]
    simp
  have round_to_int_lt (x : ℝ) (hx : 0 ≤ x) (k : Int) :
      round_to_int x < k ↔ x < (k : ℝ) - 1 / 2 := by
    clear * - x hx k
    have round_to_int_of_pos (x : ℝ) (hx : 0 ≤ x) : round_to_int x = ⌊x + 1 / 2⌋ := by
      clear * - x hx
      rw [round_to_int, if_pos hx]
    rw [round_to_int_of_pos x hx, Int.floor_lt]
    constructor <;> intro h <;> linarith
  have le_round_to_int (x : ℝ) (hx : 0 ≤ x) (k : Int) :
      k ≤ round_to_int x ↔ (k : ℝ) - 1 / 2 ≤ x := by
    clear * - x hx k
    have round_to_int_of_pos (x : ℝ) (hx : 0 ≤ x) : round_to_int x = ⌊x + 1 / 2⌋ := by
      clear * - x hx
      rw [round_to_int, if_pos hx]
    rw [round_to_int_of_pos x hx, Int.le_floor]
    constructor <;> intro h <;> linarith
  -- Strict lower bound of `u` for draws below 1.
  have x1_lt_u_of (n : Int) (q r : ℝ) (hn : 1 ≤ n) (hq : 0 < q) (hr1 : r < 1)
      (z : ZipfDistribution)
      (hz : z = { num_elements_ := n
                  exponent_ := q
                  h_integral_x1_ := h_integral q 1.5 - 1
                  h_integral_num_elements_ := h_integral q ((n : ℝ) + 0.5)
                  s_ := 2 - h_integral_inv q (h_integral q 2.5 - h q 2) }) :
      z.h_integral_x1_ < z.u_of r ∧ z.h_integral_x1_ < z.h_integral_num_elements_ := by
    clear * - n q r hn hq hr1 z hz
    obtain ⟨_, _, hx1, hnum, _⟩ := new_fields n q z hz
    have hn' : (1:ℝ) ≤ (n : ℝ) := by exact_mod_cast hn
    have hlt := x1_lt_num_elements q ((n : ℝ) + 1 / 2) hq.le (by linarith)
    rw [ZipfDistribution.u_of, hx1, hnum]
    constructor
    · nlinarith
    · linarith
  have h_integral_inv_pos (q u : ℝ) : 0 < h_integral_inv q u := by
    clear * - q u
    exact Real.exp_pos _
  -- Range of the candidate before the limit to `[1, num_elements_]`.
  have unclamped_range (n : Int) (q r : ℝ) (hn : 1 ≤ n) (hq : 0 < q) (hr0 : 0 ≤ r)
      (hr1 : r < 1) (z : ZipfDistribution)
      (hz : z = { num_elements_ := n
                  exponent_ := q
                  h_integral_x1_ := h_integral q 1.5 - 1
                  h_integral_num_elements_ := h_integral q ((n : ℝ) + 0.5)
                  s_ := 2 - h_integral_inv q (h_integral q 2.5 - h q 2) }) :
      1 ≤ round_to_int (h_integral_inv z.exponent_ (z.u_of r)) ∧
        round_to_int (h_integral_inv z.exponent_ (z.u_of r)) ≤ n + 1 ∧
        (0 < r → round_to_int (h_integral_inv z.exponent_ (z.u_of r)) ≤ n) := by
    clear * - n q r hn hq hr0 hr1 z hz h_integral_inv_pos x1_lt_u_of le_round_to_int round_to_int_lt h_integral_inv_zero h_integral_inv_le_exact h_integral_inv_mono h_one helper2_ge exp_ratio_sub_one_abs
    -- Values of the documented integral function are in the domain of the inverse.
    have exact_value_domain (q y : ℝ) : -1 < h_integral_exact q y * (1 - q) := by
      clear * - q y
      have h1 := h_integral_exact_closed q y
      have h2 := Real.exp_pos ((1 - q) * Real.log y)
      linarith
    -- The inverse of the code maps `h_integral y` to at most `y`, for `y ≥ 1`.
    have h_integral_inv_h_integral_le (q y : ℝ) (hq : 0 < q) (hy : 1 ≤ y) :
        h_integral_inv q (h_integral q y) ≤ y := by
      clear * - q y hq hy exact_value_domain h_integral_inv_le_exact h_integral_inv_mono
      have h0 := h_integral_nonneg q y hy
      have h1 := h_integral_le_exact q y hy
      have hd1 := inv_domain q (h_integral q y) y hq (by linarith) h1
      have hd2 := exact_value_domain q y
      have h2 := h_integral_inv_mono q _ _ hd1 hd2 h1
      have h3 := h_integral_inv_le_exact q (h_integral_exact q y) (by linarith) hd2.le
      rw [h_integral_inv_exact_h_integral_exact q y (by linarith)] at h3
      linarith
    -- The inverse of the code maps the whole range of `u` to values of at least `1/2`.
    have half_le_h_integral_inv (q u x0 : ℝ) (hq : 0 < q) (hlo : h_integral q (3 / 2) - 1 ≤ u)
        (hhi : u ≤ h_integral_exact q x0) : 1 / 2 ≤ h_integral_inv q u := by
      clear * - q u x0 hq hlo hhi exact_value_domain h_integral_inv_zero h_integral_inv_mono h_one helper2_ge exp_ratio_sub_one_abs
      -- The left end of the range of `u` is at or above `H(1/2)`.
      have exact_half_le_x1 (q : ℝ) (hq : 0 < q) :
          h_integral_exact q (1 / 2) ≤ h_integral q (3 / 2) - 1 := by
        clear * - q hq h_one helper2_ge exp_ratio_sub_one_abs
        by_cases hreg : q = 1 ∨ 1e-7 ≤ |1 - q|
        · rw [regime_h_integral q (3 / 2) hreg (le_refl _)]
          have hHH := h_le_integral q 1 hq.le (by norm_num)
          rw [h_one] at hHH
          norm_num at hHH
          norm_num
          linarith
        · push_neg at hreg
          have hnear : |1 - q| ≤ 1e-7 := hreg.2.le
          have hl2 : (0.6931471803 : ℝ) < Real.log 2 := Real.log_two_gt_d9
          have hl2' : Real.log 2 < 0.6931471808 := Real.log_two_lt_d9
          have hl3 := log_three_halves_ge
          have hl3' : Real.log (3 / 2) ≤ 1 / 2 := by
            have := Real.log_le_sub_one_of_pos (show (0:ℝ) < 3 / 2 by norm_num)
            linarith
          have hlh : Real.log (1 / 2) = -Real.log 2 := by
            rw [one_div, Real.log_inv]
          -- the documented value at 1/2
          have hy1 : |(1 - q) * Real.log (1 / 2)| ≤ 1e-7 := by
            rw [abs_mul, hlh, abs_neg, abs_of_pos (by linarith : (0:ℝ) < Real.log 2)]
            have := abs_nonneg (1 - q)
            nlinarith
          have he := exp_ratio_sub_one_abs ((1 - q) * Real.log (1 / 2))
            (hy1.trans (by norm_num))
          have he' := (abs_le.mp he).1
          have hx : h_integral_exact q (1 / 2) ≤ -(1 - 1e-7) * Real.log 2 := by
            rw [h_integral_exact, hlh]
            rw [hlh] at he' hy1
            have : 1 - 1e-7 ≤ exp_ratio ((1 - q) * -Real.log 2) := by linarith
            nlinarith
          -- the code's value at 3/2
          have hy2 : |(1 - q) * Real.log (3 / 2)| ≤ 1e-7 := by
            rw [abs_mul, abs_of_pos (by linarith : (0:ℝ) < Real.log (3 / 2))]
            have := abs_nonneg (1 - q)
            nlinarith
          have hh := helper2_ge ((1 - q) * Real.log (3 / 2)) (hy2.trans (by norm_num))
          have hc : (1 - 1e-7) * Real.log (3 / 2) ≤ h_integral q (3 / 2) := by
            rw [h_integral_eq]
            have : 1 - 1e-7 ≤ helper2 ((1 - q) * Real.log (3 / 2)) := by linarith
            nlinarith
          norm_num at hx hc hl2 ⊢
          nlinarith
      -- For arguments `u ≤ 0` the inverse of the code is at least the documented inverse.
      have h_integral_inv_ge_exact (q u : ℝ) (hu : u ≤ 0) (hdom : -1 ≤ u * (1 - q)) :
          h_integral_inv_exact q u ≤ h_integral_inv q u := by
        clear * - q u hu hdom
        rw [h_integral_inv_eq q u hdom, h_integral_inv_exact]
        apply Real.exp_le_exp.mpr
        exact mul_le_mul_of_nonpos_right (helper1_le_log_ratio _) hu
      -- Arguments at or above `H(y)` are mapped to at least `y` by the documented inverse, for
      -- every `y > 0`.
      have le_exact_inv_of_le (q u y : ℝ) (hy : 0 < y) (hdom : -1 < u * (1 - q))
          (hu : h_integral_exact q y ≤ u) : y ≤ h_integral_inv_exact q u := by
        clear * - q u y hy hdom hu exact_value_domain
        have h1 := h_integral_inv_exact_mono q _ u (exact_value_domain q y) hdom hu
        rwa [h_integral_inv_exact_h_integral_exact q y hy] at h1
      have h0 := h_integral_nonneg q (3 / 2) (by norm_num)
      have hdom := inv_domain q u x0 hq (by linarith) hhi
      rcases le_or_lt u 0 with hu | hu
      · have h1 := h_integral_inv_ge_exact q u hu hdom.le
        have h2 := le_exact_inv_of_le q u (1 / 2) (by norm_num) hdom
          ((exact_half_le_x1 q hq).trans hlo)
        linarith
      · have h1 := h_integral_inv_mono q 0 u (by norm_num) hdom hu.le
        rw [h_integral_inv_zero] at h1
        linarith
    obtain ⟨hnum, hexp, hx1, hnumv, _⟩ := new_fields n q z hz
    obtain ⟨hlo, hhi⟩ := u_of_bounds n q r hn hq hr0 hr1.le z hz
    have hn' : (1:ℝ) ≤ (n : ℝ) := by exact_mod_cast hn
    have hle := h_integral_le_exact q ((n : ℝ) + 1 / 2) (by linarith)
    have h0 := h_integral_nonneg q (3 / 2) (by norm_num)
    have hpos := (h_integral_inv_pos q (z.u_of r)).le
    rw [hexp]
    refine ⟨?_, ?_, ?_⟩
    · rw [le_round_to_int _ hpos]
      have := half_le_h_integral_inv q (z.u_of r) _ hq hlo (hhi.trans hle)
      push_cast
      linarith
    · have hd1 := inv_domain q (z.u_of r) _ hq (by linarith) (hhi.trans hle)
      have hd2 := inv_domain q (h_integral q ((n : ℝ) + 1 / 2)) _ hq
        (by have := h_integral_nonneg q ((n : ℝ) + 1 / 2) (by linarith); linarith) hle
      have h1 := h_integral_inv_mono q _ _ hd1 hd2 hhi
      have h2 := h_integral_inv_h_integral_le q ((n : ℝ) + 1 / 2) hq (by linarith)
      have h3 := (round_to_int_lt (h_integral_inv q (z.u_of r)) hpos (n + 2)).mpr
        (by push_cast; linarith)
      omega
    · intro hr
      have hT := (x1_lt_u_of n q r hn hq hr1 z hz).2
      have hu : z.u_of r < h_integral q ((n : ℝ) + 1 / 2) := by
        rw [ZipfDistribution.u_of, ← hnumv]
        nlinarith
      have h1 := h_integral_inv_lt q (z.u_of r) ((n : ℝ) + 1 / 2) _ hq (by linarith)
        (by linarith) (hhi.trans hle) (lt_of_lt_of_le hu hle)
      have h3 := (round_to_int_lt (h_integral_inv q (z.u_of r)) hpos (n + 1)).mpr
        (by push_cast; linarith)
      omega
  refine ⟨_, new_ok num_elements exponent (by omega) hq, ?_⟩
  obtain ⟨h1, h2, h3⟩ := unclamped_range num_elements exponent r hn hq hr0 hr1 _ rfl
  refine ⟨h1, h2, ?_, ?_⟩
  · intro hr
    refine ⟨h3 hr, ?_⟩
    rw [ZipfDistribution.limit, if_neg (by omega), if_neg (not_lt.mpr (h3 hr))]
  · intro hr hreg
    subst hr
    have h4 := (unclamped_at_zero num_elements exponent hn hq hreg _ rfl).2
    refine ⟨h4, ?_⟩
    rw [h4, ZipfDistribution.limit, if_neg (by omega), if_pos]
    show num_elements + 1 > num_elements
    omega

/-- Witness of C14 (amended) at `num_elements = 4`, `exponent = 2`, `r = 1/2`. -/
theorem C14_unclamped_candidate_witness :
    ∃ z, ZipfDistribution.new 4 2 = .ok z ∧
      1 ≤ round_to_int (h_integral_inv z.exponent_ (z.u_of (1 / 2))) ∧
      round_to_int (h_integral_inv z.exponent_ (z.u_of (1 / 2))) ≤ 4 ∧
      z.limit (round_to_int (h_integral_inv z.exponent_ (z.u_of (1 / 2)))) =
        round_to_int (h_integral_inv z.exponent_ (z.u_of (1 / 2))) := by
  obtain ⟨z, hz, h1, _, h3, _⟩ :=
    C14_unclamped_candidate 4 2 (1 / 2) (by norm_num) (by norm_num) (by norm_num)
      (by norm_num)
  exact ⟨z, hz, h1, (h3 (by norm_num)).1, (h3 (by norm_num)).2⟩

/-- C14, counterexample: with `num_elements = 1`, `exponent = 1` and the draw `r = 0` (which
is in `[0, 1)`), `u = log 1.5`, `x = h_integral_inv(u) = 1.5` and `std::round` gives the
candidate 2, outside `[1, 1]`; the limit changes it to 1. -/
theorem C14_counterexample :
    ∃ z, ZipfDistribution.new 1 1 = .ok z ∧
      h_integral_inv z.exponent_ (z.u_of 0) = 3 / 2 ∧
      round_to_int (h_integral_inv z.exponent_ (z.u_of 0)) = 2 ∧
      ¬ (round_to_int (h_integral_inv z.exponent_ (z.u_of 0)) ≤ z.num_elements_) ∧
      z.limit (round_to_int (h_integral_inv z.exponent_ (z.u_of 0))) = 1 ∧
      z.limit (round_to_int (h_integral_inv z.exponent_ (z.u_of 0))) ≠
        round_to_int (h_integral_inv z.exponent_ (z.u_of 0)) := by
  -- At the draw `r = 0`, at exponent 1 and away from it, the candidate before the limit is
  -- `num_elements_ + 1`.
  have unclamped_at_zero (n : Int) (q : ℝ) (hn : 1 ≤ n) (hq : 0 < q)
      (hreg : q = 1 ∨ 1e-7 ≤ |1 - q|) (z : ZipfDistribution)
      (hz : z = { num_elements_ := n
                  exponent_ := q
                  h_integral_x1_ := h_integral q 1.5 - 1
                  h_integral_num_elements_ := h_integral q ((n : ℝ) + 0.5)
                  s_ := 2 - h_integral_inv q (h_integral q 2.5 - h q 2) }) :
      h_integral_inv z.exponent_ (z.u_of 0) = (n : ℝ) + 1 / 2 ∧
        round_to_int (h_integral_inv z.exponent_ (z.u_of 0)) = n + 1 := by
    clear * - n q hn hq hreg z hz
    have round_to_int_of_pos (x : ℝ) (hx : 0 ≤ x) : round_to_int x = ⌊x + 1 / 2⌋ := by
      clear * - x hx
      rw [round_to_int, if_pos hx]
    obtain ⟨hnum, hexp, hx1, hnumv, _⟩ := new_fields n q z hz
    have hn' : (1:ℝ) ≤ (n : ℝ) := by exact_mod_cast hn
    have hu : z.u_of 0 = h_integral_exact q ((n : ℝ) + 1 / 2) := by
      rw [ZipfDistribution.u_of, hnumv, zero_mul, add_zero,
        regime_h_integral q _ hreg (by linarith)]
    have hx : h_integral_inv z.exponent_ (z.u_of 0) = (n : ℝ) + 1 / 2 := by
      rw [hexp, hu, regime_h_integral_inv q _ ((n : ℝ) + 1 / 2) hq hreg ?_ (le_refl _),
        h_integral_inv_exact_h_integral_exact q _ (by linarith)]
      rcases eq_or_lt_of_le hn' with h1 | h1
      · rw [← h1]; norm_num
      · exact (h_integral_exact_strictMono q _ _ hq.le (by norm_num) (by linarith)).le
    refine ⟨hx, ?_⟩
    rw [hx, round_to_int_of_pos _ (by linarith)]
    have : (n : ℝ) + 1 / 2 + 1 / 2 = ((n + 1 : Int) : ℝ) := by push_cast; ring
    rw [this, Int.floor_intCast]
  refine ⟨_, new_ok 1 1 (by norm_num) (by norm_num), ?_⟩
  obtain ⟨hx, hk⟩ := unclamped_at_zero 1 1 (le_refl _) (by norm_num) (Or.inl rfl) _ rfl
  have hx' : h_integral_inv 1 (ZipfDistribution.u_of
      { num_elements_ := 1
        exponent_ := 1
        h_integral_x1_ := h_integral 1 1.5 - 1
        h_integral_num_elements_ := h_integral 1 (((1 : Int) : ℝ) + 0.5)
        s_ := 2 - h_integral_inv 1 (h_integral 1 2.5 - h 1 2) } 0) = 3 / 2 := by
    rw [show (3 / 2 : ℝ) = ((1 : Int) : ℝ) + 1 / 2 by norm_num]
    exact hx
  have hk' : round_to_int (h_integral_inv 1 (ZipfDistribution.u_of
      { num_elements_ := 1
        exponent_ := 1
        h_integral_x1_ := h_integral 1 1.5 - 1
        h_integral_num_elements_ := h_integral 1 (((1 : Int) : ℝ) + 0.5)
        s_ := 2 - h_integral_inv 1 (h_integral 1 2.5 - h 1 2) } 0)) = 2 := hk
  refine ⟨hx', hk', ?_, ?_, ?_⟩
  · show ¬ (round_to_int _ ≤ (1 : Int))
    rw [hk']
    norm_num
  · show ZipfDistribution.limit _ (round_to_int (h_integral_inv 1 _)) = 1
    rw [hk']
    rfl
  · show ZipfDistribution.limit _ (round_to_int (h_integral_inv 1 _)) ≠
      round_to_int (h_integral_inv 1 _)
    rw [hk']
    decide

/-- C17, amended: for `exponent > 0` and `x > 0`, `h x = x ^ (-exponent)`; the documented
integral function `((1 - q) ln x ↦ (e^y - 1) / y) * ln x` is differentiable at `x` with
derivative `h x`; and so is `h_integral` of the code wherever `helper2` takes its direct
formula (`|(1 - exponent) * ln x| > 1e-8`) and at `exponent = 1`.  Strictly inside the
window of the series the derivative of `h_integral` is the cubic Taylor polynomial of the
exponential at `y = (1 - exponent) * ln x`, divided by `x`. -/
theorem C17_antiderivative (exponent x : ℝ) (hq : 0 < exponent) (hx : 0 < x) :
    h exponent x = x ^ (-exponent) ∧
      HasDerivAt (h_integral_exact exponent) (h exponent x) x ∧
      ((exponent = 1 ∨ |(1 - exponent) * Real.log x| > 1e-8) →
        HasDerivAt (h_integral exponent) (h exponent x) x) ∧
      (|(1 - exponent) * Real.log x| < 1e-8 →
        HasDerivAt (h_integral exponent)
          ((1 + (1 - exponent) * Real.log x + ((1 - exponent) * Real.log x) ^ 2 / 2 +
            ((1 - exponent) * Real.log x) ^ 3 / 6) / x) x) := by
  have h_eq (q x : ℝ) : h q x = Real.exp (-q * Real.log x) := by
    clear * - q x
    exact rfl
  -- Inside the window of the series of `helper2`, the derivative of `h_integral` is the
  -- cubic Taylor polynomial of the exponential at `(1 - q) ln x`, divided by `x`.
  have h_integral_hasDerivAt_series (q x : ℝ) (hx : 0 < x)
      (hser : |(1 - q) * Real.log x| < 1e-8) :
      HasDerivAt (h_integral q)
        ((1 + (1 - q) * Real.log x + ((1 - q) * Real.log x) ^ 2 / 2 +
          ((1 - q) * Real.log x) ^ 3 / 6) / x) x := by
    clear * - q x hx hser
    have hc : ContinuousAt (fun x' => |(1 - q) * Real.log x'|) x :=
      (continuousAt_const.mul (Real.continuousAt_log hx.ne')).abs
    have hev0 := Filter.Tendsto.eventually hc (gt_mem_nhds hser)
    have hev : h_integral q =ᶠ[nhds x] fun x' =>
        (1 + ((1 - q) * Real.log x') / 2 + ((1 - q) * Real.log x') ^ 2 / 6 +
          ((1 - q) * Real.log x') ^ 3 / 24) * Real.log x' := by
      filter_upwards [hev0] with x' hx'
      rw [h_integral_eq, helper2_series _ hx'.le]
    have hl := Real.hasDerivAt_log hx.ne'
    have hy : HasDerivAt (fun x' => (1 - q) * Real.log x') ((1 - q) * x⁻¹) x :=
      hl.const_mul (1 - q)
    have hp := ((((hasDerivAt_const x (1:ℝ)).add (hy.div_const 2)).add
      ((hy.pow 2).div_const 6)).add ((hy.pow 3).div_const 24)).mul hl
    refine (hp.congr_of_eventuallyEq hev).congr_deriv ?_
    field_simp
    ring
  have h_integral_exact_at_one (x : ℝ) : h_integral_exact 1 x = Real.log x := by
    clear * - x
    simp [h_integral_exact, exp_ratio]
  have h_integral_at_one (x : ℝ) : h_integral 1 x = Real.log x := by
    clear * - x
    have helper2_zero : helper2 0 = 1 := by
      clear * -
      norm_num [helper2]
    rw [h_integral_eq]
    simp [helper2_zero]
  have h_eq_rpow (q m : ℝ) (hm : 0 < m) : h q m = m ^ (-q) := by
    clear * - q m hm h_eq
    rw [h_eq, Real.rpow_def_of_pos hm]
    ring_nf
  -- At exponent 1, `h_integral` is the logarithm and has the derivative `h x`.
  have h_integral_hasDerivAt_one (x : ℝ) (hx : 0 < x) :
      HasDerivAt (h_integral 1) (h 1 x) x := by
    clear * - x hx h_integral_at_one h_integral_exact_at_one
    have e : h_integral 1 = h_integral_exact 1 := by
      funext y
      rw [h_integral_at_one, h_integral_exact_at_one]
    rw [e]
    exact h_integral_exact_hasDerivAt 1 x hx
  -- Where `helper2` takes the direct formula, `h_integral` has the derivative `h x`.
  have h_integral_hasDerivAt_direct (q x : ℝ) (hx : 0 < x)
      (hdir : |(1 - q) * Real.log x| > 1e-8) : HasDerivAt (h_integral q) (h q x) x := by
    clear * - q x hx hdir
    -- Where `helper2` takes the direct formula, `h_integral` agrees with the documented
    -- integral function on a neighbourhood.
    have h_integral_eventually_exact (q x : ℝ) (hx : 0 < x)
        (hdir : |(1 - q) * Real.log x| > 1e-8) :
        h_integral q =ᶠ[nhds x] h_integral_exact q := by
      clear * - q x hx hdir
      have hc : ContinuousAt (fun x' => |(1 - q) * Real.log x'|) x :=
        (continuousAt_const.mul (Real.continuousAt_log hx.ne')).abs
      have hev := Filter.Tendsto.eventually hc (lt_mem_nhds hdir)
      filter_upwards [hev] with x' hx'
      rw [h_integral_eq, h_integral_exact, helper2_direct _ hx']
    exact (h_integral_exact_hasDerivAt q x hx).congr_of_eventuallyEq
        (h_integral_eventually_exact q x hx hdir)
  have _ := hq
  refine ⟨h_eq_rpow exponent x hx, h_integral_exact_hasDerivAt exponent x hx, ?_, ?_⟩
  · rintro (h1 | hdir)
    · subst h1
      exact h_integral_hasDerivAt_one x hx
    · exact h_integral_hasDerivAt_direct exponent x hx hdir
  · exact h_integral_hasDerivAt_series exponent x hx

/-- Witness of C17 (amended) at `exponent = 2`, `x = exp 1`, where the direct formula is
taken. -/
theorem C17_antiderivative_witness :
    h 2 (Real.exp 1) = (Real.exp 1) ^ (-2 : ℝ) ∧
      HasDerivAt (h_integral_exact 2) (h 2 (Real.exp 1)) (Real.exp 1) ∧
      HasDerivAt (h_integral 2) (h 2 (Real.exp 1)) (Real.exp 1) := by
  obtain ⟨h1, h2, h3, _⟩ := C17_antiderivative 2 (Real.exp 1) (by norm_num) (Real.exp_pos 1)
  exact ⟨h1, h2, h3 (Or.inr (by rw [Real.log_exp]; norm_num))⟩

/-- C17, counterexample: at `exponent = 2` and `x = exp (-1e-9)` the argument of `helper2`
is `1e-9`, inside the window of the series; `h_integral` is differentiable there with
derivative `(1 + y + y^2/2 + y^3/6) / x` at `y = 1e-9`, which is strictly less than
`h x`, so `h x` is not the derivative of `h_integral` at `x`. -/
theorem C17_counterexample :
    (0:ℝ) < 2 ∧ 0 < Real.exp (-1e-9) ∧
      HasDerivAt (h_integral 2)
        ((1 + 1e-9 + (1e-9 : ℝ) ^ 2 / 2 + (1e-9 : ℝ) ^ 3 / 6) / Real.exp (-1e-9))
        (Real.exp (-1e-9)) ∧
      (1 + 1e-9 + (1e-9 : ℝ) ^ 2 / 2 + (1e-9 : ℝ) ^ 3 / 6) / Real.exp (-1e-9) <
        h 2 (Real.exp (-1e-9)) ∧
      ¬ HasDerivAt (h_integral 2) (h 2 (Real.exp (-1e-9))) (Real.exp (-1e-9)) := by
  have h_eq (q x : ℝ) : h q x = Real.exp (-q * Real.log x) := by
    clear * - q x
    exact rfl
  -- Inside the window of the series of `helper2`, the derivative of `h_integral` is the
  -- cubic Taylor polynomial of the exponential at `(1 - q) ln x`, divided by `x`.
  have h_integral_hasDerivAt_series (q x : ℝ) (hx : 0 < x)
      (hser : |(1 - q) * Real.log x| < 1e-8) :
      HasDerivAt (h_integral q)
        ((1 + (1 - q) * Real.log x + ((1 - q) * Real.log x) ^ 2 / 2 +
          ((1 - q) * Real.log x) ^ 3 / 6) / x) x := by
    clear * - q x hx hser
    have hc : ContinuousAt (fun x' => |(1 - q) * Real.log x'|) x :=
      (continuousAt_const.mul (Real.continuousAt_log hx.ne')).abs
    have hev0 := Filter.Tendsto.eventually hc (gt_mem_nhds hser)
    have hev : h_integral q =ᶠ[nhds x] fun x' =>
        (1 + ((1 - q) * Real.log x') / 2 + ((1 - q) * Real.log x') ^ 2 / 6 +
          ((1 - q) * Real.log x') ^ 3 / 24) * Real.log x' := by
      filter_upwards [hev0] with x' hx'
      rw [h_integral_eq, helper2_series _ hx'.le]
    have hl := Real.hasDerivAt_log hx.ne'
    have hy : HasDerivAt (fun x' => (1 - q) * Real.log x') ((1 - q) * x⁻¹) x :=
      hl.const_mul (1 - q)
    have hp := ((((hasDerivAt_const x (1:ℝ)).add (hy.div_const 2)).add
      ((hy.pow 2).div_const 6)).add ((hy.pow 3).div_const 24)).mul hl
    refine (hp.congr_of_eventuallyEq hev).congr_deriv ?_
    field_simp
    ring
  have exp_taylor_le (y : ℝ) (hy : 0 ≤ y) :
      1 + y + y ^ 2 / 2 + y ^ 3 / 6 + y ^ 4 / 24 ≤ Real.exp y := by
    clear * - y hy
    have h := exp_taylor_antitone hy
    simp only [neg_zero, Real.exp_zero] at h
    norm_num at h
    rw [Real.exp_neg] at h
    have he := Real.exp_pos y
    rwa [← div_eq_mul_inv, div_le_one he] at h
  -- The value `h x = x ^ (-q)` written around exponent 1.
  have h_eq_near (q x : ℝ) (hx : 0 < x) : h q x = Real.exp ((1 - q) * Real.log x) / x := by
    clear * - q x hx h_eq
    rw [h_eq, show -q * Real.log x = (1 - q) * Real.log x - Real.log x by ring, Real.exp_sub,
      Real.exp_log hx]
  -- Inside the window of the series, away from its centre on the positive side, the
  -- derivative of `h_integral` is strictly below `h x`.
  have series_deriv_lt_h (q x : ℝ) (hx : 0 < x) (hy : 0 < (1 - q) * Real.log x) :
      (1 + (1 - q) * Real.log x + ((1 - q) * Real.log x) ^ 2 / 2 +
        ((1 - q) * Real.log x) ^ 3 / 6) / x < h q x := by
    clear * - q x hx hy h_eq_near exp_taylor_le
    rw [h_eq_near q x hx]
    apply div_lt_div_of_pos_right _ hx
    have h1 := exp_taylor_le ((1 - q) * Real.log x) hy.le
    have h2 : 0 < ((1 - q) * Real.log x) ^ 4 / 24 := by positivity
    linarith
  have hx := Real.exp_pos (-1e-9)
  have hy : (1 - 2) * Real.log (Real.exp (-1e-9)) = (1e-9 : ℝ) := by
    rw [Real.log_exp]; norm_num
  have hd := h_integral_hasDerivAt_series 2 (Real.exp (-1e-9)) hx
    (by rw [hy]; norm_num [abs_of_pos])
  have hlt := series_deriv_lt_h 2 (Real.exp (-1e-9)) hx (by rw [hy]; norm_num)
  rw [hy] at hd hlt
  refine ⟨by norm_num, hx, hd, hlt, ?_⟩
  intro hh
  exact absurd (hd.unique hh) hlt.ne

/-- C15, amended: for `exponent > 0` and `x` in the domain `x * (1 - exponent) > -1`,
`y = h_integral_inv x` is strictly positive; the documented transforms (with the exact
`log(1 + t) / t` and `(e^y - 1) / y`) satisfy `H(Hinv(x)) = x`; and the code satisfies
`h_integral(h_integral_inv(x)) = x` at `exponent = 1`, at `x = 0`, and wherever both
helpers take their direct formulas (`|x * (1 - exponent)| > 1e-8` and
`|log(1 + x * (1 - exponent))| > 1e-8`). -/
theorem C15_inverse (exponent x : ℝ) (hq : 0 < exponent) (hdom : x * (1 - exponent) > -1) :
    0 < h_integral_inv exponent x ∧
      h_integral_exact exponent (h_integral_inv_exact exponent x) = x ∧
      ((exponent = 1 ∨ x = 0 ∨
          (|x * (1 - exponent)| > 1e-8 ∧ |Real.log (1 + x * (1 - exponent))| > 1e-8)) →
        h_integral exponent (h_integral_inv exponent x) = x) := by
  have log_ratio_mul (t : ℝ) : log_ratio t * t = Real.log (1 + t) := by
    clear * - t
    unfold log_ratio
    split_ifs with h0
    · simp [h0]
    · field_simp
  have helper1_direct (t : ℝ) (ht : |t| > 1e-8) : helper1 t = log_ratio t := by
    clear * - t ht
    have h0 : t ≠ 0 := by
      rintro rfl
      norm_num at ht
    rw [helper1, if_pos ht, log_ratio, if_neg h0]
  have h_integral_inv_zero (q : ℝ) : h_integral_inv q 0 = 1 := by
    clear * - q
    rw [h_integral_inv_eq q 0 (by norm_num)]
    simp
  have h_integral_exact_at_one (x : ℝ) : h_integral_exact 1 x = Real.log x := by
    clear * - x
    simp [h_integral_exact, exp_ratio]
  have h_integral_at_one (x : ℝ) : h_integral 1 x = Real.log x := by
    clear * - x
    have helper2_zero : helper2 0 = 1 := by
      clear * -
      norm_num [helper2]
    rw [h_integral_eq]
    simp [helper2_zero]
  have helper1_zero : helper1 0 = 1 := by
    clear * -
    norm_num [helper1]
  have h_integral_inv_pos (q u : ℝ) : 0 < h_integral_inv q u := by
    clear * - q u
    exact Real.exp_pos _
  have h_integral_inv_at_one (u : ℝ) : h_integral_inv 1 u = Real.exp u := by
    clear * - u helper1_zero
    rw [h_integral_inv_eq 1 u (by norm_num)]
    simp [helper1_zero]
  have h_integral_inv_exact_at_one (u : ℝ) : h_integral_inv_exact 1 u = Real.exp u := by
    clear * - u
    simp [h_integral_inv_exact, log_ratio]
  -- At the argument 0 the round trip is exact.
  have h_integral_h_integral_inv_zero (q : ℝ) : h_integral q (h_integral_inv q 0) = 0 := by
    clear * - q h_integral_inv_zero
    rw [h_integral_inv_zero, h_integral_eq, Real.log_one, mul_zero]
  -- At exponent 1 the code's inverse is a right inverse of the code's integral function.
  have h_integral_h_integral_inv_one (u : ℝ) : h_integral 1 (h_integral_inv 1 u) = u := by
    clear * - u h_integral_inv_at_one h_integral_at_one
    rw [h_integral_inv_at_one, h_integral_at_one, Real.log_exp]
  -- The documented inverse is a right inverse of the documented integral function on the
  -- domain `u * (1 - q) > -1`.
  have h_integral_exact_h_integral_inv_exact (q u : ℝ) (hdom : -1 < u * (1 - q)) :
      h_integral_exact q (h_integral_inv_exact q u) = u := by
    clear * - q u hdom h_integral_inv_exact_at_one h_integral_exact_at_one log_ratio_mul
    by_cases ha : 1 - q = 0
    · have hq : q = 1 := by linarith
      rw [hq, h_integral_inv_exact_at_one, h_integral_exact_at_one, Real.log_exp]
    · have h1 := h_integral_exact_closed q (h_integral_inv_exact q u)
      have h2 : (1 - q) * Real.log (h_integral_inv_exact q u) = Real.log (1 + u * (1 - q)) := by
        rw [h_integral_inv_exact, Real.log_exp, ← log_ratio_mul]
        ring
      rw [h2, Real.exp_log (by linarith)] at h1
      apply mul_left_cancel₀ ha
      linarith
  -- Where both helpers take their direct formulas, the code's inverse is a right inverse of
  -- the code's integral function.
  have h_integral_h_integral_inv_direct (q u : ℝ) (hdom : -1 < u * (1 - q))
      (h1 : |u * (1 - q)| > 1e-8) (h2 : |Real.log (1 + u * (1 - q))| > 1e-8) :
      h_integral q (h_integral_inv q u) = u := by
    clear * - q u hdom h1 h2 h_integral_exact_h_integral_inv_exact helper1_direct log_ratio_mul
    have e1 : h_integral_inv q u = h_integral_inv_exact q u := by
      rw [h_integral_inv_eq q u hdom.le, helper1_direct _ h1, h_integral_inv_exact]
    have e2 : (1 - q) * Real.log (h_integral_inv_exact q u) = Real.log (1 + u * (1 - q)) := by
      rw [h_integral_inv_exact, Real.log_exp, ← log_ratio_mul]
      ring
    rw [e1, h_integral_eq, helper2_direct _ (by rw [e2]; exact h2)]
    exact h_integral_exact_h_integral_inv_exact q u hdom
  have _ := hq
  refine ⟨h_integral_inv_pos exponent x,
    h_integral_exact_h_integral_inv_exact exponent x hdom, ?_⟩
  rintro (h1 | h0 | ⟨h1, h2⟩)
  · subst h1
    exact h_integral_h_integral_inv_one x
  · subst h0
    exact h_integral_h_integral_inv_zero exponent
  · exact h_integral_h_integral_inv_direct exponent x hdom h1 h2

/-- Witness of C15 (amended) at `exponent = 2`, `x = 1/2`: `t = -1/2` and `log (1/2)` are
both outside the window of the series. -/
theorem C15_inverse_witness :
    0 < h_integral_inv 2 (1 / 2) ∧
      h_integral_exact 2 (h_integral_inv_exact 2 (1 / 2)) = 1 / 2 ∧
      h_integral 2 (h_integral_inv 2 (1 / 2)) = 1 / 2 := by
  obtain ⟨h1, h2, h3⟩ := C15_inverse 2 (1 / 2) (by norm_num) (by norm_num)
  refine ⟨h1, h2, h3 (Or.inr (Or.inr ⟨by norm_num [abs_of_pos], ?_⟩))⟩
  have e : (1:ℝ) + 1 / 2 * (1 - 2) = 2⁻¹ := by norm_num
  have hl2 : (0.6931471803 : ℝ) < Real.log 2 := Real.log_two_gt_d9
  rw [e, Real.log_inv, abs_neg, abs_of_pos (by linarith)]
  norm_num at hl2 ⊢
  linarith

/-- C15, counterexample: at `exponent = 2` and `x = 1e-9` (in the domain, as
`x * (1 - 2) = -1e-9 > -1`) both helpers take their series, and
`h_integral(h_integral_inv(x))` differs from `x`. -/
theorem C15_counterexample :
    (0:ℝ) < 2 ∧ (1e-9 : ℝ) * (1 - 2) > -1 ∧
      h_integral 2 (h_integral_inv 2 1e-9) ≠ 1e-9 := by
  have helper1_series (x : ℝ) (hx : |x| ≤ 1e-8) :
      helper1 x = 1 - x / 2 + x ^ 2 / 3 - x ^ 3 / 4 := by
    clear * - x hx
    have hx' : ¬ (|x| > 1e-8) := not_lt.mpr hx
    rw [helper1, if_neg hx']
    norm_num
    ring
  -- The round trip through the two series at `q = 2`, `u = 1e-9`.
  have round_trip_series :
      h_integral 2 (h_integral_inv 2 1e-9) =
        (1 + (-(1 + 1e-9 / 2 + (1e-9 : ℝ) ^ 2 / 3 + (1e-9 : ℝ) ^ 3 / 4) * 1e-9) / 2 +
          (-(1 + 1e-9 / 2 + (1e-9 : ℝ) ^ 2 / 3 + (1e-9 : ℝ) ^ 3 / 4) * 1e-9) ^ 2 / 6 +
          (-(1 + 1e-9 / 2 + (1e-9 : ℝ) ^ 2 / 3 + (1e-9 : ℝ) ^ 3 / 4) * 1e-9) ^ 3 / 24) *
          ((1 + 1e-9 / 2 + (1e-9 : ℝ) ^ 2 / 3 + (1e-9 : ℝ) ^ 3 / 4) * 1e-9) := by
    clear * - helper1_series
    have ht : (1e-9 : ℝ) * (1 - 2) = -1e-9 := by norm_num
    have h1 : helper1 (-1e-9) = 1 + 1e-9 / 2 + (1e-9 : ℝ) ^ 2 / 3 + (1e-9 : ℝ) ^ 3 / 4 := by
      rw [helper1_series _ (by norm_num [abs_of_pos])]
      ring
    have e1 : h_integral_inv 2 1e-9 =
        Real.exp ((1 + 1e-9 / 2 + (1e-9 : ℝ) ^ 2 / 3 + (1e-9 : ℝ) ^ 3 / 4) * 1e-9) := by
      rw [h_integral_inv_eq 2 1e-9 (by norm_num), ht, h1]
    have e2 : ((1:ℝ) - 2) * ((1 + 1e-9 / 2 + (1e-9 : ℝ) ^ 2 / 3 + (1e-9 : ℝ) ^ 3 / 4) * 1e-9) =
        -(1 + 1e-9 / 2 + (1e-9 : ℝ) ^ 2 / 3 + (1e-9 : ℝ) ^ 3 / 4) * 1e-9 := by ring
    rw [e1, h_integral_eq, Real.log_exp, e2,
      helper2_series _ (by rw [abs_le]; constructor <;> norm_num)]
  refine ⟨by norm_num, by norm_num, ?_⟩
  rw [round_trip_series]
  norm_num

/-- C11, amended: for `exponent > 0`, the function `f(m) = m - Hinv(H(m + 0.5) - h(m))`
built from the documented transforms (the exact `log(1 + t) / t` and `(e^y - 1) / y`) is
non-decreasing on the reals `m ≥ 1`.  For the code's transforms, `f(k) ≥ f(2) = s_` holds
for every integer `k ≥ 2`, and `f` is non-decreasing on the reals `m ≥ 2` when the
exponent is 1 or at least `1e-7` away from 1. -/
theorem C11_f_monotone (num_elements : Int) (exponent : ℝ) (hn : 1 ≤ num_elements)
    (hq : 0 < exponent) :
    (∀ m m' : ℝ, 1 ≤ m → m ≤ m' →
      m - h_integral_inv_exact exponent (h_integral_exact exponent (m + 0.5) - h exponent m) ≤
        m' - h_integral_inv_exact exponent
          (h_integral_exact exponent (m' + 0.5) - h exponent m')) ∧
    (∃ z, ZipfDistribution.new num_elements exponent = .ok z ∧
      z.s_ = 2 - h_integral_inv z.exponent_ (h_integral z.exponent_ (2 + 0.5) - h z.exponent_ 2) ∧
      ∀ k : Int, 2 ≤ k →
        z.s_ ≤ (k : ℝ) -
          h_integral_inv z.exponent_
            (h_integral z.exponent_ ((k : ℝ) + 0.5) - h z.exponent_ (k : ℝ))) ∧
    ((exponent = 1 ∨ 1e-7 ≤ |1 - exponent|) → ∀ m m' : ℝ, 2 ≤ m → m ≤ m' →
      m - h_integral_inv exponent (h_integral exponent (m + 0.5) - h exponent m) ≤
        m' - h_integral_inv exponent (h_integral exponent (m' + 0.5) - h exponent m')) := by
  have h_pos (q x : ℝ) : 0 < h q x := by
    clear * - q x
    exact Real.exp_pos _
  -- For every integer `k ≥ 2` the code's `f(k)` is at least `f(2)`.
  have code_f_ge_at_two (q : ℝ) (hq : 0 < q) (k : Int) (hk : 2 ≤ k) :
      2 - h_integral_inv q (h_integral q (5 / 2) - h q 2) ≤
        (k : ℝ) - h_integral_inv q (h_integral q ((k : ℝ) + 1 / 2) - h q (k : ℝ)) := by
    clear * - q hq k hk
    rcases eq_or_lt_of_le hk with h2 | h2
    · rw [← h2]
      norm_num
    · have h3 : (3:ℝ) ≤ (k : ℝ) := by exact_mod_cast (show (3:Int) ≤ k by omega)
      have := code_candidate_le q (k : ℝ) hq h3
      linarith
  -- At exponent 1 and away from it, the code's `f` is non-decreasing on the reals from 2.
  have code_f_monotone (q m m' : ℝ) (hq : 0 < q) (hreg : q = 1 ∨ 1e-7 ≤ |1 - q|)
      (hm : 2 ≤ m) (hmm : m ≤ m') :
      m - h_integral_inv q (h_integral q (m + 1 / 2) - h q m) ≤
        m' - h_integral_inv q (h_integral q (m' + 1 / 2) - h q m') := by
    clear * - q m m' hq hreg hm hmm h_pos
    -- At exponent 1 and away from it, the code's candidate of a real `m ≥ 2` is the one of the
    -- documented transforms.
    have code_candidate_eq_exact (q m : ℝ) (hq : 0 < q) (hreg : q = 1 ∨ 1e-7 ≤ |1 - q|)
        (hm : 2 ≤ m) :
        h_integral_inv q (h_integral q (m + 1 / 2) - h q m) =
          h_integral_inv_exact q (h_integral_exact q (m + 1 / 2) - h q m) := by
      clear * - q m hq hreg hm h_pos
      have hHH := h_le_integral q m hq.le (by linarith)
      have hlo : h_integral_exact q (3 / 2) ≤ h_integral_exact q (m - 1 / 2) := by
        rcases eq_or_lt_of_le hm with h2 | h2
        · rw [← h2]; norm_num
        · exact (h_integral_exact_strictMono q _ _ hq.le (by norm_num) (by linarith)).le
      have hp := h_pos q m
      rw [regime_h_integral q (m + 1 / 2) hreg (by linarith)]
      exact regime_h_integral_inv q _ (m + 1 / 2) hq hreg (by linarith) (by linarith)
    rw [code_candidate_eq_exact q m hq hreg hm,
      code_candidate_eq_exact q m' hq hreg (hm.trans hmm)]
    exact exact_f_monotone q m m' hq (by linarith) hmm
  have e5 : (0.5 : ℝ) = 1 / 2 := by norm_num
  refine ⟨?_, ⟨_, new_ok num_elements exponent (by omega) hq, ?_, ?_⟩, ?_⟩
  · intro m m' hm hmm
    rw [e5]
    exact exact_f_monotone exponent m m' hq hm hmm
  · show 2 - h_integral_inv exponent (h_integral exponent 2.5 - h exponent 2) =
      2 - h_integral_inv exponent (h_integral exponent (2 + 0.5) - h exponent 2)
    norm_num
  · intro k hk
    show 2 - h_integral_inv exponent (h_integral exponent 2.5 - h exponent 2) ≤
      (k : ℝ) - h_integral_inv exponent (h_integral exponent ((k : ℝ) + 0.5) - h exponent k)
    have := code_f_ge_at_two exponent hq k hk
    rw [e5]
    norm_num at this ⊢
    exact this
  · intro hreg m m' hm hmm
    rw [e5]
    exact code_f_monotone exponent m m' hq hreg hm hmm

/-- Witness of C11 (amended) at `num_elements = 10`, `exponent = 2`: the documented `f` at
`m = 1`, `m' = 2`, the code's `f` at `k = 5` against `s_`, and the code's `f` at `m = 2`,
`m' = 3`. -/
theorem C11_f_monotone_witness :
    (1 - h_integral_inv_exact 2 (h_integral_exact 2 (1 + 0.5) - h 2 1) ≤
        2 - h_integral_inv_exact 2 (h_integral_exact 2 (2 + 0.5) - h 2 2)) ∧
    (∃ z, ZipfDistribution.new 10 2 = .ok z ∧
      z.s_ ≤ ((5 : Int) : ℝ) -
        h_integral_inv z.exponent_
          (h_integral z.exponent_ (((5 : Int) : ℝ) + 0.5) - h z.exponent_ ((5 : Int) : ℝ))) ∧
    (2 - h_integral_inv 2 (h_integral 2 (2 + 0.5) - h 2 2) ≤
        3 - h_integral_inv 2 (h_integral 2 (3 + 0.5) - h 2 3)) := by
  obtain ⟨h1, ⟨z, hz, _, h2⟩, h3⟩ := C11_f_monotone 10 2 (by norm_num) (by norm_num)
  exact ⟨h1 1 2 (le_refl _) (by norm_num), ⟨z, hz, h2 5 (by norm_num)⟩,
    h3 (Or.inr (by norm_num [abs_of_neg])) 2 3 (le_refl _) (by norm_num)⟩

/-- C11, counterexample: at `exponent = 1 - 1e-8`, `m = e - 1/2` and `m' = m + 1e-35`
(so `1 ≤ m ≤ m'`), `helper2` takes its series at `m + 0.5 = e` (its argument is exactly
`1e-8`) and its direct formula at `m' + 0.5`; the value of `h_integral` jumps up and
`f(m') < f(m)` for the code's `f(m) = m - h_integral_inv(h_integral(m + 0.5) - h(m))`. -/
theorem C11_counterexample :
    (0:ℝ) < 1 - 1e-8 ∧ (1:ℝ) ≤ Real.exp 1 - 1 / 2 ∧
      Real.exp 1 - 1 / 2 ≤ Real.exp 1 - 1 / 2 + 1e-35 ∧
      (Real.exp 1 - 1 / 2 + 1e-35) -
          h_integral_inv (1 - 1e-8)
            (h_integral (1 - 1e-8) ((Real.exp 1 - 1 / 2 + 1e-35) + 0.5) -
              h (1 - 1e-8) (Real.exp 1 - 1 / 2 + 1e-35)) <
        (Real.exp 1 - 1 / 2) -
          h_integral_inv (1 - 1e-8)
            (h_integral (1 - 1e-8) ((Real.exp 1 - 1 / 2) + 0.5) -
              h (1 - 1e-8) (Real.exp 1 - 1 / 2)) := by
  have exp_ratio_sub_one_abs (y : ℝ) (hy : |y| ≤ 1) : |exp_ratio y - 1| ≤ |y| := by
    clear * - y hy
    unfold exp_ratio
    split_ifs with h0
    · simp
    · have hb := Real.abs_exp_sub_one_sub_id_le hy
      have hpos : 0 < |y| := abs_pos.mpr h0
      have e : (Real.exp y - 1) / y - 1 = (Real.exp y - 1 - y) / y := by field_simp
      rw [e, abs_div, div_le_iff₀ hpos]
      calc |Real.exp y - 1 - y| ≤ y ^ 2 := hb
        _ = |y| * |y| := by rw [abs_mul_abs_self]; ring
  have helper1_series (x : ℝ) (hx : |x| ≤ 1e-8) :
      helper1 x = 1 - x / 2 + x ^ 2 / 3 - x ^ 3 / 4 := by
    clear * - x hx
    have hx' : ¬ (|x| > 1e-8) := not_lt.mpr hx
    rw [helper1, if_neg hx']
    norm_num
    ring
  have h_eq (q x : ℝ) : h q x = Real.exp (-q * Real.log x) := by
    clear * - q x
    exact rfl
  have h_le_one (q x : ℝ) (hq : 0 ≤ q) (hx : 1 ≤ x) : h q x ≤ 1 := by
    clear * - q x hq hx h_eq
    rw [h_eq, ← Real.exp_zero]
    apply Real.exp_le_exp.mpr
    have := Real.log_nonneg hx
    nlinarith
  have h_antitone (q x y : ℝ) (hq : 0 ≤ q) (hx : 0 < x) (hxy : x ≤ y) : h q y ≤ h q x := by
    clear * - q x y hq hx hxy h_eq
    rw [h_eq, h_eq]
    apply Real.exp_le_exp.mpr
    have := Real.log_le_log hx hxy
    nlinarith
  -- Across the switch of `helper2` at `x = e`, the function
  -- `f(m) = m - h_integral_inv(h_integral(m + 1/2) - h(m))` of the exponent `1 - 1e-8` drops.
  have f_drop_at_switch (q δ : ℝ) (ha : 1 - q = 1e-8) (hδ0 : 0 < δ) (hδ : δ ≤ 1e-35) :
      (Real.exp 1 - 1 / 2 + δ) -
          h_integral_inv q (h_integral q (Real.exp 1 + δ) - h q (Real.exp 1 - 1 / 2 + δ)) <
        (Real.exp 1 - 1 / 2) -
          h_integral_inv q (h_integral q (Real.exp 1) - h q (Real.exp 1 - 1 / 2)) := by
    clear * - q δ ha hδ0 hδ h_antitone h_le_one h_eq helper1_series exp_ratio_sub_one_abs
    -- Values of the two transforms around the switch of `helper2` at `x = e`, for the exponent
    -- `1 - 1e-8`: the argument of the inverse jumps up by at least `1e-32 / 120`, and stays in
    -- `[0, 1]`.
    have switch_arguments (q δ : ℝ) (ha : 1 - q = 1e-8) (hδ0 : 0 < δ) (hδ : δ ≤ 1 / 10) :
        0 ≤ h_integral q (Real.exp 1) - h q (Real.exp 1 - 1 / 2) ∧
          h_integral q (Real.exp 1) - h q (Real.exp 1 - 1 / 2) + (1e-8 : ℝ) ^ 4 / 120 ≤
            h_integral q (Real.exp 1 + δ) - h q (Real.exp 1 - 1 / 2 + δ) ∧
          h_integral q (Real.exp 1 + δ) - h q (Real.exp 1 - 1 / 2 + δ) ≤ 1 := by
      clear * - q δ ha hδ0 hδ h_antitone h_le_one h_eq exp_ratio_sub_one_abs
      -- A lower bound of `h` for exponents at most 1.
      have inv_le_h (q x : ℝ) (hq : q ≤ 1) (hx : 1 ≤ x) : 1 / x ≤ h q x := by
        clear * - q x hq hx h_eq
        have hx0 : 0 < x := by linarith
        have hl : 0 ≤ Real.log x := Real.log_nonneg hx
        have e : 1 / x = Real.exp (-Real.log x) := by
          rw [Real.exp_neg, Real.exp_log hx0, one_div]
        rw [e, h_eq]
        apply Real.exp_le_exp.mpr
        nlinarith
      -- The logarithm just after `e`: `1 < log (e + δ) ≤ 1 + δ`.
      have log_after_e (δ : ℝ) (hδ : 0 < δ) :
          1 < Real.log (Real.exp 1 + δ) ∧ Real.log (Real.exp 1 + δ) ≤ 1 + δ := by
        clear * - δ hδ
        have hE := Real.exp_pos 1
        have hE1 : 1 ≤ Real.exp 1 := Real.one_le_exp zero_le_one
        constructor
        · have := Real.log_lt_log hE (by linarith : Real.exp 1 < Real.exp 1 + δ)
          rwa [Real.log_exp] at this
        · have h1 := Real.log_le_sub_one_of_pos (div_pos (by linarith : 0 < Real.exp 1 + δ) hE)
          rw [Real.log_div (by linarith) hE.ne', Real.log_exp] at h1
          have h2 : (Real.exp 1 + δ) / Real.exp 1 = 1 + δ / Real.exp 1 := by
            field_simp
          have h3 : δ / Real.exp 1 ≤ δ := div_le_self hδ.le hE1
          linarith
      -- On the positive half of its window, the series of `helper2` is below the direct formula
      -- by at least the first omitted term.
      have helper2_add_le_exp_ratio (y : ℝ) (hy : 0 < y) (hser : |y| ≤ 1e-8) :
          helper2 y + y ^ 4 / 120 ≤ exp_ratio y := by
        clear * - y hy hser
        have h6 := Real.sum_le_exp_of_nonneg hy.le 6
        simp only [Finset.sum_range_succ, Finset.sum_range_zero, Nat.factorial] at h6
        norm_num at h6
        rw [helper2_series y hser, exp_ratio, if_neg hy.ne', le_div_iff₀ hy]
        linarith
      have hq0 : 0 ≤ q := by norm_num at ha; linarith
      have hq1 : q ≤ 1 := by norm_num at ha; linarith
      have hE : (2.7182818283 : ℝ) < Real.exp 1 := Real.exp_one_gt_d9
      have hE' : Real.exp 1 < (2.7182818286 : ℝ) := Real.exp_one_lt_d9
      have hm1 : (1:ℝ) ≤ Real.exp 1 - 1 / 2 := by norm_num at hE ⊢; linarith
      obtain ⟨hL1, hL2⟩ := log_after_e δ hδ0
      -- the value at `e`, through the series
      have hser : |(1e-8 : ℝ)| ≤ 1e-8 := by rw [abs_of_pos (by norm_num)]
      have hc : h_integral q (Real.exp 1) = helper2 1e-8 := by
        rw [h_integral_eq, Real.log_exp, ha, mul_one, mul_one]
      -- the value after `e`, through the direct formula
      have hdir : |(1 - q) * Real.log (Real.exp 1 + δ)| > 1e-8 := by
        rw [ha, abs_of_pos (by positivity)]
        have : (0:ℝ) < 1e-8 := by norm_num
        nlinarith
      have hc' : h_integral q (Real.exp 1 + δ) = h_integral_exact q (Real.exp 1 + δ) := by
        rw [h_integral_eq, helper2_direct _ hdir, h_integral_exact]
      have hx : h_integral_exact q (Real.exp 1) = exp_ratio 1e-8 := by
        rw [h_integral_exact, Real.log_exp, ha, mul_one, mul_one]
      have hmono := (h_integral_exact_strictMono q (Real.exp 1) (Real.exp 1 + δ) hq0
        (Real.exp_pos 1) (by linarith)).le
      have hgap := helper2_add_le_exp_ratio 1e-8 (by norm_num) hser
      have hh := h_antitone q (Real.exp 1 - 1 / 2) (Real.exp 1 - 1 / 2 + δ) hq0 (by linarith)
        (by linarith)
      have hh1 := h_le_one q (Real.exp 1 - 1 / 2) hq0 hm1
      have hs1 : (1:ℝ) ≤ helper2 1e-8 := by
        rw [helper2_series _ hser]
        norm_num
      refine ⟨?_, ?_, ?_⟩
      · rw [hc]; linarith
      · rw [hc, hc', ← hx] at *
        linarith
      · have hlow := inv_le_h q (Real.exp 1 - 1 / 2 + δ) hq1 (by linarith)
        have hthird : (1:ℝ) / 3 ≤ 1 / (Real.exp 1 - 1 / 2 + δ) := by
          apply one_div_le_one_div_of_le (by linarith)
          norm_num at hE' ⊢
          linarith
        have hy : |(1 - q) * Real.log (Real.exp 1 + δ)| ≤ 1 / 10 := by
          rw [ha, abs_of_pos (by positivity)]
          have : (0:ℝ) < 1e-8 := by norm_num
          have h2 : (1e-8 : ℝ) ≤ 1 / 100 := by norm_num
          nlinarith
        have hr := (abs_le.mp (exp_ratio_sub_one_abs _ (hy.trans (by norm_num)))).2
        have hr' : exp_ratio ((1 - q) * Real.log (Real.exp 1 + δ)) ≤ 1 + 1 / 10 := by linarith
        have hval : h_integral_exact q (Real.exp 1 + δ) ≤ (1 + 1 / 10) * (1 + 1 / 10) := by
          rw [h_integral_exact]
          exact mul_le_mul hr' (by linarith) (by linarith) (by norm_num)
        rw [hc']
        norm_num at hval ⊢
        linarith
    -- Growth of the code's inverse inside the window of the series of `helper1`: on `[0, 1]`
    -- it grows at least half as fast as its argument, for exponents in `[1 - 1e-8, 1]`.
    have h_integral_inv_growth (q u v : ℝ) (ha0 : 0 ≤ 1 - q) (ha : 1 - q ≤ 1e-8) (hu : 0 ≤ u)
        (huv : u ≤ v) (hv : v ≤ 1) :
        (v - u) / 2 ≤ h_integral_inv q v - h_integral_inv q u := by
      clear * - q u v ha0 ha hu huv hv helper1_series
      -- The series of `helper1` is nonnegative on `[0, 1e-8]`.
      have log_series_nonneg (t : ℝ) (ht0 : 0 ≤ t) (ht : t ≤ 1 / 100000000) :
          0 ≤ 1 - t / 2 + t ^ 2 / 3 - t ^ 3 / 4 := by
        clear * - t ht0 ht
        have h2 : t ^ 2 ≤ 1 := by
          have := mul_le_mul (ht.trans (by norm_num : (1:ℝ) / 100000000 ≤ 1))
            (ht.trans (by norm_num : (1:ℝ) / 100000000 ≤ 1)) ht0 zero_le_one
          rw [← sq] at this; linarith
        have h3 : t ^ 3 ≤ 1 / 100000000 := by
          have e : t ^ 3 = t * t ^ 2 := by ring
          have := mul_le_mul ht h2 (sq_nonneg t) (by norm_num : (0:ℝ) ≤ 1 / 100000000)
          rw [e]; linarith
        have h4 : 0 ≤ t ^ 2 := sq_nonneg t
        linarith
      -- Growth of `u * (1 - t/2 + t^2/3 - t^3/4)` at `t = u * a`, for `0 ≤ a ≤ 1e-8`, on
      -- `[0, 1]`.
      have log_series_growth (a u v : ℝ) (ha0 : 0 ≤ a) (ha : a ≤ 1 / 100000000) (hu : 0 ≤ u)
          (huv : u ≤ v) (hv : v ≤ 1) :
          (v - u) / 2 ≤
            (1 - v * a / 2 + (v * a) ^ 2 / 3 - (v * a) ^ 3 / 4) * v -
              (1 - u * a / 2 + (u * a) ^ 2 / 3 - (u * a) ^ 3 / 4) * u := by
        clear * - a u v ha0 ha hu huv hv
        have hv0 : 0 ≤ v := hu.trans huv
        have hd : 0 ≤ v - u := by linarith
        have h2 : v ^ 2 - u ^ 2 ≤ 2 * (v - u) := by
          have e : v ^ 2 - u ^ 2 = (v - u) * (v + u) := by ring
          rw [e, mul_comm 2]
          exact mul_le_mul_of_nonneg_left (by linarith) hd
        have h3 : 0 ≤ v ^ 3 - u ^ 3 := by
          have : v ^ 3 - u ^ 3 = (v - u) * (v ^ 2 + v * u + u ^ 2) := by ring
          rw [this]; positivity
        have hv2 : v ^ 2 ≤ 1 := by
          have := mul_le_mul hv hv hv0 zero_le_one
          rw [← sq] at this; linarith
        have hu2 : u ^ 2 ≤ 1 := by
          have := mul_le_mul (huv.trans hv) (huv.trans hv) hu zero_le_one
          rw [← sq] at this; linarith
        have h4 : v ^ 4 - u ^ 4 ≤ 4 * (v - u) := by
          have e : v ^ 4 - u ^ 4 = (v - u) * ((v + u) * (v ^ 2 + u ^ 2)) := by ring
          have hb : (v + u) * (v ^ 2 + u ^ 2) ≤ 2 * 2 :=
            mul_le_mul (by linarith) (by linarith) (by positivity) (by norm_num)
          rw [e, mul_comm 4]
          exact mul_le_mul_of_nonneg_left (by linarith) hd
        have ha2 : a ^ 2 ≤ 1 := by
          have := mul_le_mul (ha.trans (by norm_num : (1:ℝ) / 100000000 ≤ 1))
            (ha.trans (by norm_num : (1:ℝ) / 100000000 ≤ 1)) ha0 zero_le_one
          rw [← sq] at this; linarith
        have ha3 : a ^ 3 ≤ 1 / 100000000 := by
          have e : a ^ 3 = a * a ^ 2 := by ring
          have := mul_le_mul ha ha2 (sq_nonneg a) (by norm_num : (0:ℝ) ≤ 1 / 100000000)
          rw [e]; linarith
        have ha3' : 0 ≤ a ^ 3 := by positivity
        have e : (1 - v * a / 2 + (v * a) ^ 2 / 3 - (v * a) ^ 3 / 4) * v -
            (1 - u * a / 2 + (u * a) ^ 2 / 3 - (u * a) ^ 3 / 4) * u =
            (v - u) - a / 2 * (v ^ 2 - u ^ 2) + a ^ 2 / 3 * (v ^ 3 - u ^ 3) -
              a ^ 3 / 4 * (v ^ 4 - u ^ 4) := by ring
        rw [e]
        have t2 : a / 2 * (v ^ 2 - u ^ 2) ≤ a / 2 * (2 * (v - u)) :=
          mul_le_mul_of_nonneg_left h2 (by linarith)
        have t3 : 0 ≤ a ^ 2 / 3 * (v ^ 3 - u ^ 3) := by positivity
        have t4 : a ^ 3 / 4 * (v ^ 4 - u ^ 4) ≤ a ^ 3 / 4 * (4 * (v - u)) :=
          mul_le_mul_of_nonneg_left h4 (by linarith)
        have t5 : a * (v - u) ≤ 1 / 100000000 * (v - u) := mul_le_mul_of_nonneg_right ha hd
        have t6 : a ^ 3 * (v - u) ≤ 1 / 100000000 * (v - u) := mul_le_mul_of_nonneg_right ha3 hd
        linarith
      have ha' : 1 - q ≤ 1 / 100000000 := by norm_num at ha ⊢; exact ha
      have hv0 : 0 ≤ v := hu.trans huv
      have hu1 : u ≤ 1 := huv.trans hv
      have htu0 : 0 ≤ u * (1 - q) := mul_nonneg hu ha0
      have htv0 : 0 ≤ v * (1 - q) := mul_nonneg hv0 ha0
      have htu : u * (1 - q) ≤ 1 / 100000000 := by
        have := mul_le_mul hu1 ha' ha0 zero_le_one
        linarith
      have htv : v * (1 - q) ≤ 1 / 100000000 := by
        have := mul_le_mul hv ha' ha0 zero_le_one
        linarith
      have hsu : |u * (1 - q)| ≤ 1e-8 := by
        rw [abs_of_nonneg htu0]; norm_num; exact htu
      have hsv : |v * (1 - q)| ≤ 1e-8 := by
        rw [abs_of_nonneg htv0]; norm_num; exact htv
      have hg := log_series_growth (1 - q) u v ha0 ha' hu huv hv
      have hg0 : 0 ≤ (1 - u * (1 - q) / 2 + (u * (1 - q)) ^ 2 / 3 - (u * (1 - q)) ^ 3 / 4) * u :=
        mul_nonneg (log_series_nonneg _ htu0 htu) hu
      rw [h_integral_inv_eq q u (by linarith), h_integral_inv_eq q v (by linarith),
        helper1_series _ hsu, helper1_series _ hsv]
      generalize (1 - v * (1 - q) / 2 + (v * (1 - q)) ^ 2 / 3 - (v * (1 - q)) ^ 3 / 4) * v = gv
        at hg ⊢
      generalize (1 - u * (1 - q) / 2 + (u * (1 - q)) ^ 2 / 3 - (u * (1 - q)) ^ 3 / 4) * u = gu
        at hg hg0 ⊢
      have h12 : Real.exp gv = Real.exp gu * Real.exp (gv - gu) := by
        rw [← Real.exp_add]; congr 1; ring
      have h13 := Real.add_one_le_exp (gv - gu)
      have h14 := Real.one_le_exp hg0
      have h15 : 0 ≤ gv - gu := by linarith
      rw [h12]
      have h16 : Real.exp gu * (gv - gu + 1) ≤ Real.exp gu * Real.exp (gv - gu) :=
        mul_le_mul_of_nonneg_left h13 (by linarith)
      have h17 : 1 * (gv - gu) ≤ Real.exp gu * (gv - gu) := mul_le_mul_of_nonneg_right h14 h15
      linarith
    obtain ⟨h0, hgap, h1⟩ := switch_arguments q δ ha hδ0 (hδ.trans (by norm_num))
    have hpos : (0:ℝ) ≤ (1e-8 : ℝ) ^ 4 / 120 := by positivity
    have hg := h_integral_inv_growth q _ _ (by rw [ha]; norm_num) ha.le h0 (by linarith) h1
    have hnum : δ < ((1e-8 : ℝ) ^ 4 / 120) / 2 := lt_of_le_of_lt hδ (by norm_num)
    linarith
  have hE : (2.7182818283 : ℝ) < Real.exp 1 := Real.exp_one_gt_d9
  have e1 : (Real.exp 1 - 1 / 2 + 1e-35) + 0.5 = Real.exp 1 + 1e-35 := by norm_num; ring
  have e2 : (Real.exp 1 - 1 / 2) + 0.5 = Real.exp 1 := by norm_num
  refine ⟨by norm_num, by norm_num at hE ⊢; linarith, by norm_num, ?_⟩
  rw [e1, e2]
  exact f_drop_at_switch (1 - 1e-8) 1e-35 (by norm_num) (by norm_num) (le_refl _)

end Zipf
